import Mathlib

/-!
# Cunningham-chain search: sieve, chain locator and helpers

A shallow embedding of the C sources (`01.c`, `03.c`, `04.c`, `05.c`) of the
Cunningham / bi-twin chain hunter, followed by the properties proved about it.

Conventions of the embedding.

* A C `int` is an `Int`; an arithmetic result that could leave the 32-bit range
  is passed through `wrap32`, and the theorems show that on the inputs they
  cover the wrap is the identity.
* `/` and `%` on `int` are `Int.tdiv` and `Int.tmod` (truncation toward zero).
* A GMP integer (`mpz_t`) is an `Int`; `mpz_fdiv_ui` is `%` (floor remainder).
* A `while`/`for` loop is a function recursive on a fuel argument; the caller
  supplies fuel that the theorems show to be sufficient.
* The tunables (`SIEVESIZE`, `MAXPRIME`, `PRIMORIAL`, `MINACCEPT`, `MINCHAIN`)
  are arguments; the values the sources define are recorded as constants.
-/

namespace Cunningham

/-! ## Definitions -/

/-- Value of a 32-bit two's-complement `int` holding the integer `x`. -/
def wrap32 (x : Int) : Int := (x + 2147483648) % 4294967296 - 2147483648

/-- Local variables of `inverse` (`05.c` l.252-263) at the loop head. -/
structure InvState where
  a : Int
  b : Int
  x : Int
  y : Int
  lastx : Int
  lasty : Int
deriving DecidableEq, Repr

/-- Body of the `while(b)` loop of `inverse`:
`q=a/b; t=a,a=b,b=t%b; t=x,x=lastx-q*x,lastx=t; t=y,y=lasty-q*y,lasty=t;`. -/
def inverseStep (s : InvState) : InvState :=
  let q := wrap32 (Int.tdiv s.a s.b)
  { a := s.b
    b := Int.tmod s.a s.b
    x := wrap32 (s.lastx - wrap32 (q * s.x))
    lastx := s.x
    y := wrap32 (s.lasty - wrap32 (q * s.y))
    lasty := s.y }

/-- The `while(b)` loop of `inverse`, run for at most the given number of
iterations. -/
def inverseLoop : Nat → InvState → InvState
  | 0, s => s
  | n + 1, s => if s.b = 0 then s else inverseLoop n (inverseStep s)

/-- Function `inverse(a,p)` of `05.c` l.252-263 (identical in `03.c`, `04.c`):
extended Euclid with `b=p,x=0,y=1,lastx=1,lasty=0`, then
`lastx%=p; if(lastx<0) return lastx+p; return lastx;`.
The remainder `b` strictly decreases in absolute value, so `|p| + 1`
iterations always reach `b = 0`. -/
def inverse (a p : Int) : Int :=
  let s := inverseLoop (p.natAbs + 1) ⟨a, p, 0, 1, 1, 0⟩
  let lastx := Int.tmod s.lastx p
  if lastx < 0 then wrap32 (lastx + p) else lastx


/-- Bi-twin length of a candidate, `05.c` l.374-376 (same text in `01.c`
l.150-152, `03.c`, `04.c`):
`if(l1>l2) l3=l2+l2; else if(l1<l2) l3=l1+l1; else l3=l1+l2;`.
Chain lengths index `num[50][3]`, so the sums stay far inside the `int` range. -/
def l3 (l1 l2 : Int) : Int :=
  if l1 > l2 then l2 + l2 else if l1 < l2 then l1 + l1 else l1 + l2

/-- The loop of `isprime`, `05.c` l.84: `for(i=2;i*i<=n;i++) if(n%i==0) return 0;`
followed by `return 1;`. -/
def isprimeLoop (n : Int) : Nat → Int → Int
  | 0, _ => 1
  | fuel + 1, i =>
    if wrap32 (i * i) ≤ n then
      if Int.tmod n i = 0 then 0 else isprimeLoop n fuel (wrap32 (i + 1))
    else 1

/-- Function `isprime(n)` of `05.c` l.81-86: `if(n<4) return n>1;` then trial
division. The loop leaves as soon as `i*i > n`, so `n` iterations are enough. -/
def isprime (n : Int) : Int :=
  if n < 4 then (if n > 1 then 1 else 0) else isprimeLoop n n.toNat 2

/-- The loop of `genprimes`, `05.c` l.246:
`for(i=3;i<MAXPRIME;i+=2) if(isprime(i)) prim[pn++]=i;`.
The list is `prim[0..pn)`. -/
def genprimesLoop (MAXPRIME : Int) : Nat → Int → List Int → List Int
  | 0, _, prim => prim
  | fuel + 1, i, prim =>
    if i < MAXPRIME then
      genprimesLoop MAXPRIME fuel (wrap32 (i + 2))
        (if isprime i ≠ 0 then prim ++ [i] else prim)
    else prim

/-- Function `genprimes()` of `05.c` l.242-247: `pn=0; prim[pn++]=2;` and the
loop over the odd numbers below `MAXPRIME`. Returns the table `prim[0..pn)`. -/
def genprimes (MAXPRIME : Int) : List Int :=
  genprimesLoop MAXPRIME MAXPRIME.toNat 3 [2]

/-- `SIEVESIZE` of `05.c` l.45. -/
def SIEVESIZE : Int := 1000000

/-- `MAXPRIME` of `05.c` l.46. -/
def MAXPRIME : Int := 50000

/-- `PRIMORIAL` of `05.c` l.47. -/
def PRIMORIAL : Int := 31

/-- `MINACCEPT` of `05.c` l.54. -/
def MINACCEPT : Int := 5

/-- `MINCHAIN` of `05.c` l.55. -/
def MINCHAIN : Int := 6

/-- The two sieve arrays of `work` (`05.c` l.281, `04.c` l.249-250): element `i`
is `true` (the C value `1`) when `i*B-1`, respectively `i*B+1`, is known
composite. An array is the map from index to content. -/
structure Sieves where
  sieveminus : Int → Bool
  sieveplus : Int → Bool

/-- Marking loop `while(j<SIEVESIZE) sieve[j]=1,j+=p;` (`05.c` l.316, l.322). -/
def markLoop (S p : Int) : Nat → Int → (Int → Bool) → (Int → Bool)
  | 0, _, sieve => sieve
  | fuel + 1, j, sieve =>
    if j < S then
      markLoop S p fuel (wrap32 (j + p)) (fun i => if i = j then true else sieve i)
    else sieve

/-- Body of the sieving loop for one table prime `p` (`05.c` l.311-323):
`if((j=(int)mpz_fdiv_ui(origin,p))) { a=j=inverse(j,p); ...minus loop...;
j=(ll)a*(p-1)%p; ...plus loop... }`. The product `(ll)a*(p-1)` is 64-bit.
Each marking loop advances by `p ≥ 1`, so `SIEVESIZE` iterations suffice. -/
def sieveStep (S B p : Int) (sv : Sieves) : Sieves :=
  let j := B % p
  if j ≠ 0 then
    let a := inverse j p
    let j2 := Int.tmod (a * wrap32 (p - 1)) p
    { sieveminus := markLoop S p S.toNat a sv.sieveminus
      sieveplus := markLoop S p S.toNat j2 sv.sieveplus }
  else sv

/-- Entry `prim[i]` of the global table: `prim[0..pn)` is the list and the rest
of the zero-initialised array reads `0`. -/
def primAt (prim : List Int) (i : Nat) : Int := prim.getD i 0

/-- Skip loop `for(i=0;prim[i]<=PRIMORIAL;i++);` (`05.c` l.310), started at
index `i`. It returns the index it stops at, or `none` when it does not stop
inside `prim[0..pn)` (the C loop then runs over the zero tail of the array and
past its end). -/
def skipSmall (prim : List Int) (P : Int) : Nat → Nat → Option Nat
  | 0, _ => none
  | fuel + 1, i =>
    if i < prim.length then
      if primAt prim i ≤ P then skipSmall prim P fuel (i + 1) else some i
    else none

/-- Sieve build of `work` (`05.c` l.305-323): both arrays are zeroed, the primes
up to `PRIMORIAL` are skipped, and `sieveStep` runs for `prim[i]`, `i < pn`. -/
def buildSieves (S : Int) (prim : List Int) (P : Int) (B : Int) : Option Sieves :=
  match skipSmall prim P (prim.length + 1) 0 with
  | none => none
  | some i0 =>
    some ((prim.drop i0).foldl (fun sv p => sieveStep S B p sv)
      ⟨fun _ => false, fun _ => false⟩)

/-- Primorial adjustment `for(i=0;prim[i]<=PRIMORIAL;i++)
if(mpz_fdiv_ui(origin,prim[i])) mpz_mul_ui(origin,origin,prim[i]);`
(`05.c` l.303-304), started at index `i`. `none` when the loop leaves
`prim[0..pn)`: the next entry read is `0` and `mpz_fdiv_ui` divides by zero. -/
def primorialLoop (prim : List Int) (P : Int) : Nat → Nat → Int → Option Int
  | 0, _, _ => none
  | fuel + 1, i, origin =>
    if i < prim.length then
      if primAt prim i ≤ P then
        primorialLoop prim P fuel (i + 1)
          (if origin % primAt prim i ≠ 0 then origin * primAt prim i else origin)
      else some origin
    else none

/-- Origin `B` obtained from the raw hash integer `h` (`05.c` l.300-304). -/
def primorialAdjust (prim : List Int) (P : Int) (h : Int) : Option Int :=
  primorialLoop prim P (prim.length + 1) 0 h

/-- Naive minus-sieve of the specification: index `i` of `[1, SIEVESIZE)` is
marked when some table prime above `PRIMORIAL` divides `i*B - 1`. -/
def naiveSieveMinus (S : Int) (prim : List Int) (P : Int) (B : Int) (i : Int) : Bool :=
  decide (1 ≤ i ∧ i < S) && prim.any (fun p => decide (P < p) && decide ((i * B - 1) % p = 0))

/-- Naive plus-sieve: as `naiveSieveMinus`, for `i*B + 1`. -/
def naiveSievePlus (S : Int) (prim : List Int) (P : Int) (B : Int) (i : Int) : Bool :=
  decide (1 ≤ i ∧ i < S) && prim.any (fun p => decide (P < p) && decide ((i * B + 1) % p = 0))
/-- An integer with a divisor strictly between `1` and itself. -/
def IsComposite (n : Int) : Prop := ∃ d : Int, 1 < d ∧ d < n ∧ d ∣ n

/-- Square-and-multiply loop computing `acc * b^e mod m`. -/
def powmLoop (m : Nat) : Nat → Nat → Nat → Nat → Nat
  | 0, _, _, acc => acc
  | fuel + 1, b, e, acc =>
    if e = 0 then acc
    else powmLoop m fuel (b * b % m) (e / 2) (if e % 2 = 1 then acc * b % m else acc)

/-- GMP's `mpz_powm(rop,base,exp,mod)` for `exp ≥ 0`, `mod > 0`: `base^exp mod mod`,
by square-and-multiply (the exponent has fewer than `exp + 1` bits). -/
def powm (b e m : Nat) : Nat := powmLoop m (e + 1) (b % m) e (1 % m)

/-- `mpz_powm(res,two,p,p)` of `fermattest`: `2^p mod p`, for `p > 0` (GMP
raises an error on a zero modulus). -/
def powm2 (p : Int) : Int := (powm 2 p.toNat p.toNat : Nat)

/-- Function `fermattest(p)` of `05.c` l.106-110: `0==mpz_cmp(two,res)` after
`mpz_powm(res,two,p,p)`. -/
def fermattest (p : Int) : Bool := decide (powm2 p = 2)

/-- Function `eulerlagrangelifchitz` of `05.c` l.115-126: its first statement
is `return 1;`. -/
def eulerlagrangelifchitz (_p : Int) (_eq : Int) (_rel : Int) : Bool := true

/-- A value of `*f` as a pair (numerator, denominator) of integers; the
denominator is positive in every value the program produces (`-1` is `⟨-1, 1⟩`
and `0` is `⟨0, 1⟩`). `fraction` gives a residue as the exact quotient that the
`double` of the code approximates, `fractionD` gives the `double` itself, with a
power of two as denominator. -/
structure Frac where
  num : Int
  den : Int
deriving DecidableEq, Repr

/-- The rational value of a `Frac`. -/
def Frac.val (f : Frac) : Rat := (f.num : Rat) / (f.den : Rat)

/-- The test `*f<-0.1` of `findchain` (`05.c` l.233, l.235), for a positive
denominator: `num/den < -1/10`. -/
def Frac.isUnset (f : Frac) : Bool := decide (10 * f.num < -f.den)

/-- The exact quotient `(n - res)/n`, `res = 2^n mod n`, for the tested number
`n`: the value that the `double` `(z-mpz_get_d(res))/z` stored in `*f` by
`isbigprime` approximates (`fractionD` is that `double`, within `2^-51` of it). -/
def fraction (n : Int) : Frac := ⟨n - powm2 n, n⟩

/-- Function `isbigprime(n,mul,offs,f)` of `05.c` l.131-158. Returns the verdict
and the content of `*f` afterwards (`f` on entry; it is written only on a
composite verdict), the residue written being kept as the exact quotient
`fraction`; `isbigprimeD` writes it as the `double`. -/
def isbigprime (n mul offs : Int) (f : Frac) : Bool × Frac :=
  let temp3 := n * mul + offs
  if !fermattest temp3 then (false, fraction temp3)
  else if xor (temp3.toNat.testBit 1) (decide (offs = -1)) then
    if !eulerlagrangelifchitz temp3 1 (-offs) then (false, fraction temp3) else (true, f)
  else
    if !eulerlagrangelifchitz temp3 (-1) (-offs) then (false, fraction temp3) else (true, f)

/-- Loop `while(isbigprime(p,1,0,f)) { p=2p+1 or 2p-1; len++; }` of
`findchainstupid`; `none` when the fuel runs out before a composite verdict. -/
def stupidLoop (inc : Int) : Nat → Int → Int → Frac → Option (Int × Frac)
  | 0, _, _, _ => none
  | fuel + 1, p, len, f =>
    let r := isbigprime p 1 0 f
    if r.1 then
      stupidLoop inc fuel (if inc < 0 then p * 2 - 1 else p * 2 + 1) (len + 1) r.2
    else some (len, r.2)

/-- Function `findchainstupid(in,offs,inc,f)` of `05.c` l.161-177 (`04.c`
l.141-157): returns the length and the content of `*f`. -/
def findchainstupid (fuel : Nat) (inn offs inc : Int) (_f : Frac) : Option (Int × Frac) :=
  let p := inn + offs
  if p.toNat.testBit 0 = false then some (0, ⟨0, 1⟩)
  else stupidLoop inc fuel p 0 _f

/-- Variables of `findchain` that change across `restart`. -/
structure FC where
  lo : Int
  hi : Int
  mask : Nat
  f : Frac
  g : Frac
deriving DecidableEq

/-- Outcome of one test inside `findchain`: `goto restart` after `FIX`, or fall
through. -/
inductive Probe where
  | restart (s : FC)
  | cont (s : FC)
deriving DecidableEq

/-- Macro `FIX` of `05.c` l.190-193 with `m1=j-1`, `m2=j+1`:
`if(m1-lo>hi-m2) hi=m1,*f=g; else lo=m2;`. -/
def FIX (s : FC) (j : Int) : FC :=
  if (j - 1) - s.lo > s.hi - (j + 1) then { s with hi := j - 1, f := s.g }
  else { s with lo := j + 1 }

/-- One test
`if(!(mask&(1<<j)) && !isbigprime(origin,base<<j,offs,&g,context)) {m1=j-1;m2=j+1;FIX}
else mask|=1<<j;` of `findchain`. `O mul g` stands for the call
`isbigprime(origin,mul,offs,&g,context)`; it is evaluated only when bit `j` of
the mask is clear. `base<<j` is `base * 2^j`. -/
def testElem (O : Int → Frac → Bool × Frac) (base : Int) (s : FC) (j : Int) : Probe :=
  if s.mask.testBit j.toNat then .cont { s with mask := s.mask ||| 1 <<< j.toNat }
  else
    let r := O (base * 2 ^ j.toNat) s.g
    if r.1 then .cont { s with mask := s.mask ||| 1 <<< j.toNat, g := r.2 }
    else .restart (FIX { s with g := r.2 } j)

/-- Loop `for(i=0;i<=mid-lo;i++) { j=mid-i; test; j=mid2+i; test; }` of
`findchain` (`05.c` l.218-231). -/
def forLoop (O : Int → Frac → Bool × Frac) (base mid mid2 : Int) : Nat → Int → FC → Probe
  | 0, _, s => .cont s
  | fuel + 1, i, s =>
    if i ≤ mid - s.lo then
      match testElem O base s (mid - i) with
      | .restart s1 => .restart s1
      | .cont s1 =>
        match testElem O base s1 (mid2 + i) with
        | .restart s2 => .restart s2
        | .cont s2 => forLoop O base mid mid2 fuel (i + 1) s2
    else .cont s

/-- Result of `findchain`: returned length, content of `*f`, and `context->glo`
(`glo` in `04.c`). -/
structure ChainOut where
  len : Int
  f : Frac
  glo : Int
deriving DecidableEq

/-- The code of `findchain` from `restart:` to the end (`05.c` l.204-239).
`none` only when the fuel runs out. -/
def findchainLoop (O : Int → Frac → Bool × Frac) (MINACCEPT base : Int) (glo : Int) :
    Nat → FC → Option ChainOut
  | 0, _ => none
  | fuel + 1, s =>
    let len := s.hi - s.lo
    if len + 1 < MINACCEPT then some ⟨0, s.f, glo⟩
    else
      let mid := s.lo + Int.tdiv (s.hi - s.lo) 2
      let pre : Probe :=
        if len % 2 ≠ 0 then .cont s else testElem O base s mid
      match pre with
      | .restart s1 => findchainLoop O MINACCEPT base glo fuel s1
      | .cont s1 =>
        let mid' := if len % 2 ≠ 0 then mid else mid - 1
        match forLoop O base mid' (mid + 1) (mid' - s.lo + 1).toNat 0 s1 with
        | .restart s2 => findchainLoop O MINACCEPT base glo fuel s2
        | .cont s2 =>
          let f' := if s2.f.isUnset then (O (base * 2 ^ (s2.hi + 1).toNat) s2.f).2 else s2.f
          some ⟨s2.hi - s2.lo + 1, f', s2.lo⟩

/-- Function `findchain(base,lo,hi,mask,origin,offs,f,context)` of `05.c`
l.201-240 (`04.c` l.183-222) with its calls `isbigprime(origin,·,offs,·,context)`
as the parameter `O`, and `context->glo` on entry as `glo`. Every `restart`
follows a `FIX`, which shortens the range, so one round more than the number of
elements suffices. -/
def findchainWith (O : Int → Frac → Bool × Frac) (MINACCEPT base lo hi : Int) (mask : Nat)
    (f : Frac) (glo : Int) : Option ChainOut :=
  findchainLoop O MINACCEPT base glo ((hi - lo + 1).toNat + 1) ⟨lo, hi, mask, f, ⟨0, 1⟩⟩

/-- Function `findchain` with the oracle of the source, `isbigprime`. -/
def findchain (MINACCEPT base lo hi : Int) (mask : Nat) (origin offs : Int) (f : Frac)
    (glo : Int) : Option ChainOut :=
  findchainWith (fun mul g => isbigprime origin mul offs g) MINACCEPT base lo hi mask f glo

/-- Contiguity check `for(k=0;k<MINCHAIN;k++) if(sieve[i<<k]) goto fail;`
(`05.c` l.338, l.357): `true` when no element is marked. -/
def contiguous (sieve : Int → Bool) (i MINCHAIN : Int) : Nat → Int → Bool
  | 0, _ => true
  | fuel + 1, k =>
    if k < MINCHAIN then
      if sieve (i * 2 ^ k.toNat) then false else contiguous sieve i MINCHAIN fuel (k + 1)
    else true

/-- Extension loop under `BEYOND` (`05.c` l.343-351, l.361-369):
`while(1) { if((i<<k)<SIEVESIZE) { if(sieve[i<<k]) break; } else
{ if(isbigprime(origin,i<<k,offs,&f,&context)) mask|=1<<k; else break; } k++; }`.
Returns `k`, `mask` and `*f` at the `break`; `none` when the fuel runs out. -/
def beyondLoop (O : Int → Frac → Bool × Frac) (sieve : Int → Bool) (S i : Int) :
    Nat → Int → Nat → Frac → Option (Int × Nat × Frac)
  | 0, _, _, _ => none
  | fuel + 1, k, mask, f =>
    if i * 2 ^ k.toNat < S then
      if sieve (i * 2 ^ k.toNat) then some (k, mask, f)
      else beyondLoop O sieve S i fuel (k + 1) mask f
    else
      let r := O (i * 2 ^ k.toNat) f
      if r.1 then beyondLoop O sieve S i fuel (k + 1) (mask ||| 1 <<< k.toNat) r.2
      else some (k, mask, r.2)

/-- One side of the scan for the candidate `i` (`05.c` l.337-355 for the minus
side, l.356-373 for the plus side; `04.c` l.310-346), after `l=f=0`:
gating `(i&1) || sieve[i>>1]`, contiguity check, `mask=0; f=-1;`, extension
loop and `l=findchain(i,0,k-1,mask,origin,offs,&f)`. Returns the length, `f`
and `glo` afterwards. -/
def scanSide (O : Int → Frac → Bool × Frac) (sieve : Int → Bool)
    (S MINCHAIN MINACCEPT i glo : Int) (fuel : Nat) : Option ChainOut :=
  if i % 2 ≠ 0 ∨ sieve (i / 2) = true then
    if contiguous sieve i MINCHAIN MINCHAIN.toNat 0 then
      match beyondLoop O sieve S i fuel MINCHAIN 0 ⟨-1, 1⟩ with
      | none => none
      | some (k, mask, f) => findchainWith O MINACCEPT i 0 (k - 1) mask f glo
    else some ⟨0, ⟨0, 1⟩, glo⟩
  else some ⟨0, ⟨0, 1⟩, glo⟩

/-- Length of the longest run of consecutive passing elements, scanning `n`
elements from `j` with the current run `cur` and the best so far `best`. -/
def runScan (Pj : Int → Bool) : Nat → Int → Nat → Nat → Nat
  | 0, _, _, best => best
  | n + 1, j, cur, best =>
    if Pj j then runScan Pj n (j + 1) (cur + 1) (max best (cur + 1))
    else runScan Pj n (j + 1) 0 best

/-- Length of the longest run of consecutive oracle-passing elements contained
in `[lo, hi]`. -/
def longestRun (Pj : Int → Bool) (lo hi : Int) : Nat :=
  runScan Pj (hi - lo + 1).toNat lo 0 0

/-- Loop of `findchain1stupid` (`rel = 1`, `01.c` l.66-77) and `findchain2stupid`
(`rel = -1`, `01.c` l.98-109):
`while(fermattest(p) && len<48) { len++; if(!eulerlagrangelifchitz(..)) goto fail;
p=p+p+rel; }` and the code after it, `*f=(z-res)/z` with `z = p`. At `fail` the
fraction is taken from `power`, which `eulerlagrangelifchitz` never writes
(it is still `0`). The cap `len<48` bounds the iterations by `48`. -/
def stupid01Loop (rel : Int) : Nat → Int → Int → Int × Frac
  | 0, p, len => (len, fraction p)
  | fuel + 1, p, len =>
    if fermattest p && decide (len < 48) then
      if !eulerlagrangelifchitz p (if p.toNat.testBit 1 then rel else -rel) rel then
        (len + 1, ⟨0 - powm2 p, 0⟩)
      else stupid01Loop rel fuel (p + p + rel) (len + 1)
    else (len, fraction p)

/-- Function `findchain1stupid(in,f)` of `01.c` l.60-89: chain `p → 2p+1`. -/
def findchain1stupid (inn : Int) : Int × Frac :=
  if inn.toNat.testBit 0 = false then (0, ⟨0, 1⟩) else stupid01Loop 1 49 inn 0

/-- Function `findchain2stupid(in,f)` of `01.c` l.92-121: chain `p → 2p-1`. -/
def findchain2stupid (inn : Int) : Int × Frac :=
  if inn.toNat.testBit 0 = false then (0, ⟨0, 1⟩) else stupid01Loop (-1) 49 inn 0
/-- Function `hex(c)` of `05.c` l.73-76 (`01.c` l.24-27):
`if(c>9) return c-10+'a'; else return c+48;`. -/
def hex (c : Int) : Int := if c > 9 then c - 10 + 97 else c + 48

/-- The loop `for(i=0;i<32;i++) t[i*2]=hex(u[i]>>4),t[i*2+1]=hex(u[i]&15);`
(`05.c` l.297) over the bytes `u`: the characters of `t`. -/
def hexString : List Nat → List Int
  | [] => []
  | b :: u => hex ((b >>> 4 : Nat) : Int) :: hex ((b &&& 15 : Nat) : Int) :: hexString u

/-- Value of a hexadecimal digit character, as GMP reads it. -/
def hexDigit (c : Int) : Option Int :=
  if 48 ≤ c ∧ c ≤ 57 then some (c - 48)
  else if 97 ≤ c ∧ c ≤ 102 then some (c - 87)
  else if 65 ≤ c ∧ c ≤ 70 then some (c - 55)
  else none

/-- GMP's `mpz_set_str(rop,str,16)` on a string of digits, most significant
first: `none` when a character is not a hexadecimal digit. -/
def setStr16 : List Int → Int → Option Int
  | [], acc => some acc
  | c :: t, acc =>
    match hexDigit c with
    | none => none
    | some d => setStr16 t (acc * 16 + d)

/-- Value of a 64-bit two's-complement `long long` holding the integer `x`. -/
def wrap64 (x : Int) : Int := (x + 9223372036854775808) % 18446744073709551616 - 9223372036854775808

/-- Nonces hashed by one worker in its first `m` iterations (`05.c` l.285,
l.293-299): `nonce=rank;` then per iteration the hash of the current `nonce`
followed by `nonce+=numthreads;`. -/
def nonces (numthreads : Int) : Nat → Int → List Int
  | 0, _ => []
  | m + 1, nonce => nonce :: nonces numthreads m (wrap64 (nonce + numthreads))


/-- Indices `j` at which the marking loop `while(j<SIEVESIZE) sieve[j]=1,j+=p;`
(`05.c` l.316, l.322) writes, in order; same loop as `markLoop`. -/
def markWrites (S p : Int) : Nat → Int → List Int
  | 0, _ => []
  | fuel + 1, j =>
    if j < S then j :: markWrites S p fuel (wrap32 (j + p)) else []

/-- Indices written in `sieveminus` and then in `sieveplus` by the body of the
sieving loop for the table prime `p` (`05.c` l.311-323); same control flow as
`sieveStep`. -/
def sieveStepWrites (S B p : Int) : List Int :=
  let j := B % p
  if j ≠ 0 then
    let a := inverse j p
    let j2 := Int.tmod (a * wrap32 (p - 1)) p
    markWrites S p S.toNat a ++ markWrites S p S.toNat j2
  else []

/-- Indices written by the marking loops of the sieve build (`05.c` l.310-323). -/
def buildWrites (S : Int) (prim : List Int) (P : Int) (B : Int) : List Int :=
  match skipSmall prim P (prim.length + 1) 0 with
  | none => []
  | some i0 => ((prim.drop i0).map (fun p => sieveStepWrites S B p)).foldr List.append []

/-- Index read by the gating test `(i&1) || sieve[i>>1]` (`05.c` l.337, l.356):
the array is read only when `i` is even. -/
def gateReads (i : Int) : List Int :=
  if i % 2 ≠ 0 then [] else [i / 2]

/-- Indices `i<<k` read by the contiguity check
`for(k=0;k<MINCHAIN;k++) if(sieve[i<<k]) goto fail;`; same loop as `contiguous`. -/
def contiguousReads (sieve : Int → Bool) (i MINCHAIN : Int) : Nat → Int → List Int
  | 0, _ => []
  | fuel + 1, k =>
    if k < MINCHAIN then
      (i * 2 ^ k.toNat) ::
        (if sieve (i * 2 ^ k.toNat) then [] else contiguousReads sieve i MINCHAIN fuel (k + 1))
    else []

/-- Indices `i<<k` at which the extension loop under `BEYOND` reads the sieve
(`05.c` l.344-345, l.362-363); same loop as `beyondLoop`. -/
def beyondReads (O : Int → Frac → Bool × Frac) (sieve : Int → Bool) (S i : Int) :
    Nat → Int → Frac → List Int
  | 0, _, _ => []
  | fuel + 1, k, f =>
    if i * 2 ^ k.toNat < S then
      (i * 2 ^ k.toNat) ::
        (if sieve (i * 2 ^ k.toNat) then [] else beyondReads O sieve S i fuel (k + 1) f)
    else
      let r := O (i * 2 ^ k.toNat) f
      if r.1 then beyondReads O sieve S i fuel (k + 1) r.2 else []

/-- Multipliers `i<<k` that the extension loop under `BEYOND` passes to
`isbigprime` (`05.c` l.347, l.365); same loop as `beyondLoop`. -/
def beyondProbes (O : Int → Frac → Bool × Frac) (sieve : Int → Bool) (S i : Int) :
    Nat → Int → Frac → List Int
  | 0, _, _ => []
  | fuel + 1, k, f =>
    if i * 2 ^ k.toNat < S then
      if sieve (i * 2 ^ k.toNat) then [] else beyondProbes O sieve S i fuel (k + 1) f
    else
      let r := O (i * 2 ^ k.toNat) f
      (i * 2 ^ k.toNat) :: (if r.1 then beyondProbes O sieve S i fuel (k + 1) r.2 else [])


/-- Shared statistics of `05.c` l.265-266: the table `num[50][3]` (entry
`num[l][t]` counts the chains of length `l` and type `t+1`) and `tried`. -/
structure Stats where
  num : Nat → Nat → Int
  tried : Int

/-- Accesses of a worker to the shared statistics, in the program order of
`work`: `memset(num,0,sizeof(num));` on entry (`05.c` l.290, outside any lock),
and once per 100 hashes the flush of l.408-414 under `mutex_hash`, which adds the
worker's `localtried` and `localnum`. -/
inductive StatOp where
  | clear
  | flush (localnum : Nat → Nat → Int) (localtried : Int)

/-- Effect of one access on the shared statistics: `memset(num,0,sizeof(num))`,
or `tried+=localtried;` with
`for(i=2;i<50;i++) for(j=0;j<3;j++) num[i][j]+=localnum[i][j]` (`long long`). -/
def applyOp (s : Stats) : StatOp → Stats
  | .clear => { s with num := fun _ _ => 0 }
  | .flush localnum localtried =>
    { num := fun i j =>
        if 2 ≤ i ∧ i < 50 ∧ j < 3 then wrap64 (s.num i j + localnum i j) else s.num i j
      tried := wrap64 (s.tried + localtried) }

/-- Accesses of one worker that flushes the batches `batches` (the content of
`localnum` after each 100 hashes), in program order. -/
def workerOps (batches : List (Nat → Nat → Int)) : List StatOp :=
  StatOp.clear :: batches.map (fun localnum => StatOp.flush localnum 100)

/-- Execution of the workers' accesses one at a time: `sched` lists the ranks in
the order in which the workers perform their next access; `ws` holds the
accesses each worker still has to perform. -/
def runSched : List Nat → List (List StatOp) → Stats → Stats
  | [], _, s => s
  | r :: sched, ws, s =>
    match ws.getD r [] with
    | [] => runSched sched ws s
    | op :: rest => runSched sched (ws.set r rest) (applyOp s op)


/-- Oracle call made by one test of `findchain` at index `j` in state `s`:
`isbigprime` runs only when bit `j` of the mask is clear. The entry pairs the
index with the mask at the call. -/
def testCalls (s : FC) (j : Int) : List (Int × Nat) :=
  if s.mask.testBit j.toNat then [] else [(j, s.mask)]

/-- Probing loop of `findchain` together with the oracle calls it makes, in
order; same control flow as `forLoop`. -/
def forLoopC (O : Int → Frac → Bool × Frac) (base mid mid2 : Int) :
    Nat → Int → FC → Probe × List (Int × Nat)
  | 0, _, s => (.cont s, [])
  | fuel + 1, i, s =>
    if i ≤ mid - s.lo then
      match testElem O base s (mid - i) with
      | .restart s1 => (.restart s1, testCalls s (mid - i))
      | .cont s1 =>
        match testElem O base s1 (mid2 + i) with
        | .restart s2 => (.restart s2, testCalls s (mid - i) ++ testCalls s1 (mid2 + i))
        | .cont s2 =>
          let r := forLoopC O base mid mid2 fuel (i + 1) s2
          (r.1, testCalls s (mid - i) ++ testCalls s1 (mid2 + i) ++ r.2)
    else (.cont s, [])

/-- Record of one run of `findchain`: its result, the state at the `return`
(`fin.lo`, `fin.hi` is the range it shrank to), the oracle calls made by the
tests, the number of `goto restart` taken, and the extra probe of element
`hi+1` made in the `chain ok` part when `*f < -0.1`. -/
structure Run where
  out : ChainOut
  fin : FC
  calls : List (Int × Nat)
  restarts : Nat
  extra : List (Int × Nat)

/-- Function `findchain` from `restart:` on, with the record of the run; same
control flow as `findchainLoop`. -/
def findchainLoopC (O : Int → Frac → Bool × Frac) (MINACCEPT base : Int) (glo : Int) :
    Nat → FC → Option Run
  | 0, _ => none
  | fuel + 1, s =>
    let len := s.hi - s.lo
    if len + 1 < MINACCEPT then some ⟨⟨0, s.f, glo⟩, s, [], 0, []⟩
    else
      let mid := s.lo + Int.tdiv (s.hi - s.lo) 2
      let pre : Probe := if len % 2 ≠ 0 then .cont s else testElem O base s mid
      let preCalls : List (Int × Nat) := if len % 2 ≠ 0 then [] else testCalls s mid
      match pre with
      | .restart s1 =>
        (findchainLoopC O MINACCEPT base glo fuel s1).map
          (fun r => { r with calls := preCalls ++ r.calls, restarts := r.restarts + 1 })
      | .cont s1 =>
        let mid' := if len % 2 ≠ 0 then mid else mid - 1
        let fl := forLoopC O base mid' (mid + 1) (mid' - s.lo + 1).toNat 0 s1
        match fl.1 with
        | .restart s2 =>
          (findchainLoopC O MINACCEPT base glo fuel s2).map
            (fun r => { r with calls := preCalls ++ fl.2 ++ r.calls,
                               restarts := r.restarts + 1 })
        | .cont s2 =>
          let f' := if s2.f.isUnset then (O (base * 2 ^ (s2.hi + 1).toNat) s2.f).2 else s2.f
          some ⟨⟨s2.hi - s2.lo + 1, f', s2.lo⟩, s2, preCalls ++ fl.2, 0,
            if s2.f.isUnset then [(s2.hi + 1, s2.mask)] else []⟩

/-- Function `findchain` with the record of its run; same fuel as `findchainWith`. -/
def findchainC (O : Int → Frac → Bool × Frac) (MINACCEPT base lo hi : Int) (mask : Nat)
    (f : Frac) (glo : Int) : Option Run :=
  findchainLoopC O MINACCEPT base glo ((hi - lo + 1).toNat + 1) ⟨lo, hi, mask, f, ⟨0, 1⟩⟩

/-- Oracle calls of the extension loop under `BEYOND`: index `k` and the mask
at the call; same loop as `beyondLoop`. -/
def beyondCalls (O : Int → Frac → Bool × Frac) (sieve : Int → Bool) (S i : Int) :
    Nat → Int → Nat → Frac → List (Int × Nat)
  | 0, _, _, _ => []
  | fuel + 1, k, mask, f =>
    if i * 2 ^ k.toNat < S then
      if sieve (i * 2 ^ k.toNat) then []
      else beyondCalls O sieve S i fuel (k + 1) mask f
    else
      let r := O (i * 2 ^ k.toNat) f
      (k, mask) ::
        (if r.1 then beyondCalls O sieve S i fuel (k + 1) (mask ||| 1 <<< k.toNat) r.2 else [])

/-- Record of one side of the scan for a candidate: result, whether `findchain`
was called, and all oracle calls in order (extension loop, tests of `findchain`,
extra probe). -/
structure ScanRun where
  out : ChainOut
  searched : Bool
  calls : List (Int × Nat)

/-- One side of the scan for the candidate `i` with the record of its oracle
calls; same control flow as `scanSide`. -/
def scanSideC (O : Int → Frac → Bool × Frac) (sieve : Int → Bool)
    (S MINCHAIN MINACCEPT i glo : Int) (fuel : Nat) : Option ScanRun :=
  if i % 2 ≠ 0 ∨ sieve (i / 2) = true then
    if contiguous sieve i MINCHAIN MINCHAIN.toNat 0 then
      match beyondLoop O sieve S i fuel MINCHAIN 0 ⟨-1, 1⟩ with
      | none => none
      | some (k, mask, f) =>
        match findchainC O MINACCEPT i 0 (k - 1) mask f glo with
        | none => none
        | some r =>
          some ⟨r.out, true,
            beyondCalls O sieve S i fuel MINCHAIN 0 ⟨-1, 1⟩ ++ r.calls ++ r.extra⟩
    else some ⟨⟨0, ⟨0, 1⟩, glo⟩, false, []⟩
  else some ⟨⟨0, ⟨0, 1⟩, glo⟩, false, []⟩


/-- Condition under which `03.c` (l.236 and l.238, `MINCHAIN` is `4` there)
calls its chain search for a side:
`((i&1) || sieve[i>>1]) && !sieve[i] && !sieve[i<<1] && !sieve[i<<2] && !sieve[i<<3]`. -/
def gate03 (sieve : Int → Bool) (i : Int) : Bool :=
  (decide (i % 2 ≠ 0) || sieve (i / 2)) && !sieve i && !sieve (i * 2) && !sieve (i * 4) &&
    !sieve (i * 8)

/-- Calls `inverse(j,p)` made by the sieve build (`05.c` l.311-314), as pairs
`(j, p)` in order: one for each table prime `p` after the skipped ones with
`j = origin mod p` non-zero; same control flow as `buildSieves` and `sieveStep`. -/
def inverseCalls (prim : List Int) (P : Int) (B : Int) : List (Int × Int) :=
  match skipSmall prim P (prim.length + 1) 0 with
  | none => []
  | some i0 => (prim.drop i0).filterMap (fun p => if B % p ≠ 0 then some (B % p, p) else none)


/-- Operations on `mutex_hash`. -/
inductive LockOp where
  | lock
  | unlock
deriving DecidableEq

/-- Operations of one iteration of the worker loop on `mutex_hash` (`05.c`
l.406-431), given `localtried` after `localtried++`:
`if(localtried%100==0) { pthread_mutex_lock(&mutex_hash); ...
pthread_mutex_unlock(&mutex_hash); } pthread_mutex_unlock(&mutex_hash);`. -/
def hashLockOps (localtried : Int) : List LockOp :=
  (if Int.tmod localtried 100 = 0 then [LockOp.lock, LockOp.unlock] else []) ++ [LockOp.unlock]

/-- Runs the operations of one worker on a mutex it holds (`true`) or not
(`false`); `none` when the worker unlocks the mutex while it does not hold it, or
locks it again while holding it. -/
def runLockOps : Bool → List LockOp → Option Bool
  | held, [] => some held
  | held, LockOp.lock :: ops => if held then none else runLockOps true ops
  | held, LockOp.unlock :: ops => if held then runLockOps false ops else none

/-- Loop counting the binary digits of `n` by halving. -/
def bitLengthLoop : Nat → Nat → Nat
  | 0, _ => 0
  | fuel + 1, n => if n = 0 then 0 else bitLengthLoop fuel (n / 2) + 1

/-- Number of binary digits of `n`: the least `b` with `n < 2^b`. -/
def bitLength (n : Nat) : Nat := bitLengthLoop n n

/-- GMP's `mpz_get_d(op)` for `0 ≤ op < 2^1024`: the conversion truncates
(rounds towards zero), so the `double` is the integer made of the `53` leading
binary digits of `op`, the lower digits cleared. -/
def mpz_get_d (op : Nat) : Nat :=
  op / 2 ^ (bitLength op - 53) * 2 ^ (bitLength op - 53)

/-- IEEE 754 binary64 rounding of an integer `d < 2^1024` (to nearest, ties to
even): `53` significant binary digits are kept. -/
def roundNearest53 (d : Nat) : Nat :=
  let s := bitLength d - 53
  let q := d / 2 ^ s
  let r := d % 2 ^ s
  (if 2 ^ s < 2 * r ∨ (2 * r = 2 ^ s ∧ q % 2 = 1) then q + 1 else q) * 2 ^ s

/-- The `double` subtraction `z - r` of two integer-valued doubles with
`r ≤ z`: the exact difference, rounded. -/
def doubleSub (z r : Nat) : Nat := roundNearest53 (z - r)

/-- The `double` division `x / z` of two integer-valued doubles with
`0 ≤ x ≤ z`, `z > 0`: the exact quotient rounded (to nearest, ties to even) to
`53` significant binary digits, and to at most `1074` fractional digits, the
spacing of the subnormal doubles. The result is the pair (significand, power
of two); `0` is `⟨0, 1⟩`. -/
def doubleDiv (x z : Nat) : Frac :=
  if x = 0 then ⟨0, 1⟩
  else
    let k0 := 52 + bitLength z - bitLength x
    let kn := if 2 ^ 52 * z ≤ x * 2 ^ k0 then k0 else k0 + 1
    let k := min kn 1074
    let q := x * 2 ^ k / z
    let r := x * 2 ^ k % z
    ⟨((if z < 2 * r ∨ (2 * r = z ∧ q % 2 = 1) then q + 1 else q : Nat) : Int), 2 ^ k⟩

/-- The `double` stored in `*f` by `isbigprime` for the tested number `n`
(`05.c` l.136-137, `04.c` l.118-119): `z=mpz_get_d(temp3); *f=(z-mpz_get_d(res))/z;`
with `res = 2^n mod n`, for `0 < n < 2^1024`, the subtraction and the division
being IEEE 754 binary64 operations with the default rounding (to nearest, ties
to even). -/
def fractionD (n : Int) : Frac :=
  let z := mpz_get_d n.toNat
  doubleDiv (doubleSub z (mpz_get_d (powm2 n).toNat)) z

/-- Function `isbigprime(n,mul,offs,f)` of `05.c` l.131-158 with the content of
`*f` as the `double` the code computes. -/
def isbigprimeD (n mul offs : Int) (f : Frac) : Bool × Frac :=
  let temp3 := n * mul + offs
  if !fermattest temp3 then (false, fractionD temp3)
  else if xor (temp3.toNat.testBit 1) (decide (offs = -1)) then
    if !eulerlagrangelifchitz temp3 1 (-offs) then (false, fractionD temp3) else (true, f)
  else
    if !eulerlagrangelifchitz temp3 (-1) (-offs) then (false, fractionD temp3) else (true, f)

/-- Loop of `findchainstupid` (`05.c` l.169-174) over `isbigprimeD`. -/
def stupidLoopD (inc : Int) : Nat → Int → Int → Frac → Option (Int × Frac)
  | 0, _, _, _ => none
  | fuel + 1, p, len, f =>
    let r := isbigprimeD p 1 0 f
    if r.1 then
      stupidLoopD inc fuel (if inc < 0 then p * 2 - 1 else p * 2 + 1) (len + 1) r.2
    else some (len, r.2)

/-- Function `findchainstupid(in,offs,inc,f)` of `05.c` l.161-177 with `*f` as
the `double` the code computes. -/
def findchainstupidD (fuel : Nat) (inn offs inc : Int) (_f : Frac) : Option (Int × Frac) :=
  let p := inn + offs
  if p.toNat.testBit 0 = false then some (0, ⟨0, 1⟩)
  else stupidLoopD inc fuel p 0 _f

/-- The candidate tested in round `k` of the loop of `findchainstupid` started at
`p`: each round replaces `p` by `2p - 1` (`inc < 0`) or `2p + 1`. -/
def chainElem (inc : Int) (p : Int) : Nat → Int
  | 0 => p
  | k + 1 => if inc < 0 then chainElem inc p k * 2 - 1 else chainElem inc p k * 2 + 1

/-- Function `findchain` with the oracle of the source and `*f` as the `double`
the code computes. -/
def findchainD (MINACCEPT base lo hi : Int) (mask : Nat) (origin offs : Int) (f : Frac)
    (glo : Int) : Option ChainOut :=
  findchainWith (fun mul g => isbigprimeD origin mul offs g) MINACCEPT base lo hi mask f glo

/-- Results of one candidate of the single-threaded locator (`04.c` l.309-361):
lengths and fractions of both sides, the global `glo` after both calls of
`findchain`, and the start multipliers `i<<glo` handed to `findsanity` for the
first kind (when `l1>4`) and for the second kind (when `l2>4`). -/
structure Cand04 where
  l1 : Int
  f1 : Frac
  l2 : Int
  f2 : Frac
  glo : Int
  sanity1 : Option Int
  sanity2 : Option Int
deriving DecidableEq

/-- Body of the candidate loop of `04.c` (l.309-361): minus side, then plus
side, both writing the global `glo` when they accept, then the sanity checks
`findsanity(origin,i<<glo,-1,1)` and `findsanity(origin,i<<glo,1,-1)`. -/
def candidate04 (sv : Sieves) (S MINCHAIN MINACCEPT B i glo : Int) (fuel : Nat) :
    Option Cand04 :=
  match scanSide (fun mul g => isbigprimeD B mul (-1) g) sv.sieveminus S MINCHAIN MINACCEPT i
      glo fuel with
  | none => none
  | some r1 =>
    match scanSide (fun mul g => isbigprimeD B mul 1 g) sv.sieveplus S MINCHAIN MINACCEPT i
        r1.glo fuel with
    | none => none
    | some r2 =>
      some ⟨r1.len, r1.f, r2.len, r2.f, r2.glo,
        if r1.len > 4 then some (i * 2 ^ r2.glo.toNat) else none,
        if r2.len > 4 then some (i * 2 ^ r2.glo.toNat) else none⟩


/-! ## Proof invariants -/

/-- Loop invariant of `inverse` for a modulus `p` and original argument `a0`. -/
structure InvOK (a0 p : Int) (s : InvState) : Prop where
  apos : 0 < s.a
  bnn : 0 ≤ s.b
  ale : s.a ≤ p
  ble : s.b ≤ p
  cong : p ∣ s.lastx * a0 - s.a
  congx : p ∣ s.x * a0 - s.b
  cop : IsCoprime s.a s.b
  sgn : (0 ≤ s.x ∧ s.lastx ≤ 0 ∧ s.x * s.a - s.lastx * s.b = p) ∨
        (s.x ≤ 0 ∧ 0 ≤ s.lastx ∧ s.lastx * s.b - s.x * s.a = p)
  sgny : (0 ≤ s.y ∧ s.lasty ≤ 0 ∧ s.y * s.a - s.lasty * s.b = a0) ∨
        (s.y ≤ 0 ∧ 0 ≤ s.lasty ∧ s.lasty * s.b - s.y * s.a = a0)


/-- Every bit of the mask belongs to an element that passes the oracle. -/
def MaskOK (Pj : Int → Bool) (mask : Nat) : Prop :=
  ∀ j : Int, 0 ≤ j → mask.testBit j.toNat = true → Pj j = true

/-- The oracle call of `findchain` for element `j` behaves as a pure test with
verdict `Pj j` and residue `Rj j`. -/
def OracleIs (O : Int → Frac → Bool × Frac) (base : Int) (Pj : Int → Bool)
    (Rj : Int → Frac) : Prop :=
  ∀ (j : Int) (g : Frac),
    O (base * 2 ^ j.toNat) g = if Pj j = true then (true, g) else (false, Rj j)

/-- State `s'` is what `FIX` leaves after an element `j` of the range `[lo, hi]`
failed the oracle while `*f` held `f`. -/
def IsFix (Pj : Int → Bool) (Rj : Int → Frac) (lo hi : Int) (f : Frac) (s' : FC) : Prop :=
  ∃ (j : Int) (m : Nat), lo ≤ j ∧ j ≤ hi ∧ Pj j = false ∧ MaskOK Pj m ∧
    s' = FIX ⟨lo, hi, m, f, Rj j⟩ j

/-- What `findchain` reports when it accepts a chain, relative to the range and
`*f` of the state `s0` it was started in. -/
def Accepted (O : Int → Frac → Bool × Frac) (base MINACCEPT : Int) (Pj : Int → Bool)
    (Rj : Int → Frac) (s0 : FC) (r : ChainOut) : Prop :=
  ∃ (lo hi : Int) (fin : Frac), s0.lo ≤ lo ∧ hi ≤ s0.hi ∧ MINACCEPT ≤ hi - lo + 1 ∧
    r.len = hi - lo + 1 ∧ r.glo = lo ∧
    (∀ j, lo ≤ j → j ≤ hi → Pj j = true) ∧
    (lo = s0.lo ∨ Pj (lo - 1) = false) ∧
    (hi = s0.hi ∨ Pj (hi + 1) = false) ∧
    ((hi = s0.hi ∧ fin = s0.f) ∨ (hi < s0.hi ∧ fin = Rj (hi + 1))) ∧
    r.f = (if fin.isUnset then (O (base * 2 ^ (hi + 1).toNat) fin).2 else fin)

/-- What `findchain` reports when it gives up: the range it shrank to holds
fewer than `MINACCEPT` elements. -/
def Rejected (MINACCEPT : Int) (Rj : Int → Frac) (glo : Int) (s0 : FC) (r : ChainOut) :
    Prop :=
  r.len = 0 ∧ r.glo = glo ∧
  ∃ (lo hi : Int), s0.lo ≤ lo ∧ hi ≤ s0.hi ∧ hi - lo + 1 < MINACCEPT ∧
    ((hi = s0.hi ∧ r.f = s0.f) ∨ (hi < s0.hi ∧ r.f = Rj (hi + 1)))


/-- Product of the `2^d` consecutive numbers `lo, lo+1, …, lo+2^d-1`, by binary
splitting. Coprimality with it excludes every divisor in that interval. -/
def rangeProd : Nat → Nat → Nat
  | 0, lo => lo
  | d + 1, lo => rangeProd d lo * rangeProd d (lo + 2 ^ d)


/-- A failing call of the oracle on an element `base * 2^k` produced the value `f`. -/
def IsResidue (O : Int → Frac → Bool × Frac) (base : Int) (f : Frac) : Prop :=
  ∃ (k : Nat) (g : Frac), (O (base * 2 ^ k) g).1 = false ∧ f = (O (base * 2 ^ k) g).2

/-- Relation between a state `s` of `findchain`, a later state `s'` and the
oracle calls `log` made in between: the calls lie in the range of `s`, their
mask bit was clear, no index occurs twice, the range only shrinks, the mask only
grows (by bits of the range), every called index is afterwards in the mask or
outside the range, and `*f` changes only when `hi` decreases, then to a residue. -/
structure Shrinks (O : Int → Frac → Bool × Frac) (base : Int) (s s' : FC)
    (log : List (Int × Nat)) : Prop where
  inRange : ∀ x ∈ log, s.lo ≤ x.1 ∧ x.1 ≤ s.hi
  clear0 : ∀ x ∈ log, s.mask.testBit x.1.toNat = false
  clearAt : ∀ x ∈ log, x.2.testBit x.1.toNat = false
  nodup : (log.map Prod.fst).Nodup
  lo_le : s.lo ≤ s'.lo
  hi_le : s'.hi ≤ s.hi
  mono : ∀ k : Nat, s.mask.testBit k = true → s'.mask.testBit k = true
  newBits : ∀ k : Nat, s'.mask.testBit k = true →
    s.mask.testBit k = true ∨ (s.lo ≤ (k : Int) ∧ (k : Int) ≤ s.hi)
  done : ∀ x ∈ log, s'.mask.testBit x.1.toNat = true ∨ x.1 < s'.lo ∨ s'.hi < x.1
  front : (s'.hi = s.hi ∧ s'.f = s.f) ∨ (s'.hi < s.hi ∧ IsResidue O base s'.f)

/-! ## Lemmas and theorems -/

/-! ### `inverse` -/

theorem wrap32_of_range {x : Int} (h1 : -2147483648 ≤ x) (h2 : x < 2147483648) :
    wrap32 x = x := by
  unfold wrap32
  rw [Int.emod_eq_of_lt (by omega) (by omega)]
  omega

/-- Arithmetic core of the coefficient bound: with opposite signs and
`|x| * a + |lastx| * b = p`, the next coefficient stays within `[-p, p]`. -/
theorem coeff_bound {a b q x lastx p : Int} (bpos : 0 < b) (hq0 : 0 ≤ q) (hqa : q * b ≤ a)
    (sgn : (0 ≤ x ∧ lastx ≤ 0 ∧ x * a - lastx * b = p) ∨
           (x ≤ 0 ∧ 0 ≤ lastx ∧ lastx * b - x * a = p)) :
    -p ≤ q * x ∧ q * x ≤ p ∧ -p ≤ lastx - q * x ∧ lastx - q * x ≤ p := by
  rcases sgn with ⟨h1, h2, h3⟩ | ⟨h1, h2, h3⟩
  · have e1 : 0 ≤ q * x := mul_nonneg hq0 h1
    have e0 : q * b * x ≤ a * x := mul_le_mul_of_nonneg_right hqa h1
    have e2 : (q * x - lastx) * b ≤ p := by nlinarith
    have e3 : 0 ≤ q * x - lastx := by linarith
    have e4 : q * x - lastx ≤ p := by nlinarith
    exact ⟨by linarith, by linarith, by linarith, by linarith⟩
  · have e1 : q * x ≤ 0 := mul_nonpos_of_nonneg_of_nonpos hq0 h1
    have e0 : a * x ≤ q * b * x := mul_le_mul_of_nonpos_right hqa h1
    have e2 : (lastx - q * x) * b ≤ p := by nlinarith
    have e3 : 0 ≤ lastx - q * x := by linarith
    have e4 : lastx - q * x ≤ p := by nlinarith
    exact ⟨by linarith, by linarith, by linarith, by linarith⟩

/-- The sign/size invariant is carried to the next pair of coefficients. -/
theorem coeff_next {a b q x lastx p : Int} (hq0 : 0 ≤ q)
    (sgn : (0 ≤ x ∧ lastx ≤ 0 ∧ x * a - lastx * b = p) ∨
           (x ≤ 0 ∧ 0 ≤ lastx ∧ lastx * b - x * a = p)) :
    (0 ≤ lastx - q * x ∧ x ≤ 0 ∧ (lastx - q * x) * b - x * (a - q * b) = p) ∨
    (lastx - q * x ≤ 0 ∧ 0 ≤ x ∧ x * (a - q * b) - (lastx - q * x) * b = p) := by
  rcases sgn with ⟨h1, h2, h3⟩ | ⟨h1, h2, h3⟩
  · right
    refine ⟨?_, h1, by linear_combination h3⟩
    have := mul_nonneg hq0 h1; linarith
  · left
    refine ⟨?_, h1, by linear_combination h3⟩
    have := mul_nonpos_of_nonneg_of_nonpos hq0 h1; linarith

/-- Under the invariant no `int` operation of the loop body overflows: the
body computes the plain extended-Euclid step. -/
theorem inverseStep_eq {a0 p : Int} {s : InvState} (hp : p < 2147483648) (ha0 : a0 ≤ p)
    (h : InvOK a0 p s) (hb : s.b ≠ 0) :
    inverseStep s = ⟨s.b, s.a - s.a / s.b * s.b, s.lastx - s.a / s.b * s.x,
      s.lasty - s.a / s.b * s.y, s.x, s.y⟩ := by
  obtain ⟨apos, bnn, ale, ble, cong, congx, cop, sgn, sgny⟩ := h
  have bpos : 0 < s.b := lt_of_le_of_ne bnn (Ne.symm hb)
  have hq : Int.tdiv s.a s.b = s.a / s.b := Int.tdiv_eq_ediv apos.le bnn
  have hr : Int.tmod s.a s.b = s.a % s.b := Int.tmod_eq_emod apos.le bnn
  have hq0 : 0 ≤ s.a / s.b := Int.ediv_nonneg apos.le bnn
  have hqa : s.a / s.b * s.b ≤ s.a := Int.ediv_mul_le _ hb
  have hqle : s.a / s.b ≤ s.a := by nlinarith
  have hdef : s.a % s.b = s.a - s.a / s.b * s.b := by
    have := Int.emod_add_ediv s.a s.b
    linarith [mul_comm s.b (s.a / s.b)]
  have wq : wrap32 (s.a / s.b) = s.a / s.b := wrap32_of_range (by omega) (by omega)
  obtain ⟨x1, x2, x3, x4⟩ := coeff_bound bpos hq0 hqa sgn
  obtain ⟨y1, y2, y3, y4⟩ := coeff_bound bpos hq0 hqa sgny
  have w1 : wrap32 (s.a / s.b * s.x) = s.a / s.b * s.x :=
    wrap32_of_range (by omega) (by omega)
  have w2 : wrap32 (s.lastx - s.a / s.b * s.x) = s.lastx - s.a / s.b * s.x :=
    wrap32_of_range (by omega) (by omega)
  have w3 : wrap32 (s.a / s.b * s.y) = s.a / s.b * s.y :=
    wrap32_of_range (by omega) (by omega)
  have w4 : wrap32 (s.lasty - s.a / s.b * s.y) = s.lasty - s.a / s.b * s.y :=
    wrap32_of_range (by omega) (by omega)
  simp only [inverseStep, hq, hr, wq, w1, w2, w3, w4, hdef]

theorem InvOK.step {a0 p : Int} {s : InvState} (hp : p < 2147483648) (ha0 : a0 ≤ p)
    (h : InvOK a0 p s) (hb : s.b ≠ 0) :
    InvOK a0 p (inverseStep s) ∧ (inverseStep s).b < s.b := by
  rw [inverseStep_eq hp ha0 h hb]
  obtain ⟨apos, bnn, ale, ble, cong, congx, cop, sgn, sgny⟩ := h
  have bpos : 0 < s.b := lt_of_le_of_ne bnn (Ne.symm hb)
  have hq0 : 0 ≤ s.a / s.b := Int.ediv_nonneg apos.le bnn
  have hqa : s.a / s.b * s.b ≤ s.a := Int.ediv_mul_le _ hb
  have hr0 : 0 ≤ s.a % s.b := Int.emod_nonneg _ hb
  have hrlt : s.a % s.b < s.b := Int.emod_lt_of_pos _ bpos
  have hdef : s.a % s.b = s.a - s.a / s.b * s.b := by
    have := Int.emod_add_ediv s.a s.b
    linarith [mul_comm s.b (s.a / s.b)]
  refine ⟨⟨?_, ?_, ?_, ?_, ?_, ?_, ?_, ?_, ?_⟩, ?_⟩ <;> dsimp only
  · exact bpos
  · linarith
  · exact ble
  · linarith
  · exact congx
  · have : (s.lastx - s.a / s.b * s.x) * a0 - (s.a - s.a / s.b * s.b) =
        (s.lastx * a0 - s.a) - s.a / s.b * (s.x * a0 - s.b) := by ring
    rw [this]
    exact dvd_sub cong (Dvd.dvd.mul_left congx _)
  · obtain ⟨u, v, huv⟩ := cop
    refine ⟨v + u * (s.a / s.b), u, ?_⟩
    linear_combination huv
  · exact coeff_next hq0 sgn
  · exact coeff_next hq0 sgny
  · linarith

theorem inverseLoop_spec {a0 p : Int} (hp : p < 2147483648) (ha0 : a0 ≤ p) :
    ∀ (n : Nat) (s : InvState), InvOK a0 p s → s.b < n →
      InvOK a0 p (inverseLoop n s) ∧ (inverseLoop n s).b = 0 := by
  intro n
  induction n with
  | zero =>
    intro s h hb
    have := h.bnn
    simp at hb
    omega
  | succ n ih =>
    intro s h hb
    unfold inverseLoop
    by_cases hb0 : s.b = 0
    · rw [if_pos hb0]
      exact ⟨h, hb0⟩
    · rw [if_neg hb0]
      obtain ⟨h1, h2⟩ := h.step hp ha0 hb0
      apply ih _ h1
      push_cast at hb
      omega

theorem inverse_spec_coprime {a p : Int} (hp : p < 2147483648) (ha : 0 < a) (hap : a < p)
    (hcop : IsCoprime a p) :
    0 ≤ inverse a p ∧ inverse a p < p ∧ (a * inverse a p) % p = 1 := by
  have hp1 : 1 < p := by omega
  have h0 : InvOK a p ⟨a, p, 0, 1, 1, 0⟩ := by
    refine ⟨ha, by simp; omega, by simp; omega, le_refl _, by simp, by simp, hcop, ?_, ?_⟩
    · right; simp
    · left; simp
  have hfuel : (InvState.mk a p 0 1 1 0).b < ((p.natAbs + 1 : Nat) : Int) := by
    simp only
    push_cast
    have := le_abs_self p
    omega
  obtain ⟨hI, hb⟩ := inverseLoop_spec hp hap.le _ _ h0 hfuel
  set s := inverseLoop (p.natAbs + 1) ⟨a, p, 0, 1, 1, 0⟩ with hs
  have ha1 : s.a = 1 := by
    obtain ⟨u, v, huv⟩ := hI.cop
    rw [hb] at huv
    simp at huv
    have h1 := hI.apos
    have : s.a ∣ 1 := ⟨u, by linarith [mul_comm u s.a]⟩
    exact Int.eq_one_of_dvd_one h1.le this
  have hcong : p ∣ s.lastx * a - 1 := by
    have := hI.cong
    rwa [ha1] at this
  have hr : p ∣ Int.tmod s.lastx p - s.lastx := by
    rw [Int.tmod_def]
    exact ⟨-(Int.tdiv s.lastx p), by ring⟩
  have hlt : Int.tmod s.lastx p < p := Int.tmod_lt_of_pos _ (by omega)
  have hgt : -p < Int.tmod s.lastx p := by
    rcases le_or_lt 0 s.lastx with h | h
    · have := Int.tmod_nonneg p h
      omega
    · have h1 : Int.tmod (-s.lastx) p < p := Int.tmod_lt_of_pos _ (by omega)
      have h2 : Int.tmod (-s.lastx) p = -Int.tmod s.lastx p := by
        simp [Int.tmod_def, Int.neg_tdiv]
        ring
      omega
  have key : ∀ r : Int, 0 ≤ r → r < p → p ∣ r - s.lastx →
      0 ≤ r ∧ r < p ∧ (a * r) % p = 1 := by
    intro r h1 h2 h3
    refine ⟨h1, h2, ?_⟩
    have h4 : p ∣ a * r - 1 := by
      have : a * r - 1 = a * (r - s.lastx) + (s.lastx * a - 1) := by ring
      rw [this]
      exact dvd_add (Dvd.dvd.mul_left h3 _) hcong
    have h5 : (a * r) % p = 1 % p :=
      Int.emod_eq_emod_iff_emod_sub_eq_zero.mpr (Int.emod_eq_zero_of_dvd h4)
    rw [h5]
    exact Int.emod_eq_of_lt (by omega) hp1
  show 0 ≤ (if Int.tmod s.lastx p < 0 then wrap32 (Int.tmod s.lastx p + p) else Int.tmod s.lastx p) ∧ _
  by_cases hneg : Int.tmod s.lastx p < 0
  · simp only [inverse, ← hs, hneg, if_true]
    rw [wrap32_of_range (by omega) (by omega)]
    apply key _ (by omega) (by omega)
    have : Int.tmod s.lastx p + p - s.lastx = (Int.tmod s.lastx p - s.lastx) + p := by ring
    rw [this]
    exact dvd_add hr (dvd_refl p)
  · simp only [inverse, ← hs, hneg, if_false]
    exact key _ (by omega) hlt hr

/-- Prime moduli: every `0 < a < p` is invertible, so `inverse` succeeds. -/
theorem inverse_spec_prime {p : Nat} {a : Int} (hp : p.Prime) (ha : 0 < a) (hap : a < p)
    (hfit : (p : Int) < 2147483648) :
    0 ≤ inverse a p ∧ inverse a p < p ∧ (a * inverse a p) % p = 1 := by
  apply inverse_spec_coprime hfit ha hap
  have hcop : Nat.Coprime a.toNat p := by
    apply Nat.Coprime.symm
    rw [hp.coprime_iff_not_dvd]
    intro hd
    have := Nat.le_of_dvd (by omega) hd
    omega
  have := Nat.isCoprime_iff_coprime.mpr hcop
  rwa [Int.toNat_of_nonneg ha.le] at this

/-- The inverse of a unit residue is never `0`. -/
theorem inverse_pos_prime {p : Nat} {a : Int} (hp : p.Prime) (ha : 0 < a) (hap : a < p)
    (hfit : (p : Int) < 2147483648) : 1 ≤ inverse a p := by
  obtain ⟨h1, _, h3⟩ := inverse_spec_prime hp ha hap hfit
  rcases eq_or_lt_of_le h1 with h | h
  · rw [← h] at h3
    simp at h3
  · omega

/-- C1. For every prime `p` and every `a` with `0 < a < p`, both fitting in a
32-bit `int`, `inverse a p` returns `r` with `0 ≤ r < p` and
`a * r ≡ 1 (mod p)`. -/
theorem C1_inverse_correct (p : Nat) (a : Int) (hp : p.Prime) (ha : 0 < a) (hap : a < p)
    (hfit : (p : Int) < 2 ^ 31) :
    0 ≤ inverse a p ∧ inverse a p < p ∧ (a * inverse a p) % p = 1 :=
  inverse_spec_prime hp ha hap (by simpa using hfit)

/-- C1 at `p = 49999` (the largest prime below `MAXPRIME`) and `a = 30`. -/
theorem C1_inverse_correct_witness :
    Nat.Prime 49999 ∧ (0 : Int) < 30 ∧ (30 : Int) < (49999 : Nat) ∧
      (0 ≤ inverse 30 (49999 : Nat) ∧ inverse 30 (49999 : Nat) < (49999 : Nat) ∧
        (30 * inverse 30 (49999 : Nat)) % (49999 : Nat) = 1) :=
  ⟨by norm_num, by decide, by decide,
    C1_inverse_correct 49999 30 (by norm_num) (by decide) (by decide) (by norm_num)⟩

/-! ### Bi-twin length -/

theorem l3_eq_two_mul_min (l1 l2 : Int) : l3 l1 l2 = 2 * min l1 l2 := by
  unfold l3
  split_ifs <;> omega

/-- C10. For chain lengths `l1, l2 ≥ 0` the bi-twin length is `2 * min l1 l2`
when they differ and `l1 + l2` when they agree; hence it is `2 * min l1 l2` in
every case, it is even, symmetric, and `0` exactly when one side is `0`. -/
theorem C10_bitwin_length (l1 l2 : Int) (h1 : 0 ≤ l1) (h2 : 0 ≤ l2) :
    (l1 ≠ l2 → l3 l1 l2 = 2 * min l1 l2) ∧
    (l1 = l2 → l3 l1 l2 = l1 + l2) ∧
    l3 l1 l2 = 2 * min l1 l2 ∧
    Even (l3 l1 l2) ∧
    l3 l1 l2 = l3 l2 l1 ∧
    (l3 l1 l2 = 0 ↔ l1 = 0 ∨ l2 = 0) := by
  have h := l3_eq_two_mul_min l1 l2
  have h' := l3_eq_two_mul_min l2 l1
  refine ⟨fun _ => h, ?_, h, ?_, ?_, ?_⟩
  · intro e
    rw [h, e]
    simp
    ring
  · rw [h]
    exact even_two_mul _
  · rw [h, h', min_comm]
  · rw [h]
    omega

/-- C10 at `l1 = 7`, `l2 = 5`: the bi-twin length is `10`. -/
theorem C10_bitwin_length_witness :
    (0 : Int) ≤ 7 ∧ (0 : Int) ≤ 5 ∧ l3 7 5 = 2 * min 7 5 ∧ l3 7 5 = 10 :=
  ⟨by decide, by decide, (C10_bitwin_length 7 5 (by decide) (by decide)).2.2.1, by decide⟩

/-! ### `isprime` and `genprimes` -/

theorem isprimeLoop_spec (N : Nat) (hN : N < 2 ^ 30) (hN4 : 4 ≤ N) :
    ∀ (fuel k : Nat), 2 ≤ k → (k - 1) * (k - 1) ≤ N → N + 2 ≤ fuel + k →
      (∀ d, 2 ≤ d → d < k → ¬ d ∣ N) →
      (isprimeLoop N fuel k = 1 ∨ isprimeLoop N fuel k = 0) ∧
      (isprimeLoop N fuel k = 1 ↔ N.Prime) := by
  intro fuel
  induction fuel with
  | zero =>
    intro k _ _ hf hd
    exact absurd (dvd_refl N) (hd N (by omega) (by omega))
  | succ fuel ih =>
    intro k hk hsq hf hd
    have hk15 : k ≤ 2 ^ 15 := by
      by_contra hcon
      have : 2 ^ 15 ≤ k - 1 := by omega
      have := Nat.mul_le_mul this this
      norm_num at this hN
      omega
    have hkk : k * k ≤ 2 ^ 30 := by
      have := Nat.mul_le_mul hk15 hk15
      norm_num at this ⊢
      exact this
    have w1 : wrap32 ((k : Int) * k) = (k : Int) * k := by
      apply wrap32_of_range
      · have : (0 : Int) ≤ (k : Int) * k := by positivity
        omega
      · have : ((k * k : Nat) : Int) ≤ ((2 ^ 30 : Nat) : Int) := by exact_mod_cast hkk
        push_cast at this
        omega
    have w2 : wrap32 ((k : Int) + 1) = ((k + 1 : Nat) : Int) := by
      push_cast
      apply wrap32_of_range <;> norm_num at hk15 <;> omega
    have hmod : Int.tmod (N : Int) (k : Int) = ((N % k : Nat) : Int) := by
      rw [Int.tmod_eq_emod (Int.natCast_nonneg N) (Int.natCast_nonneg k)]
      exact (Int.natCast_mod N k).symm
    unfold isprimeLoop
    rw [w1, w2, hmod]
    by_cases h1 : (k : Int) * k ≤ N
    · have h1' : k * k ≤ N := by exact_mod_cast h1
      rw [if_pos h1]
      by_cases h2 : ((N % k : Nat) : Int) = 0
      · rw [if_pos h2]
        have hdvd : k ∣ N := Nat.dvd_of_mod_eq_zero (by exact_mod_cast h2)
        have hklt : k < N := by nlinarith
        refine ⟨Or.inr rfl, ?_⟩
        constructor
        · intro h; exact absurd h (by norm_num)
        · intro hp
          rcases (Nat.dvd_prime hp).mp hdvd with h | h <;> omega
      · rw [if_neg h2]
        apply ih (k + 1) (by omega) (by simpa using h1') (by omega)
        intro d hd2 hdk
        rcases Nat.lt_succ_iff_lt_or_eq.mp hdk with h | h
        · exact hd d hd2 h
        · subst h
          intro hdv
          exact h2 (by exact_mod_cast Nat.mod_eq_zero_of_dvd hdv)
    · rw [if_neg h1]
      have h1' : N < k * k := by
        have : ¬ (k * k ≤ N) := fun h => h1 (by exact_mod_cast h)
        omega
      refine ⟨Or.inl rfl, ?_⟩
      simp only [true_iff]
      rw [Nat.prime_def_le_sqrt]
      refine ⟨by omega, ?_⟩
      intro m hm2 hms
      apply hd m hm2
      have := Nat.sqrt_le N
      by_contra hcon
      have hkm : k ≤ m := by omega
      have := Nat.mul_le_mul hkm hkm
      have := Nat.mul_le_mul hms hms
      omega

theorem isprime_spec (N : Nat) (hN : N < 2 ^ 30) :
    (isprime N = 1 ∨ isprime N = 0) ∧ (isprime N ≠ 0 ↔ N.Prime) := by
  unfold isprime
  by_cases h4 : (N : Int) < 4
  · rw [if_pos h4]
    have : N < 4 := by exact_mod_cast h4
    interval_cases N <;> simp <;> decide
  · rw [if_neg h4]
    have h4' : 4 ≤ N := by
      have : ¬ (N < 4) := fun h => h4 (by exact_mod_cast h)
      omega
    have := isprimeLoop_spec N hN h4' N 2 (le_refl _) (by simp; omega) (by simp)
      (by intro d h1 h2; omega)
    simp only [Int.toNat_ofNat, Nat.cast_ofNat] at this ⊢
    obtain ⟨h1, h2⟩ := this
    refine ⟨h1, ?_⟩
    rw [← h2]
    rcases h1 with h | h <;> rw [h] <;> simp

/-- The primes below `M`, in increasing order, as `int` values. -/
theorem primesBelow_succ_succ (k : Nat) (hk : 3 ≤ k) (hodd : k % 2 = 1) :
    (List.range (k + 2)).filter (fun n => decide (Nat.Prime n)) =
      (List.range k).filter (fun n => decide (Nat.Prime n)) ++
        (if Nat.Prime k then [k] else []) := by
  have hnp : ¬ Nat.Prime (k + 1) := by
    intro hp
    rcases hp.eq_two_or_odd with h | h <;> omega
  rw [List.range_succ, List.range_succ, List.filter_append, List.filter_append]
  simp only [List.filter_cons, List.filter_nil, hnp, decide_False, Bool.false_eq_true,
    if_false, List.append_nil]
  by_cases hp : Nat.Prime k <;> simp [hp]

theorem genprimesLoop_spec (M : Nat) (h3 : 2 < M) (hM : M ≤ 2 ^ 30) :
    ∀ (fuel k : Nat), 3 ≤ k → k % 2 = 1 → k ≤ M + 1 → M ≤ fuel + k →
      genprimesLoop M fuel k
          (((List.range k).filter (fun n => decide (Nat.Prime n))).map (fun n : Nat => (n : Int))) =
        ((List.range M).filter (fun n => decide (Nat.Prime n))).map (fun n : Nat => (n : Int)) := by
  intro fuel
  have hexit : ∀ k : Nat, 3 ≤ k → k % 2 = 1 → k ≤ M + 1 → M ≤ k →
      (List.range k).filter (fun n => decide (Nat.Prime n)) =
        (List.range M).filter (fun n => decide (Nat.Prime n)) := by
    intro k hk hodd hle hge
    rcases Nat.lt_or_ge M k with h | h
    · have hk1 : k = M + 1 := by omega
      subst hk1
      have hnp : ¬ Nat.Prime M := by
        intro hp
        rcases hp.eq_two_or_odd with h' | h' <;> omega
      rw [List.range_succ, List.filter_append]
      simp [hnp]
    · have : k = M := by omega
      rw [this]
  induction fuel with
  | zero =>
    intro k hk hodd hle hf
    unfold genprimesLoop
    rw [hexit k hk hodd hle (by omega)]
  | succ fuel ih =>
    intro k hk hodd hle hf
    unfold genprimesLoop
    by_cases hlt : (k : Int) < M
    · have hlt' : k < M := by exact_mod_cast hlt
      rw [if_pos hlt]
      have w : wrap32 ((k : Int) + 2) = ((k + 2 : Nat) : Int) := by
        push_cast
        apply wrap32_of_range <;> norm_num at hM <;> omega
      have hpr := (isprime_spec k (by omega)).2
      rw [w]
      have hacc : (if isprime k ≠ 0 then
            ((List.range k).filter (fun n => decide (Nat.Prime n))).map (fun n : Nat => (n : Int)) ++
              [(k : Int)]
          else ((List.range k).filter (fun n => decide (Nat.Prime n))).map (fun n : Nat => (n : Int))) =
          ((List.range (k + 2)).filter (fun n => decide (Nat.Prime n))).map
            (fun n : Nat => (n : Int)) := by
        rw [primesBelow_succ_succ k hk hodd]
        by_cases hp : Nat.Prime k
        · rw [if_pos (hpr.mpr hp), if_pos hp]
          simp
        · rw [if_neg (fun h => hp (hpr.mp h)), if_neg hp]
          simp
      rw [hacc]
      exact ih (k + 2) (by omega) (by omega) (by omega) (by omega)
    · rw [if_neg hlt]
      have : M ≤ k := by
        have : ¬ (k < M) := fun h => hlt (by exact_mod_cast h)
        omega
      rw [hexit k hk hodd hle this]

/-- Closed form of the table: the primes below `MAXPRIME`, ascending. -/
theorem genprimes_eq (M : Nat) (h3 : 2 < M) (hM : M ≤ 2 ^ 30) :
    genprimes M =
      ((List.range M).filter (fun n => decide (Nat.Prime n))).map (fun n : Nat => (n : Int)) := by
  have := genprimesLoop_spec M h3 hM M 3 (le_refl _) (by norm_num) (by omega) (by omega)
  have h3' : ((List.range 3).filter (fun n => decide (Nat.Prime n))).map (fun n : Nat => (n : Int)) =
      [2] := by decide
  rw [h3'] at this
  unfold genprimes
  simpa using this

theorem mem_genprimes {M : Nat} (h3 : 2 < M) (hM : M ≤ 2 ^ 30) (q : Int) :
    q ∈ genprimes M ↔ ∃ n : Nat, n.Prime ∧ n < M ∧ q = n := by
  rw [genprimes_eq M h3 hM]
  simp only [List.mem_map, List.mem_filter, List.mem_range, decide_eq_true_eq]
  constructor
  · rintro ⟨n, ⟨h1, h2⟩, rfl⟩
    exact ⟨n, h2, h1, rfl⟩
  · rintro ⟨n, h1, h2, rfl⟩
    exact ⟨n, ⟨h2, h1⟩, rfl⟩

theorem genprimes_sorted {M : Nat} (h3 : 2 < M) (hM : M ≤ 2 ^ 30) :
    List.Pairwise (· < ·) (genprimes M) := by
  rw [genprimes_eq M h3 hM, List.pairwise_map]
  apply List.Pairwise.imp _ (List.Pairwise.filter _ (List.pairwise_lt_range M))
  intro a b hab
  exact_mod_cast hab

theorem genprimes_head {M : Nat} (h3 : 2 < M) (hM : M ≤ 2 ^ 30) :
    (genprimes M).head? = some 2 := by
  have hsplit : List.range M = List.range 3 ++ (List.range' 3 (M - 3)) := by
    have : M = 3 + (M - 3) := by omega
    conv_lhs => rw [this]
    rw [List.range_add]
    congr 1
    rw [List.range_eq_range', List.map_add_range']
  rw [genprimes_eq M h3 hM, hsplit, List.filter_append, List.map_append]
  have : (List.range 3).filter (fun n => decide (Nat.Prime n)) = [2] := by decide
  rw [this]
  rfl

/-- C2. After `genprimes` the table `prim[0..pn)` holds exactly the primes
below `MAXPRIME`: `prim[0] = 2`, the entries are strictly increasing, every
entry is a prime below `MAXPRIME`, every prime below `MAXPRIME` occurs, and
`isprime n` is nonzero iff `n` is prime for `0 ≤ n < MAXPRIME`
(for `2 < MAXPRIME ≤ 2^30`, which covers the source's `50000`). -/
theorem C2_genprimes_table (M : Nat) (h3 : 2 < M) (hM : M ≤ 2 ^ 30) :
    (genprimes M).head? = some 2 ∧
    List.Pairwise (· < ·) (genprimes M) ∧
    (∀ q ∈ genprimes M, 0 ≤ q ∧ q < M ∧ Nat.Prime q.toNat) ∧
    (∀ p : Nat, p.Prime → p < M → (p : Int) ∈ genprimes M) ∧
    (∀ n : Nat, n < M → (isprime n ≠ 0 ↔ n.Prime)) := by
  refine ⟨genprimes_head h3 hM, genprimes_sorted h3 hM, ?_, ?_, ?_⟩
  · intro q hq
    obtain ⟨n, hn, hlt, rfl⟩ := (mem_genprimes h3 hM q).mp hq
    exact ⟨Int.natCast_nonneg n, by exact_mod_cast hlt, by simpa using hn⟩
  · intro p hp hlt
    exact (mem_genprimes h3 hM p).mpr ⟨p, hp, hlt, rfl⟩
  · intro n hn
    exact (isprime_spec n (by omega)).2

/-- C2 at the source's `MAXPRIME = 50000`. -/
theorem C2_genprimes_table_witness :
    2 < 50000 ∧ 50000 ≤ 2 ^ 30 ∧ (genprimes MAXPRIME).head? = some 2 ∧
      List.Pairwise (· < ·) (genprimes MAXPRIME) ∧
      ((49999 : Nat) : Int) ∈ genprimes MAXPRIME :=
  ⟨by decide, by decide, (C2_genprimes_table 50000 (by decide) (by decide)).1,
    (C2_genprimes_table 50000 (by decide) (by decide)).2.1,
    (C2_genprimes_table 50000 (by decide) (by decide)).2.2.2.1 49999 (by norm_num)
      (by decide)⟩

/-! ### Sieve marking -/

theorem markLoop_spec (S p : Int) (hp : 1 ≤ p) (hfit : S + p ≤ 2147483648) :
    ∀ (fuel : Nat) (j : Int) (sieve : Int → Bool) (i : Int), 0 ≤ j → S ≤ j + fuel →
      (markLoop S p fuel j sieve i = true ↔
        sieve i = true ∨ (j ≤ i ∧ i < S ∧ p ∣ i - j)) := by
  intro fuel
  induction fuel with
  | zero =>
    intro j sieve i hj hf
    simp only [markLoop]
    constructor
    · exact Or.inl
    · rintro (h | ⟨h1, h2, _⟩)
      · exact h
      · simp at hf; omega
  | succ fuel ih =>
    intro j sieve i hj hf
    unfold markLoop
    by_cases hjS : j < S
    · rw [if_pos hjS, wrap32_of_range (by omega) (by omega),
        ih (j + p) _ i (by omega) (by push_cast at hf; omega)]
      constructor
      · rintro (h | ⟨h1, h2, h3⟩)
        · by_cases hij : i = j
          · subst hij
            exact Or.inr ⟨le_refl _, hjS, by simp⟩
          · rw [if_neg hij] at h
            exact Or.inl h
        · refine Or.inr ⟨by omega, h2, ?_⟩
          have : i - j = (i - (j + p)) + p := by ring
          rw [this]
          exact dvd_add h3 (dvd_refl p)
      · rintro (h | ⟨h1, h2, h3⟩)
        · left
          by_cases hij : i = j
          · rw [if_pos hij]
          · rw [if_neg hij]; exact h
        · by_cases hij : i = j
          · left; rw [if_pos hij]
          · right
            obtain ⟨c, hc⟩ := h3
            have hc1 : 1 ≤ c := by
              by_contra hcon
              have : c ≤ 0 := by omega
              have := mul_nonpos_of_nonneg_of_nonpos (by omega : (0 : Int) ≤ p) this
              omega
            refine ⟨?_, h2, ⟨c - 1, by rw [mul_sub, ← hc]; ring⟩⟩
            have : p * 1 ≤ p * c := mul_le_mul_of_nonneg_left hc1 (by omega)
            omega
    · rw [if_neg hjS]
      constructor
      · exact Or.inl
      · rintro (h | ⟨h1, h2, _⟩)
        · exact h
        · omega

/-- A start `a ∈ [1, p)` makes "at or after the start, in step with it" the
same as "positive and congruent to it". -/
theorem start_congr {p a i : Int} (ha1 : 1 ≤ a) (hap : a < p) :
    (a ≤ i ∧ p ∣ i - a) ↔ (1 ≤ i ∧ p ∣ i - a) := by
  constructor
  · rintro ⟨h1, h2⟩
    exact ⟨by omega, h2⟩
  · rintro ⟨h1, h2⟩
    refine ⟨?_, h2⟩
    by_contra hcon
    obtain ⟨c, hc⟩ := h2
    have hc0 : c < 0 := by
      by_contra hc0
      have := mul_nonneg (by omega : (0 : Int) ≤ p) (by omega : (0 : Int) ≤ c)
      omega
    have : p * c ≤ p * (-1) := mul_le_mul_of_nonneg_left (by omega) (by omega)
    omega

/-- Effect of `sieveStep` for a prime `p`: index `i` of the minus sieve becomes
marked exactly when `1 ≤ i < S` and `p ∣ i*B - 1`; likewise `p ∣ i*B + 1` for
the plus sieve. -/
theorem sieveStep_spec {p : Nat} (hp : p.Prime) (S B : Int) (hfit : S + p < 2147483648)
    (hS : 0 ≤ S) (sv : Sieves) (i : Int) :
    ((sieveStep S B p sv).sieveminus i = true ↔
      sv.sieveminus i = true ∨ (1 ≤ i ∧ i < S ∧ (p : Int) ∣ i * B - 1)) ∧
    ((sieveStep S B p sv).sieveplus i = true ↔
      sv.sieveplus i = true ∨ (1 ≤ i ∧ i < S ∧ (p : Int) ∣ i * B + 1)) := by
  have hp2 : (2 : Int) ≤ p := by exact_mod_cast hp.two_le
  have hr0 : 0 ≤ B % p := Int.emod_nonneg _ (by omega)
  have hrp : B % p < p := Int.emod_lt_of_pos _ (by omega)
  have hBr : (p : Int) ∣ B - B % p := Int.dvd_sub_of_emod_eq rfl
  unfold sieveStep
  by_cases hr : B % (p : Int) = 0
  · have hpB : (p : Int) ∣ B := Int.dvd_of_emod_eq_zero hr
    have hnot : ∀ e : Int, e = 1 ∨ e = -1 → ¬ (p : Int) ∣ i * B + e := by
      intro e he hd
      have h1 : (p : Int) ∣ e := by
        have := dvd_sub hd (Dvd.dvd.mul_left hpB i)
        simpa using this
      have := Int.le_of_dvd (by rcases he with h | h <;> simp [h] : (0 : Int) < e * e)
        (Dvd.dvd.mul_right h1 e)
      rcases he with h | h <;> simp [h] at this <;> omega
    simp only [hr, ne_eq, not_true_eq_false, if_false]
    constructor
    · constructor
      · exact Or.inl
      · rintro (h | ⟨_, _, h3⟩)
        · exact h
        · exact absurd (by simpa [sub_eq_add_neg] using h3) (hnot (-1) (Or.inr rfl))
    · constructor
      · exact Or.inl
      · rintro (h | ⟨_, _, h3⟩)
        · exact h
        · exact absurd h3 (hnot 1 (Or.inl rfl))
  · have hrpos : 0 < B % p := lt_of_le_of_ne hr0 (Ne.symm hr)
    obtain ⟨ha0, hap, hinv⟩ := inverse_spec_prime hp hrpos hrp (by omega)
    have ha1 := inverse_pos_prime hp hrpos hrp (by omega)
    set a := inverse (B % p) p with ha
    have hra : (p : Int) ∣ B % p * a - 1 := by
      have := Int.emod_emod_of_dvd (B % p * a) (dvd_refl (p : Int))
      exact Int.dvd_sub_of_emod_eq hinv
    have hBa : (p : Int) ∣ B * a - 1 := by
      have : B * a - 1 = (B - B % p) * a + (B % p * a - 1) := by ring
      rw [this]
      exact dvd_add (Dvd.dvd.mul_right hBr a) hra
    have hj2 : Int.tmod (a * wrap32 ((p : Int) - 1)) p = p - a := by
      rw [wrap32_of_range (by omega) (by omega),
        Int.tmod_eq_emod (mul_nonneg ha0 (by omega)) (by omega)]
      have : a * ((p : Int) - 1) = (p - a) + p * (a - 1) := by ring
      rw [this, Int.add_mul_emod_self_left]
      exact Int.emod_eq_of_lt (by omega) (by omega)
    simp only [hr, ne_eq, not_false_eq_true, if_true]
    rw [← ha, hj2]
    have hfuel : ∀ j : Int, 0 ≤ j → S ≤ j + (S.toNat : Int) := by
      intro j hj
      have := Int.self_le_toNat S
      omega
    constructor
    · rw [markLoop_spec S p (by omega) (by omega) _ a _ i ha0 (hfuel a ha0)]
      apply or_congr Iff.rfl
      have h1 : ((p : Int) ∣ i - a) ↔ ((p : Int) ∣ i * B - 1) := by
        constructor
        · intro h
          have : i * B - 1 = (i - a) * B + (B * a - 1) := by ring
          rw [this]
          exact dvd_add (Dvd.dvd.mul_right h B) hBa
        · intro h
          have : i - a = a * (i * B - 1) - i * (B * a - 1) := by ring
          rw [this]
          exact dvd_sub (Dvd.dvd.mul_left h a) (Dvd.dvd.mul_left hBa i)
      have h2 := start_congr (p := (p : Int)) (i := i) ha1 hap
      constructor
      · rintro ⟨e1, e2, e3⟩
        exact ⟨(h2.mp ⟨e1, e3⟩).1, e2, h1.mp e3⟩
      · rintro ⟨e1, e2, e3⟩
        exact ⟨(h2.mpr ⟨e1, h1.mpr e3⟩).1, e2, h1.mpr e3⟩
    · rw [markLoop_spec S p (by omega) (by omega) _ (p - a) _ i (by omega) (hfuel _ (by omega))]
      apply or_congr Iff.rfl
      have h0 : ((p : Int) ∣ i - (p - a)) ↔ ((p : Int) ∣ i + a) := by
        have : i + a = (i - (p - a)) + p := by ring
        rw [this]
        exact (dvd_add_self_right).symm
      have h1 : ((p : Int) ∣ i + a) ↔ ((p : Int) ∣ i * B + 1) := by
        constructor
        · intro h
          have : i * B + 1 = (i + a) * B - (B * a - 1) := by ring
          rw [this]
          exact dvd_sub (Dvd.dvd.mul_right h B) hBa
        · intro h
          have : i + a = a * (i * B + 1) - i * (B * a - 1) := by ring
          rw [this]
          exact dvd_sub (Dvd.dvd.mul_left h a) (Dvd.dvd.mul_left hBa i)
      have h2 := start_congr (p := (p : Int)) (a := p - a) (i := i) (by omega) (by omega)
      constructor
      · rintro ⟨e1, e2, e3⟩
        exact ⟨(h2.mp ⟨e1, e3⟩).1, e2, h1.mp (h0.mp e3)⟩
      · rintro ⟨e1, e2, e3⟩
        exact ⟨(h2.mpr ⟨e1, h0.mpr (h1.mpr e3)⟩).1, e2, h0.mpr (h1.mpr e3)⟩

/-! ### Sieve build -/

theorem or_mark_assoc {a c1 c2 n e : Prop} :
    ((a ∨ (c1 ∧ c2 ∧ n)) ∨ (c1 ∧ c2 ∧ e)) ↔ (a ∨ (c1 ∧ c2 ∧ (n ∨ e))) := by
  tauto

theorem foldl_sieveStep_spec (S B : Int) (hS : 0 ≤ S) (i : Int) :
    ∀ (l : List Int) (sv : Sieves),
      (∀ q ∈ l, ∃ n : Nat, n.Prime ∧ q = n ∧ S + n < 2147483648) →
      (((l.foldl (fun sv p => sieveStep S B p sv) sv).sieveminus i = true ↔
        sv.sieveminus i = true ∨ (1 ≤ i ∧ i < S ∧ ∃ q ∈ l, q ∣ i * B - 1)) ∧
       ((l.foldl (fun sv p => sieveStep S B p sv) sv).sieveplus i = true ↔
        sv.sieveplus i = true ∨ (1 ≤ i ∧ i < S ∧ ∃ q ∈ l, q ∣ i * B + 1))) := by
  intro l
  induction l with
  | nil => intro sv _; simp
  | cons q l ih =>
    intro sv hl
    obtain ⟨n, hn, rfl, hfit⟩ := hl q (List.mem_cons_self _ _)
    have ih' := ih (sieveStep S B n sv) (fun q hq => hl q (List.mem_cons_of_mem _ hq))
    have hs := sieveStep_spec hn S B hfit hS sv i
    have e1 : (∃ q ∈ (n : Int) :: l, q ∣ i * B - 1) ↔
        ((n : Int) ∣ i * B - 1 ∨ ∃ q ∈ l, q ∣ i * B - 1) := by simp
    have e2 : (∃ q ∈ (n : Int) :: l, q ∣ i * B + 1) ↔
        ((n : Int) ∣ i * B + 1 ∨ ∃ q ∈ l, q ∣ i * B + 1) := by simp
    rw [List.foldl_cons, e1, e2]
    exact ⟨ih'.1.trans ((or_congr hs.1 Iff.rfl).trans or_mark_assoc),
      ih'.2.trans ((or_congr hs.2 Iff.rfl).trans or_mark_assoc)⟩

theorem skipSmall_spec (prim : List Int) (P : Int) :
    ∀ (l : List Int) (i fuel : Nat), prim.drop i = l → l.length < fuel →
      (∃ q ∈ l, P < q) →
      ∃ k, skipSmall prim P fuel i = some k ∧
        prim.drop k = l.dropWhile (fun q => decide (q ≤ P)) := by
  intro l
  induction l with
  | nil => intro i fuel _ _ h; simp at h
  | cons q l ih =>
    intro i fuel hdrop hlen hex
    obtain ⟨fuel, rfl⟩ : ∃ f, fuel = f + 1 := ⟨fuel - 1, by simp at hlen; omega⟩
    have hi : i < prim.length := by
      by_contra hcon
      rw [List.drop_eq_nil_of_le (by omega)] at hdrop
      exact absurd hdrop (by simp)
    have hq : primAt prim i = q := by
      unfold primAt
      rw [List.getD_eq_getElem _ _ hi]
      have := List.drop_eq_getElem_cons hi
      rw [hdrop] at this
      exact (List.cons.inj this).1.symm
    have hdrop' : prim.drop (i + 1) = l := by
      have := List.drop_eq_getElem_cons hi
      rw [hdrop] at this
      exact (List.cons.inj this).2.symm
    unfold skipSmall
    rw [if_pos hi, hq]
    by_cases hqP : q ≤ P
    · rw [if_pos hqP]
      have hex' : ∃ q' ∈ l, P < q' := by
        obtain ⟨q', hq', hP⟩ := hex
        rcases List.mem_cons.mp hq' with h | h
        · subst h; omega
        · exact ⟨q', h, hP⟩
      obtain ⟨k, hk1, hk2⟩ := ih (i + 1) fuel hdrop' (by simp at hlen; omega) hex'
      refine ⟨k, hk1, ?_⟩
      rw [hk2, List.dropWhile_cons]
      simp [hqP]
    · rw [if_neg hqP]
      refine ⟨i, rfl, ?_⟩
      rw [hdrop, List.dropWhile_cons]
      simp [hqP]

theorem mem_dropWhile_sorted (P : Int) :
    ∀ (l : List Int), List.Pairwise (· < ·) l → ∀ q,
      (q ∈ l.dropWhile (fun q => decide (q ≤ P)) ↔ q ∈ l ∧ P < q) := by
  intro l
  induction l with
  | nil => intro _ q; simp
  | cons x l ih =>
    intro hs q
    rw [List.pairwise_cons] at hs
    rw [List.dropWhile_cons]
    by_cases hx : x ≤ P
    · simp only [hx, decide_True, if_true]
      rw [ih hs.2 q, List.mem_cons]
      constructor
      · rintro ⟨h1, h2⟩; exact ⟨Or.inr h1, h2⟩
      · rintro ⟨h1 | h1, h2⟩
        · subst h1; omega
        · exact ⟨h1, h2⟩
    · simp only [hx, decide_False, Bool.false_eq_true, if_false]
      constructor
      · intro h
        refine ⟨h, ?_⟩
        rcases List.mem_cons.mp h with h1 | h1
        · subst h1; omega
        · have := hs.1 q h1; omega
      · exact fun h => h.1

/-- The sieves after the build: a mark at `i` means `1 ≤ i < S` and some table
prime above `PRIMORIAL` divides `i*B - 1` (minus) or `i*B + 1` (plus). -/
theorem buildSieves_spec (M : Nat) (P S B : Int) (h3 : 2 < M) (hM : M ≤ 2 ^ 30)
    (hS : 0 ≤ S) (hfit : S + M ≤ 2 ^ 31) (hq : ∃ q ∈ genprimes M, P < q) :
    ∃ sv, buildSieves S (genprimes M) P B = some sv ∧
      ∀ i : Int,
        (sv.sieveminus i = true ↔ 1 ≤ i ∧ i < S ∧
          ∃ p : Nat, p.Prime ∧ P < p ∧ p < M ∧ (p : Int) ∣ i * B - 1) ∧
        (sv.sieveplus i = true ↔ 1 ≤ i ∧ i < S ∧
          ∃ p : Nat, p.Prime ∧ P < p ∧ p < M ∧ (p : Int) ∣ i * B + 1) := by
  obtain ⟨k, hk1, hk2⟩ := skipSmall_spec (genprimes M) P (genprimes M) 0
    ((genprimes M).length + 1) rfl (by omega) hq
  have hmem : ∀ q, q ∈ (genprimes M).drop k ↔ ∃ n : Nat, n.Prime ∧ n < M ∧ q = n ∧ P < q := by
    intro q
    rw [hk2, mem_dropWhile_sorted P _ (genprimes_sorted h3 hM), mem_genprimes h3 hM]
    constructor
    · rintro ⟨⟨n, h1, h2, h3⟩, h4⟩; exact ⟨n, h1, h2, h3, h4⟩
    · rintro ⟨n, h1, h2, h3, h4⟩; exact ⟨⟨n, h1, h2, h3⟩, h4⟩
  refine ⟨_, by unfold buildSieves; rw [hk1], ?_⟩
  intro i
  have hl : ∀ q ∈ (genprimes M).drop k, ∃ n : Nat, n.Prime ∧ q = n ∧ S + n < 2147483648 := by
    intro q hq
    obtain ⟨n, h1, h2, h3, _⟩ := (hmem q).mp hq
    refine ⟨n, h1, h3, ?_⟩
    norm_num at hfit
    omega
  have := foldl_sieveStep_spec S B hS i _ ⟨fun _ => false, fun _ => false⟩ hl
  simp only [Bool.false_eq_true, false_or] at this
  rw [this.1, this.2]
  constructor
  · apply and_congr Iff.rfl
    apply and_congr Iff.rfl
    constructor
    · rintro ⟨q, hq, hd⟩
      obtain ⟨n, h1, h2, rfl, h4⟩ := (hmem q).mp hq
      exact ⟨n, h1, h4, h2, hd⟩
    · rintro ⟨n, h1, h4, h2, hd⟩
      exact ⟨n, (hmem n).mpr ⟨n, h1, h2, rfl, h4⟩, hd⟩
  · apply and_congr Iff.rfl
    apply and_congr Iff.rfl
    constructor
    · rintro ⟨q, hq, hd⟩
      obtain ⟨n, h1, h2, rfl, h4⟩ := (hmem q).mp hq
      exact ⟨n, h1, h4, h2, hd⟩
    · rintro ⟨n, h1, h4, h2, hd⟩
      exact ⟨n, (hmem n).mpr ⟨n, h1, h2, rfl, h4⟩, hd⟩

theorem sieveStep_minus_congr {p : Nat} (hp : p.Prime) (S B : Int) (hfit : S + p < 2147483648)
    (hS : 0 ≤ S) (hB : B % (p : Int) ≠ 0) (sv : Sieves) (i : Int) :
    (sieveStep S B p sv).sieveminus i = true ↔
      sv.sieveminus i = true ∨
        (1 ≤ i ∧ i < S ∧ i ≡ inverse (B % p) p [ZMOD p]) := by
  have hp2 : (2 : Int) ≤ p := by exact_mod_cast hp.two_le
  have hr0 : 0 ≤ B % p := Int.emod_nonneg _ (by omega)
  have hrp : B % p < p := Int.emod_lt_of_pos _ (by omega)
  have hrpos : 0 < B % p := lt_of_le_of_ne hr0 (Ne.symm hB)
  obtain ⟨ha0, hap, _⟩ := inverse_spec_prime hp hrpos hrp (by omega)
  have ha1 := inverse_pos_prime hp hrpos hrp (by omega)
  have hfuel : S ≤ inverse (B % p) p + (S.toNat : Int) := by
    have := Int.self_le_toNat S
    omega
  have hstep : (sieveStep S B p sv).sieveminus =
      markLoop S p S.toNat (inverse (B % p) p) sv.sieveminus := by
    unfold sieveStep
    simp only [hB, ne_eq, not_false_eq_true, if_true]
  rw [hstep, markLoop_spec S p (by omega) (by omega) _ _ _ i ha0 hfuel]
  apply or_congr Iff.rfl
  have h2 := start_congr (p := (p : Int)) (i := i) ha1 hap
  have h3 : (i ≡ inverse (B % p) p [ZMOD p]) ↔ (p : Int) ∣ i - inverse (B % p) p := by
    rw [Int.modEq_comm, Int.modEq_iff_dvd]
  rw [h3]
  constructor
  · rintro ⟨e1, e2, e3⟩
    exact ⟨(h2.mp ⟨e1, e3⟩).1, e2, e3⟩
  · rintro ⟨e1, e2, e3⟩
    exact ⟨(h2.mpr ⟨e1, e3⟩).1, e2, e3⟩

theorem naiveSieveMinus_iff (S : Int) (prim : List Int) (P B i : Int) :
    naiveSieveMinus S prim P B i = true ↔
      1 ≤ i ∧ i < S ∧ ∃ q ∈ prim, P < q ∧ q ∣ i * B - 1 := by
  simp only [naiveSieveMinus, Bool.and_eq_true, decide_eq_true_eq, List.any_eq_true,
    Int.dvd_iff_emod_eq_zero, and_assoc]

theorem naiveSievePlus_iff (S : Int) (prim : List Int) (P B i : Int) :
    naiveSievePlus S prim P B i = true ↔
      1 ≤ i ∧ i < S ∧ ∃ q ∈ prim, P < q ∧ q ∣ i * B + 1 := by
  simp only [naiveSievePlus, Bool.and_eq_true, decide_eq_true_eq, List.any_eq_true,
    Int.dvd_iff_emod_eq_zero, and_assoc]

theorem table_exists_iff {M : Nat} (h3 : 2 < M) (hM : M ≤ 2 ^ 30) (P : Int)
    (Q : Int → Prop) :
    (∃ q ∈ genprimes M, P < q ∧ Q q) ↔ ∃ p : Nat, p.Prime ∧ P < p ∧ p < M ∧ Q p := by
  constructor
  · rintro ⟨q, hq, h1, h2⟩
    obtain ⟨n, hn, hlt, rfl⟩ := (mem_genprimes h3 hM q).mp hq
    exact ⟨n, hn, h1, hlt, h2⟩
  · rintro ⟨n, hn, h1, hlt, h2⟩
    exact ⟨n, (mem_genprimes h3 hM n).mpr ⟨n, hn, hlt, rfl⟩, h1, h2⟩

/-- C3. For every origin `B` and every table prime `p` (in particular every one
above `PRIMORIAL`, the only ones the build sieves with) with `B mod p ≠ 0`, the indices that the minus-sieve marking loop for `p` sets are
exactly the `i` with `1 ≤ i < SIEVESIZE` and `i ≡ inverse (B mod p) p (mod p)`:
after the step an index is marked iff it was marked before or is such an `i`
(tunables with `2 < MAXPRIME ≤ 2^30` and `SIEVESIZE + MAXPRIME ≤ 2^31`). -/
theorem C3_minus_marking (M : Nat) (S B : Int) (p : Nat) (h3 : 2 < M) (hM : M ≤ 2 ^ 30)
    (hS : 0 ≤ S) (hfit : S + M ≤ 2 ^ 31) (hp : (p : Int) ∈ genprimes M)
    (hB : B % (p : Int) ≠ 0) (sv : Sieves) (i : Int) :
    ((sieveStep S B p sv).sieveminus i = true ↔
      sv.sieveminus i = true ∨ (1 ≤ i ∧ i < S ∧ i ≡ inverse (B % p) p [ZMOD p])) ∧
    ((sieveStep S B p ⟨fun _ => false, fun _ => false⟩).sieveminus i = true ↔
      (1 ≤ i ∧ i < S ∧ i ≡ inverse (B % p) p [ZMOD p])) := by
  obtain ⟨n, hn, hlt, hpn⟩ := (mem_genprimes h3 hM p).mp hp
  have hpn' : p = n := by exact_mod_cast hpn
  subst hpn'
  have hfit' : S + (p : Int) < 2147483648 := by
    norm_num at hfit
    omega
  refine ⟨sieveStep_minus_congr hn S B hfit' hS hB sv i, ?_⟩
  have := sieveStep_minus_congr hn S B hfit' hS hB ⟨fun _ => false, fun _ => false⟩ i
  simpa using this

/-- C4. For every origin `B` (in particular `B ≥ 0`) the build succeeds and, for
every `i` in `[1, SIEVESIZE)`, `sieveminus[i]` is set iff some table prime `p`
with `PRIMORIAL < p < MAXPRIME` divides `i*B - 1`; the array equals the one
produced by the naive divisibility test. -/
theorem C4_sieve_equals_naive (M : Nat) (P S B : Int) (h3 : 2 < M) (hM : M ≤ 2 ^ 30)
    (hS : 0 ≤ S) (hfit : S + M ≤ 2 ^ 31) (hq : ∃ q ∈ genprimes M, P < q) :
    ∃ sv, buildSieves S (genprimes M) P B = some sv ∧
      ∀ i : Int, 1 ≤ i → i < S →
        (sv.sieveminus i = true ↔
          ∃ p : Nat, p.Prime ∧ P < p ∧ p < M ∧ (p : Int) ∣ i * B - 1) ∧
        sv.sieveminus i = naiveSieveMinus S (genprimes M) P B i := by
  obtain ⟨sv, hsv, hspec⟩ := buildSieves_spec M P S B h3 hM hS hfit hq
  refine ⟨sv, hsv, ?_⟩
  intro i h1 h2
  have hm := (hspec i).1
  refine ⟨?_, ?_⟩
  · rw [hm]
    exact ⟨fun h => h.2.2, fun h => ⟨h1, h2, h⟩⟩
  · rw [Bool.eq_iff_iff, hm, naiveSieveMinus_iff,
      table_exists_iff h3 hM P (fun q => q ∣ i * B - 1)]

/-- C3 at the source's tunables, `B = 30`, `p = 37`, `i = 21`
(`30 * 21 = 17 * 37 + 1`). -/
theorem C3_minus_marking_witness :
    (30 : Int) % ((37 : Nat) : Int) ≠ 0 ∧
    ((sieveStep 1000000 30 (37 : Nat) ⟨fun _ => false, fun _ => false⟩).sieveminus 21 = true ↔
      (1 ≤ (21 : Int) ∧ (21 : Int) < 1000000 ∧
        21 ≡ inverse (30 % ((37 : Nat) : Int)) (37 : Nat) [ZMOD (37 : Nat)])) :=
  ⟨by decide,
    (C3_minus_marking 50000 1000000 30 37 (by decide) (by decide) (by decide) (by decide)
      ((mem_genprimes (by decide) (by decide) _).mpr ⟨37, by norm_num, by decide, rfl⟩)
      (by decide) ⟨fun _ => false, fun _ => false⟩ 21).2⟩

/-- C4 at the source's tunables and the origin `B = 30`. -/
theorem C4_sieve_equals_naive_witness :
    ∃ sv, buildSieves SIEVESIZE (genprimes 50000) 31 30 = some sv ∧
      ∀ i : Int, 1 ≤ i → i < SIEVESIZE →
        (sv.sieveminus i = true ↔
          ∃ p : Nat, p.Prime ∧ (31 : Int) < p ∧ p < 50000 ∧ (p : Int) ∣ i * 30 - 1) ∧
        sv.sieveminus i = naiveSieveMinus SIEVESIZE (genprimes 50000) 31 30 i :=
  C4_sieve_equals_naive 50000 31 SIEVESIZE 30 (by decide) (by decide) (by decide) (by decide)
    ⟨37, (mem_genprimes (by decide) (by decide) _).mpr ⟨37, by norm_num, by decide, rfl⟩,
      by decide⟩

/-! ### Primorial adjustment -/

theorem primorialLoop_spec (prim : List Int) (P : Int) :
    ∀ (l : List Int) (i fuel : Nat) (origin : Int), prim.drop i = l → l.length < fuel →
      (∃ q ∈ l, P < q) →
      primorialLoop prim P fuel i origin =
        some ((l.takeWhile (fun q => decide (q ≤ P))).foldl
          (fun o p => if o % p ≠ 0 then o * p else o) origin) := by
  intro l
  induction l with
  | nil => intro i fuel _ _ _ h; simp at h
  | cons q l ih =>
    intro i fuel origin hdrop hlen hex
    obtain ⟨fuel, rfl⟩ : ∃ f, fuel = f + 1 := ⟨fuel - 1, by simp at hlen; omega⟩
    have hi : i < prim.length := by
      by_contra hcon
      rw [List.drop_eq_nil_of_le (by omega)] at hdrop
      exact absurd hdrop (by simp)
    have hq : primAt prim i = q := by
      unfold primAt
      rw [List.getD_eq_getElem _ _ hi]
      have := List.drop_eq_getElem_cons hi
      rw [hdrop] at this
      exact (List.cons.inj this).1.symm
    have hdrop' : prim.drop (i + 1) = l := by
      have := List.drop_eq_getElem_cons hi
      rw [hdrop] at this
      exact (List.cons.inj this).2.symm
    unfold primorialLoop
    rw [if_pos hi, hq, List.takeWhile_cons]
    by_cases hqP : q ≤ P
    · rw [if_pos hqP]
      have hex' : ∃ q' ∈ l, P < q' := by
        obtain ⟨q', hq', hP⟩ := hex
        rcases List.mem_cons.mp hq' with h | h
        · subst h; omega
        · exact ⟨q', h, hP⟩
      rw [ih (i + 1) fuel _ hdrop' (by simp at hlen; omega) hex']
      simp [hqP]
    · rw [if_neg hqP]
      simp [hqP]

theorem takeWhile_sorted (P : Int) :
    ∀ (l : List Int), List.Pairwise (· < ·) l →
      l.takeWhile (fun q => decide (q ≤ P)) = l.filter (fun q => decide (q ≤ P)) := by
  intro l
  induction l with
  | nil => intro _; rfl
  | cons x l ih =>
    intro hs
    rw [List.pairwise_cons] at hs
    rw [List.takeWhile_cons, List.filter_cons]
    by_cases hx : x ≤ P
    · simp only [hx, decide_True, if_true]
      rw [ih hs.2]
    · simp only [hx, decide_False, Bool.false_eq_true, if_false]
      symm
      rw [List.filter_eq_nil_iff]
      intro a ha
      have := hs.1 a ha
      simp only [decide_eq_true_eq]
      omega

/-- Folding the conditional multiplication over distinct primes multiplies in
exactly those that do not divide the start value. -/
theorem foldl_adjust (h : Int) :
    ∀ (l : List Int) (o : Int), (∀ q ∈ l, ∃ n : Nat, n.Prime ∧ q = n) →
      List.Pairwise (· ≠ ·) l →
      (∀ q ∈ l, (q ∣ o ↔ q ∣ h)) →
      l.foldl (fun o p => if o % p ≠ 0 then o * p else o) o =
        o * ((l.filter (fun q => decide (¬ q ∣ h))).prod) := by
  intro l
  induction l with
  | nil => intro o _ _ _; simp
  | cons q l ih =>
    intro o hpr hnd hdv
    rw [List.pairwise_cons] at hnd
    have hq := hdv q (List.mem_cons_self _ _)
    rw [List.foldl_cons, List.filter_cons]
    by_cases hqh : q ∣ h
    · have : o % q = 0 := Int.emod_eq_zero_of_dvd (hq.mpr hqh)
      simp only [this, ne_eq, not_true_eq_false, if_false, hqh, decide_False,
        Bool.false_eq_true]
      exact ih o (fun q' hq' => hpr q' (List.mem_cons_of_mem _ hq')) hnd.2
        (fun q' hq' => hdv q' (List.mem_cons_of_mem _ hq'))
    · have hno : ¬ q ∣ o := fun hd => hqh (hq.mp hd)
      have : o % q ≠ 0 := fun h0 => hno (Int.dvd_of_emod_eq_zero h0)
      simp only [this, ne_eq, not_false_eq_true, if_true, hqh, decide_True, List.prod_cons]
      rw [ih (o * q) (fun q' hq' => hpr q' (List.mem_cons_of_mem _ hq')) hnd.2]
      · ring
      · intro q' hq'
        obtain ⟨n', hn', hq'n⟩ := hpr q' (List.mem_cons_of_mem _ hq')
        obtain ⟨n, hn, hqn⟩ := hpr q (List.mem_cons_self _ _)
        rw [← hdv q' (List.mem_cons_of_mem _ hq')]
        constructor
        · intro hd
          have hq'p : Prime q' := by
            rw [hq'n]; exact Nat.prime_iff_prime_int.mp hn'
          rcases hq'p.dvd_or_dvd hd with h1 | h1
          · exact h1
          · exfalso
            rw [hq'n, hqn, Int.natCast_dvd_natCast] at h1
            have := (Nat.prime_dvd_prime_iff_eq hn' hn).mp h1
            exact hnd.1 q' hq' (by rw [hq'n, hqn, this])
        · intro hd
          exact Dvd.dvd.mul_right hd q

/-- Result of the primorial adjustment on the generated table, as a product
over the table. -/
theorem primorialAdjust_table (M : Nat) (P h : Int) (h3 : 2 < M) (hM : M ≤ 2 ^ 30)
    (hq : ∃ q ∈ genprimes M, P < q) :
    primorialAdjust (genprimes M) P h =
      some (h * (((genprimes M).filter (fun q => decide (q ≤ P))).filter
        (fun q => decide (¬ q ∣ h))).prod) := by
  unfold primorialAdjust
  rw [primorialLoop_spec (genprimes M) P (genprimes M) 0 _ h rfl (by omega) hq,
    takeWhile_sorted P _ (genprimes_sorted h3 hM)]
  congr 1
  apply foldl_adjust
  · intro q hq
    obtain ⟨n, hn, _, rfl⟩ := (mem_genprimes h3 hM q).mp (List.mem_of_mem_filter hq)
    exact ⟨n, hn, rfl⟩
  · apply List.Pairwise.filter
    exact (genprimes_sorted h3 hM).imp (fun hab => ne_of_lt hab)
  · intro q _
    rfl

/-- The table product equals the product over the primes `p ≤ P` not dividing `h`. -/
theorem table_prod_eq (M P : Nat) (h : Int) (h3 : 2 < M) (hM : M ≤ 2 ^ 30) (hPM : P < M) :
    (((genprimes M).filter (fun q => decide (q ≤ (P : Int)))).filter
        (fun q => decide (¬ q ∣ h))).prod =
      ∏ p in (Finset.range (P + 1)).filter (fun p : Nat => p.Prime ∧ ¬ (p : Int) ∣ h),
        (p : Int) := by
  rw [genprimes_eq M h3 hM, List.filter_map, List.filter_map, List.filter_filter,
    List.filter_filter]
  have hnd : ∀ f : Nat → Bool, ((List.range M).filter f).Nodup :=
    fun f => List.Nodup.filter _ (List.nodup_range M)
  rw [← List.prod_toFinset _ (hnd _)]
  apply Finset.prod_congr _ (fun _ _ => rfl)
  ext p
  simp only [List.toFinset_filter, Function.comp, Bool.and_eq_true, decide_eq_true_eq,
    Finset.mem_filter, List.mem_toFinset, List.mem_range, Finset.mem_range, Nat.cast_le]
  constructor
  · rintro ⟨h1, ⟨h2, h4⟩, h5⟩
    exact ⟨by omega, h5, h2⟩
  · rintro ⟨h1, h2, h4⟩
    exact ⟨by omega, ⟨h4, by omega⟩, h2⟩

/-- Every prime `p ≤ P` divides the adjusted origin. -/
theorem adjusted_dvd (P : Nat) (h : Int) (p : Nat) (hp : p.Prime) (hpP : p ≤ P) :
    (p : Int) ∣ h * ∏ p in (Finset.range (P + 1)).filter
      (fun p : Nat => p.Prime ∧ ¬ (p : Int) ∣ h), (p : Int) := by
  by_cases hd : (p : Int) ∣ h
  · exact Dvd.dvd.mul_right hd _
  · apply Dvd.dvd.mul_left
    apply Finset.dvd_prod_of_mem (fun p : Nat => (p : Int))
    simp only [Finset.mem_filter, Finset.mem_range]
    exact ⟨by omega, hp, hd⟩

/-- C6. For every raw hash integer `h` (in particular `h ≥ 0`) the sequential
primorial loop, which tests the running product, ends with
`B = h * ∏ {p prime, p ≤ PRIMORIAL, p ∤ h}`, and every prime `p ≤ PRIMORIAL`
divides `B` (the table must hold a prime above `PRIMORIAL` for the loop to
stop, as it does for the source's `31` and `50000`). -/
theorem C6_primorial_adjust (M P : Nat) (h : Int) (h3 : 2 < M) (hM : M ≤ 2 ^ 30)
    (hq : ∃ q : Nat, q.Prime ∧ P < q ∧ q < M) :
    ∃ B, primorialAdjust (genprimes M) P h = some B ∧
      B = h * ∏ p in (Finset.range (P + 1)).filter
        (fun p : Nat => p.Prime ∧ ¬ (p : Int) ∣ h), (p : Int) ∧
      ∀ p : Nat, p.Prime → p ≤ P → (p : Int) ∣ B := by
  obtain ⟨q, hq1, hq2, hq3⟩ := hq
  have hq' : ∃ q' ∈ genprimes M, (P : Int) < q' :=
    ⟨q, (mem_genprimes h3 hM q).mpr ⟨q, hq1, hq3, rfl⟩, by exact_mod_cast hq2⟩
  refine ⟨_, ?_, rfl, fun p hp hpP => adjusted_dvd P h p hp hpP⟩
  rw [primorialAdjust_table M P h h3 hM hq', table_prod_eq M P h h3 hM (by omega)]

/-- C6 at the source's tunables and `h = 7`. -/
theorem C6_primorial_adjust_witness :
    ∃ B, primorialAdjust (genprimes 50000) 31 7 = some B ∧ (31 : Int) ∣ B := by
  obtain ⟨B, h1, _, h3⟩ := C6_primorial_adjust 50000 31 7 (by decide) (by decide)
    ⟨37, by norm_num, by decide, by decide⟩
  exact ⟨B, h1, h3 31 (by norm_num) (le_refl _)⟩

/-- A positive adjusted origin is at least the primorial of `P`. -/
theorem adjusted_ge_primorial (P : Nat) (B : Int) (hB : 0 < B)
    (hdiv : ∀ p : Nat, p.Prime → p ≤ P → (p : Int) ∣ B) : (primorial P : Int) ≤ B := by
  have h1 : primorial P ∣ B.natAbs := by
    unfold primorial
    apply Finset.prod_primes_dvd
    · intro a ha
      exact Nat.prime_iff.mp (Finset.mem_filter.mp ha).2
    · intro a ha
      have ha' := Finset.mem_filter.mp ha
      have := hdiv a ha'.2 (by have := Finset.mem_range.mp ha'.1; omega)
      exact Int.natCast_dvd.mp this
  have h2 := Nat.le_of_dvd (by omega) h1
  have h3 : (B.natAbs : Int) = B := Int.natAbs_of_nonneg hB.le
  omega

theorem adjusted_pos (P : Nat) (h : Int) (hh : 0 < h) :
    0 < h * ∏ p in (Finset.range (P + 1)).filter
      (fun p : Nat => p.Prime ∧ ¬ (p : Int) ∣ h), (p : Int) := by
  apply mul_pos hh
  apply Finset.prod_pos
  intro p hp
  have := (Finset.mem_filter.mp hp).2.1.pos
  exact_mod_cast this

/-- C5. For an origin `B` produced by the primorial adjustment from a nonzero
hash integer, and every `i ≥ 1` (marks only exist below `SIEVESIZE`): a mark in `sieveminus[i]`
implies that `i*B - 1` is composite and a mark in `sieveplus[i]` implies that
`i*B + 1` is composite (tunables with `MAXPRIME` below the product of the
primes up to `PRIMORIAL`, as in the source: `50000 < 200560490130`). -/
theorem C5_marked_is_composite (M P : Nat) (S h B : Int) (sv : Sieves) (i : Int)
    (h3 : 2 < M) (hM : M ≤ 2 ^ 30) (hS : 0 ≤ S) (hfit : S + M ≤ 2 ^ 31)
    (hq : ∃ q : Nat, q.Prime ∧ P < q ∧ q < M) (hMP : M < primorial P) (hh : 0 < h)
    (hB : primorialAdjust (genprimes M) P h = some B)
    (hsv : buildSieves S (genprimes M) P B = some sv) (h1 : 1 ≤ i) :
    (sv.sieveminus i = true → IsComposite (i * B - 1)) ∧
    (sv.sieveplus i = true → IsComposite (i * B + 1)) := by
  obtain ⟨q, hq1, hq2, hq3⟩ := hq
  have hq' : ∃ q' ∈ genprimes M, (P : Int) < q' :=
    ⟨q, (mem_genprimes h3 hM q).mpr ⟨q, hq1, hq3, rfl⟩, by exact_mod_cast hq2⟩
  rw [primorialAdjust_table M P h h3 hM hq', table_prod_eq M P h h3 hM (by omega)] at hB
  have hBeq := Option.some.inj hB
  have hBpos : 0 < B := hBeq ▸ adjusted_pos P h hh
  have hBge : (primorial P : Int) ≤ B :=
    adjusted_ge_primorial P B hBpos (fun p hp hpP => hBeq ▸ adjusted_dvd P h p hp hpP)
  have hMB : (M : Int) < B := by
    have : (M : Int) < primorial P := by exact_mod_cast hMP
    omega
  obtain ⟨sv', hsv', hspec⟩ := buildSieves_spec M P S B h3 hM hS hfit hq'
  rw [hsv] at hsv'
  have hsveq := Option.some.inj hsv'
  subst hsveq
  have hiB : B ≤ i * B := by nlinarith
  constructor
  · intro hm
    obtain ⟨_, _, p, hp, _, hpM, hd⟩ := (hspec i).1.mp hm
    have hp2 : (2 : Int) ≤ p := by exact_mod_cast hp.two_le
    have hpM' : (p : Int) < M := by exact_mod_cast hpM
    exact ⟨p, by omega, by omega, hd⟩
  · intro hm
    obtain ⟨_, _, p, hp, _, hpM, hd⟩ := (hspec i).2.mp hm
    have hp2 : (2 : Int) ≤ p := by exact_mod_cast hp.two_le
    have hpM' : (p : Int) < M := by exact_mod_cast hpM
    exact ⟨p, by omega, by omega, hd⟩

/-- The source's tunables satisfy the side condition of C5. -/
theorem primorial_31 : primorial 31 = 200560490130 := by
  decide

/-- C5 at `MAXPRIME = 12`, `PRIMORIAL = 5`, `SIEVESIZE = 20`, `h = 1` (so
`B = 30`) and `i = 4`: `4*30 - 1 = 119 = 7 * 17` is marked and composite. -/
theorem C5_marked_is_composite_witness :
    primorialAdjust (genprimes 12) 5 1 = some 30 ∧
    ((((genprimes 12).drop 3).foldl (fun sv p => sieveStep 20 30 p sv)
        ⟨fun _ => false, fun _ => false⟩).sieveminus 4 = true →
      IsComposite (4 * 30 - 1)) :=
  ⟨by decide,
    (C5_marked_is_composite 12 5 20 1 30 _ 4 (by decide) (by decide) (by decide) (by decide)
      ⟨7, by norm_num, by decide, by decide⟩ (by decide) (by decide) (by decide) rfl
      (by decide)).1⟩


/-! ### `findchain` -/

theorem testBit_lor_bit (m n k : Nat) :
    (m ||| 1 <<< n).testBit k = (m.testBit k || decide (n = k)) := by
  rw [Nat.testBit_lor, Nat.one_shiftLeft, Nat.testBit_two_pow]

theorem MaskOK.set {Pj : Int → Bool} {m : Nat} (h : MaskOK Pj m) {j : Int} (hj : 0 ≤ j)
    (hp : Pj j = true) : MaskOK Pj (m ||| 1 <<< j.toNat) := by
  intro k hk hb
  rw [testBit_lor_bit] at hb
  rcases Bool.or_eq_true _ _ ▸ hb with h1 | h1
  · exact h k hk h1
  · have : j.toNat = k.toNat := by simpa using h1
    have : j = k := by omega
    rw [← this]; exact hp

/-- The two outcomes of one test of `findchain`. -/
theorem testElem_cases {O : Int → Frac → Bool × Frac} {base : Int} {Pj : Int → Bool}
    {Rj : Int → Frac} (hO : OracleIs O base Pj Rj) (s : FC) (j : Int) (hj : 0 ≤ j)
    (hm : MaskOK Pj s.mask) :
    (testElem O base s j = .cont ⟨s.lo, s.hi, s.mask ||| 1 <<< j.toNat, s.f, s.g⟩ ∧
      Pj j = true) ∨
    (testElem O base s j = .restart (FIX ⟨s.lo, s.hi, s.mask, s.f, Rj j⟩ j) ∧
      Pj j = false ∧ s.mask.testBit j.toNat = false) := by
  unfold testElem
  by_cases hb : s.mask.testBit j.toNat = true
  · left
    rw [if_pos hb]
    exact ⟨rfl, hm j hj hb⟩
  · rw [if_neg hb, hO j s.g]
    by_cases hp : Pj j = true
    · left
      rw [if_pos hp]
      exact ⟨rfl, hp⟩
    · right
      rw [if_neg hp]
      exact ⟨rfl, by simpa using hp, by simpa using hb⟩

/-- The `for` loop of `findchain` either tests every element from `mid - i`
down to `lo` and from `mid2 + i` up to `mid2 + (mid - lo)` successfully, or
leaves through `FIX` at a failing element of the range. -/
theorem forLoop_spec {O : Int → Frac → Bool × Frac} {base : Int} {Pj : Int → Bool}
    {Rj : Int → Frac} (hO : OracleIs O base Pj Rj) (mid mid2 : Int) (hmid : mid < mid2) :
    ∀ (fuel : Nat) (i : Int) (s : FC), 0 ≤ i → 0 ≤ s.lo →
      (fuel : Int) = mid - s.lo + 1 - i → mid2 + (mid - s.lo) ≤ s.hi → MaskOK Pj s.mask →
      (∀ j, mid - i < j → j < mid2 + i → s.mask.testBit j.toNat = true) →
      (∃ m, forLoop O base mid mid2 fuel i s = .cont ⟨s.lo, s.hi, m, s.f, s.g⟩ ∧
        MaskOK Pj m ∧
        ∀ j, s.lo ≤ j → j ≤ mid2 + (mid - s.lo) → m.testBit j.toNat = true) ∨
      (∃ s', forLoop O base mid mid2 fuel i s = .restart s' ∧
        IsFix Pj Rj s.lo s.hi s.f s') := by
  intro fuel
  induction fuel with
  | zero =>
    intro i s hi0 hlo hf hhi hm hcov
    left
    refine ⟨s.mask, rfl, hm, ?_⟩
    intro j h1 h2
    simp at hf
    exact hcov j (by omega) (by omega)
  | succ fuel ih =>
    intro i s hi0 hlo hf hhi hm hcov
    push_cast at hf
    unfold forLoop
    rw [if_pos (by omega)]
    rcases testElem_cases hO s (mid - i) (by omega) hm with ⟨h1, hp1⟩ | ⟨h1, hp1, _⟩
    · rw [h1]
      dsimp only
      have hm1 : MaskOK Pj (s.mask ||| 1 <<< (mid - i).toNat) := hm.set (by omega) hp1
      rcases testElem_cases hO ⟨s.lo, s.hi, s.mask ||| 1 <<< (mid - i).toNat, s.f, s.g⟩
        (mid2 + i) (by omega) hm1 with ⟨h2, hp2⟩ | ⟨h2, hp2, _⟩
      · rw [h2]
        dsimp only
        have hm2 := hm1.set (j := mid2 + i) (by omega) hp2
        have := ih (i + 1)
          ⟨s.lo, s.hi, s.mask ||| 1 <<< (mid - i).toNat ||| 1 <<< (mid2 + i).toNat, s.f, s.g⟩
          (by omega) hlo (by simp only; omega) hhi hm2 (by
            intro j h3 h4
            simp only
            rw [testBit_lor_bit, testBit_lor_bit]
            by_cases e1 : j = mid - i
            · simp [e1]
            · by_cases e2 : j = mid2 + i
              · simp [e2]
              · simp [hcov j (by omega) (by omega)])
        exact this
      · rw [h2]
        dsimp only
        right
        exact ⟨_, rfl, mid2 + i, _, by omega, by omega, hp2, hm1, rfl⟩
    · rw [h1]
      dsimp only
      right
      exact ⟨_, rfl, mid - i, _, by omega, by omega, hp1, hm, rfl⟩

/-- Effect of `FIX`: the range shrinks strictly, stays inside the old one, and
each bound that moved is next to the failing element. -/
theorem IsFix.facts {Pj : Int → Bool} {Rj : Int → Frac} {lo hi : Int} {f : Frac} {s' : FC}
    (h : IsFix Pj Rj lo hi f s') :
    lo ≤ s'.lo ∧ s'.hi ≤ hi ∧ s'.hi - s'.lo < hi - lo ∧ MaskOK Pj s'.mask ∧
    (s'.lo = lo ∨ Pj (s'.lo - 1) = false) ∧
    ((s'.hi = hi ∧ s'.f = f) ∨
      (s'.hi < hi ∧ Pj (s'.hi + 1) = false ∧ s'.f = Rj (s'.hi + 1))) := by
  obtain ⟨j, m, h1, h2, hp, hm, rfl⟩ := h
  unfold FIX
  by_cases hc : (j - 1) - lo > hi - (j + 1)
  · rw [if_pos hc]
    dsimp only
    refine ⟨le_refl _, by omega, by omega, hm, Or.inl rfl, Or.inr ⟨by omega, ?_, ?_⟩⟩
    · simpa using hp
    · simp
  · rw [if_neg hc]
    dsimp only
    refine ⟨by omega, le_refl _, by omega, hm, Or.inr ?_, Or.inl ⟨rfl, rfl⟩⟩
    simpa using hp

theorem Accepted.transfer_fix {O : Int → Frac → Bool × Frac} {base MINACCEPT : Int}
    {Pj : Int → Bool} {Rj : Int → Frac} {s s' : FC} {r : ChainOut}
    (hfix : IsFix Pj Rj s.lo s.hi s.f s') (h : Accepted O base MINACCEPT Pj Rj s' r) :
    Accepted O base MINACCEPT Pj Rj s r := by
  obtain ⟨f1, f2, _, _, f5, f6⟩ := hfix.facts
  obtain ⟨lo, hi, fin, a1, a2, a3, a4, a5, a6, a7, a8, a9, a10⟩ := h
  refine ⟨lo, hi, fin, by omega, by omega, a3, a4, a5, a6, ?_, ?_, ?_, a10⟩
  · rcases a7 with e | e
    · rcases f5 with e' | e'
      · left; omega
      · right; rw [e]; exact e'
    · exact Or.inr e
  · rcases a8 with e | e
    · rcases f6 with ⟨e', _⟩ | ⟨_, e', _⟩
      · left; omega
      · right; rw [e]; exact e'
    · exact Or.inr e
  · rcases a9 with ⟨e1, e2⟩ | ⟨e1, e2⟩
    · rcases f6 with ⟨e', e''⟩ | ⟨e', _, e''⟩
      · left; exact ⟨by omega, by rw [e2, e'']⟩
      · right; exact ⟨by omega, by rw [e2, e'', e1]⟩
    · right; exact ⟨by omega, e2⟩

theorem Rejected.transfer_reject {MINACCEPT glo : Int} {Pj : Int → Bool} {Rj : Int → Frac}
    {s s' : FC} {r : ChainOut}
    (hfix : IsFix Pj Rj s.lo s.hi s.f s') (h : Rejected MINACCEPT Rj glo s' r) :
    Rejected MINACCEPT Rj glo s r := by
  obtain ⟨f1, f2, _, _, _, f6⟩ := hfix.facts
  obtain ⟨a1, a2, lo, hi, a3, a4, a5, a6⟩ := h
  refine ⟨a1, a2, lo, hi, by omega, by omega, a5, ?_⟩
  rcases a6 with ⟨e1, e2⟩ | ⟨e1, e2⟩
  · rcases f6 with ⟨e', e''⟩ | ⟨e', _, e''⟩
    · left; exact ⟨by omega, by rw [e2, e'']⟩
    · right; exact ⟨by omega, by rw [e2, e'', e1]⟩
  · right; exact ⟨by omega, e2⟩

/-- Main specification of `findchain`: with enough rounds it returns, and it
either rejects (the range it shrank to is shorter than `MINACCEPT`) or accepts a
range of passing elements that is bounded on either side by the end of the
initial range or by a failing element. -/
theorem findchainLoop_spec {O : Int → Frac → Bool × Frac} {base : Int} {Pj : Int → Bool}
    {Rj : Int → Frac} (hO : OracleIs O base Pj Rj) (MINACCEPT glo : Int)
    (hMA : 1 ≤ MINACCEPT) :
    ∀ (fuel : Nat) (s : FC), 0 ≤ s.lo → MaskOK Pj s.mask → s.hi - s.lo + 1 < fuel →
      0 < fuel →
      ∃ r, findchainLoop O MINACCEPT base glo fuel s = some r ∧
        (Rejected MINACCEPT Rj glo s r ∨ Accepted O base MINACCEPT Pj Rj s r) := by
  intro fuel
  induction fuel with
  | zero => intro s _ _ _ h; omega
  | succ fuel ih =>
    intro s hlo hm hf _
    -- a restart continues with the induction hypothesis
    have hrestart : ∀ s', IsFix Pj Rj s.lo s.hi s.f s' →
        ∃ r, findchainLoop O MINACCEPT base glo fuel s' = some r ∧
          (Rejected MINACCEPT Rj glo s r ∨ Accepted O base MINACCEPT Pj Rj s r) := by
      intro s' hfix
      obtain ⟨f1, f2, f3, f4, _, _⟩ := hfix.facts
      have hfuel : s'.hi - s'.lo + 1 < (fuel : Int) := by push_cast at hf; omega
      have hpos : 0 < fuel := by
        by_contra hcon
        have h0 : fuel = 0 := by omega
        rw [h0] at hfuel
        obtain ⟨j, m, j1, j2, _⟩ := hfix
        simp at hfuel hf
        rw [h0] at hf
        simp at hf
        omega
      obtain ⟨r, hr, hres⟩ := ih s' (by omega) f4 hfuel hpos
      refine ⟨r, hr, ?_⟩
      rcases hres with h | h
      · exact Or.inl (h.transfer_reject hfix)
      · exact Or.inr (h.transfer_fix hfix)
    unfold findchainLoop
    by_cases hshort : s.hi - s.lo + 1 < MINACCEPT
    · rw [if_pos hshort]
      exact ⟨_, rfl, Or.inl ⟨rfl, rfl, s.lo, s.hi, le_refl _, le_refl _, hshort,
        Or.inl ⟨rfl, rfl⟩⟩⟩
    · rw [if_neg hshort]
      have hlen : 0 ≤ s.hi - s.lo := by omega
      have hdiv : Int.tdiv (s.hi - s.lo) 2 = (s.hi - s.lo) / 2 :=
        Int.tdiv_eq_ediv hlen (by norm_num)
      rw [hdiv]
      -- the accepted outcome once every element of `[lo, hi]` is in the mask
      have hdone : ∀ m : Nat, MaskOK Pj m →
          (∀ j, s.lo ≤ j → j ≤ s.hi → m.testBit j.toNat = true) →
          Accepted O base MINACCEPT Pj Rj s
            ⟨s.hi - s.lo + 1,
              if s.f.isUnset then (O (base * 2 ^ (s.hi + 1).toNat) s.f).2 else s.f, s.lo⟩ := by
        intro m hmm hcov
        refine ⟨s.lo, s.hi, s.f, le_refl _, le_refl _, by omega, rfl, rfl, ?_, Or.inl rfl,
          Or.inl rfl, Or.inl ⟨rfl, rfl⟩, rfl⟩
        intro j h1 h2
        exact hmm j (by omega) (hcov j h1 h2)
      by_cases hodd : (s.hi - s.lo) % 2 ≠ 0
      · simp only [hodd, ne_eq, not_false_eq_true, if_true]
        have hfl := forLoop_spec hO (s.lo + (s.hi - s.lo) / 2) (s.lo + (s.hi - s.lo) / 2 + 1)
          (by omega) (s.lo + (s.hi - s.lo) / 2 - s.lo + 1).toNat 0 s (le_refl _) hlo
          (by rw [Int.toNat_of_nonneg (by omega)]; omega) (by omega) hm
          (by intro j h1 h2; omega)
        rcases hfl with ⟨m, h1, hmm, hcov⟩ | ⟨s', h1, hfix⟩
        · rw [h1]
          dsimp only
          exact ⟨_, rfl, Or.inr (hdone m hmm (fun j j1 j2 => hcov j j1 (by omega)))⟩
        · rw [h1]
          dsimp only
          exact hrestart s' hfix
      · have heven : (s.hi - s.lo) % 2 = 0 := by omega
        simp only [heven, ne_eq, not_true_eq_false, if_false]
        rcases testElem_cases hO s (s.lo + (s.hi - s.lo) / 2) (by omega) hm with
          ⟨h0, hp0⟩ | ⟨h0, hp0, _⟩
        · rw [h0]
          dsimp only
          have hm1 := hm.set (j := s.lo + (s.hi - s.lo) / 2) (by omega) hp0
          have hfl := forLoop_spec hO (s.lo + (s.hi - s.lo) / 2 - 1)
            (s.lo + (s.hi - s.lo) / 2 + 1) (by omega)
            (s.lo + (s.hi - s.lo) / 2 - 1 - s.lo + 1).toNat 0
            ⟨s.lo, s.hi, s.mask ||| 1 <<< (s.lo + (s.hi - s.lo) / 2).toNat, s.f, s.g⟩
            (le_refl _) hlo
            (by dsimp only; rw [Int.toNat_of_nonneg (by omega)]; omega)
            (by dsimp only; omega) hm1
            (by
              intro j h1 h2
              have : j = s.lo + (s.hi - s.lo) / 2 := by omega
              dsimp only
              rw [testBit_lor_bit, this]
              simp)
          rcases hfl with ⟨m, h1, hmm, hcov⟩ | ⟨s', h1, hfix⟩
          · rw [h1]
            dsimp only
            exact ⟨_, rfl, Or.inr (hdone m hmm (fun j j1 j2 => hcov j j1 (by dsimp only; omega)))⟩
          · rw [h1]
            dsimp only
            exact hrestart s' hfix
        · rw [h0]
          dsimp only
          exact hrestart _ ⟨s.lo + (s.hi - s.lo) / 2, s.mask, by omega, by omega, hp0, hm, rfl⟩

theorem isbigprime_eq (n mul offs : Int) (f : Frac) :
    isbigprime n mul offs f =
      if fermattest (n * mul + offs) = true then (true, f)
      else (false, fraction (n * mul + offs)) := by
  unfold isbigprime eulerlagrangelifchitz
  by_cases h : fermattest (n * mul + offs) = true
  · simp [h]
  · simp [h]

/-- The source's oracle is a pure test: verdict `fermattest`, residue `fraction`. -/
theorem oracleIs_isbigprime (B base offs : Int) :
    OracleIs (fun mul g => isbigprime B mul offs g) base
      (fun j => fermattest (B * (base * 2 ^ j.toNat) + offs))
      (fun j => fraction (B * (base * 2 ^ j.toNat) + offs)) := by
  intro j g
  exact isbigprime_eq B _ offs g

theorem findchainWith_spec {O : Int → Frac → Bool × Frac} {base : Int} {Pj : Int → Bool}
    {Rj : Int → Frac} (hO : OracleIs O base Pj Rj) (MINACCEPT lo hi glo : Int) (mask : Nat)
    (f : Frac) (hMA : 1 ≤ MINACCEPT) (hlo : 0 ≤ lo) (hm : MaskOK Pj mask) :
    ∃ r, findchainWith O MINACCEPT base lo hi mask f glo = some r ∧
      (Rejected MINACCEPT Rj glo ⟨lo, hi, mask, f, ⟨0, 1⟩⟩ r ∨
        Accepted O base MINACCEPT Pj Rj ⟨lo, hi, mask, f, ⟨0, 1⟩⟩ r) := by
  apply findchainLoop_spec hO MINACCEPT glo hMA _ _ hlo hm
  · have := Int.self_le_toNat (hi - lo + 1)
    show hi - lo + 1 < (((hi - lo + 1).toNat + 1 : Nat) : Int)
    push_cast
    omega
  · omega

/-- C7. Whenever `findchain` returns `L > 0` and records the lower bound `lo`
(the initial mask holding only bits of elements that pass the oracle), every
element `(base*2^k)*B + offs` with `lo ≤ k ≤ lo + L - 1` passes the oracle;
with `i = base*2^lo`, `(i*2^k)*B + offs` passes for `k = 0..L-1`. This holds
for the minus side (`offs = -1`) and the plus side (`offs = +1`) alike, and the
call always returns. -/
theorem C7_accepted_chain_passes (MINACCEPT base lo hi : Int) (mask : Nat) (B offs : Int)
    (f : Frac) (glo : Int) (hMA : 1 ≤ MINACCEPT) (hlo : 0 ≤ lo)
    (hmask : ∀ j : Int, 0 ≤ j → mask.testBit j.toNat = true →
      ∃ g, (isbigprime B (base * 2 ^ j.toNat) offs g).1 = true) :
    ∃ r, findchain MINACCEPT base lo hi mask B offs f glo = some r ∧
      (0 < r.len →
        (∀ (k : Int) (g : Frac), r.glo ≤ k → k ≤ r.glo + r.len - 1 →
          (isbigprime B (base * 2 ^ k.toNat) offs g).1 = true) ∧
        (∀ (k : Nat) (g : Frac), (k : Int) < r.len →
          (isbigprime B (base * 2 ^ r.glo.toNat * 2 ^ k) offs g).1 = true)) := by
  have hO := oracleIs_isbigprime B base offs
  have hfst : ∀ (mul : Int) (g : Frac),
      (isbigprime B mul offs g).1 = fermattest (B * mul + offs) := by
    intro mul g
    rw [isbigprime_eq]
    by_cases h : fermattest (B * mul + offs) = true
    · simp [h]
    · simp [h]
  have hm : MaskOK (fun j => fermattest (B * (base * 2 ^ j.toNat) + offs)) mask := by
    intro j hj hb
    obtain ⟨g, hg⟩ := hmask j hj hb
    rw [hfst] at hg
    exact hg
  obtain ⟨r, hr, hres⟩ := findchainWith_spec hO MINACCEPT lo hi glo mask f hMA hlo hm
  refine ⟨r, hr, ?_⟩
  intro hL
  rcases hres with ⟨h0, _⟩ | ⟨lo', hi', fin, a1, a2, a3, a4, a5, a6, _⟩
  · omega
  · dsimp only at a1 a2
    have hall : ∀ (k : Int) (g : Frac), r.glo ≤ k → k ≤ r.glo + r.len - 1 →
        (isbigprime B (base * 2 ^ k.toNat) offs g).1 = true := by
      intro k g h1 h2
      rw [hfst]
      exact a6 k (by omega) (by omega)
    refine ⟨hall, ?_⟩
    intro k g hk
    have := hall (r.glo + k) g (by omega) (by omega)
    have hnn : 0 ≤ r.glo := by omega
    have e : (r.glo + (k : Int)).toNat = r.glo.toNat + k := by omega
    rw [e, pow_add, ← mul_assoc] at this
    exact this

/-- C7 at `B = 90`, `base = 1`, range `[0, 5]`, minus side: the chain
`89, 179, 359, 719, 1439, 2879` is accepted with length `6`. -/
theorem C7_accepted_chain_passes_witness :
    findchain 5 1 0 5 0 90 (-1) ⟨-1, 1⟩ 0 = some ⟨6, ⟨1111, 5759⟩, 0⟩ ∧
    ∃ r, findchain 5 1 0 5 0 90 (-1) ⟨-1, 1⟩ 0 = some r ∧
      (0 < r.len →
        (∀ (k : Int) (g : Frac), r.glo ≤ k → k ≤ r.glo + r.len - 1 →
          (isbigprime 90 (1 * 2 ^ k.toNat) (-1) g).1 = true) ∧
        (∀ (k : Nat) (g : Frac), (k : Int) < r.len →
          (isbigprime 90 (1 * 2 ^ r.glo.toNat * 2 ^ k) (-1) g).1 = true)) :=
  ⟨by decide,
    C7_accepted_chain_passes 5 1 0 5 0 90 (-1) ⟨-1, 1⟩ 0 (by decide) (by decide)
      (fun j _ h => by simp at h)⟩

/-! ### Longest run -/

theorem runScan_ge_best (Pj : Int → Bool) :
    ∀ (n : Nat) (j : Int) (cur best : Nat), best ≤ runScan Pj n j cur best := by
  intro n
  induction n with
  | zero => intro j cur best; exact le_refl _
  | succ n ih =>
    intro j cur best
    unfold runScan
    by_cases h : Pj j = true
    · rw [if_pos h]
      exact le_trans (le_max_left _ _) (ih _ _ _)
    · rw [if_neg h]
      exact ih _ _ _

/-- Every run of passing elements that ends in the part still to be scanned and
does not start before the current run is no longer than the result. -/
theorem runScan_ge_run (Pj : Int → Bool) :
    ∀ (n : Nat) (j : Int) (cur best : Nat) (a b : Int), j - cur ≤ a → a ≤ b → j ≤ b →
      b < j + n → (∀ k, a ≤ k → k ≤ b → Pj k = true) →
      b - a + 1 ≤ (runScan Pj n j cur best : Int) := by
  intro n
  induction n with
  | zero => intro j cur best a b _ _ h1 h2 _; simp at h2; omega
  | succ n ih =>
    intro j cur best a b ha hab hjb hbn hall
    unfold runScan
    push_cast at hbn
    by_cases h : Pj j = true
    · rw [if_pos h]
      by_cases hb : b = j
      · have h1 := runScan_ge_best Pj n (j + 1) (cur + 1) (max best (cur + 1))
        have h2 : cur + 1 ≤ max best (cur + 1) := le_max_right _ _
        have h3 : ((cur + 1 : Nat) : Int) ≤ (runScan Pj n (j + 1) (cur + 1) (max best (cur + 1)) : Int) := by
          exact_mod_cast le_trans h2 h1
        push_cast at h3
        omega
      · exact ih (j + 1) (cur + 1) _ a b (by push_cast; omega) hab (by omega) (by omega) hall
    · rw [if_neg h]
      have haj : j < a := by
        by_contra hcon
        exact h (hall j (by omega) hjb)
      exact ih (j + 1) 0 best a b (by simp; omega) hab (by omega) (by omega) hall

theorem longestRun_ge_run (Pj : Int → Bool) (lo hi a b : Int) (h1 : lo ≤ a) (h2 : a ≤ b)
    (h3 : b ≤ hi) (hall : ∀ k, a ≤ k → k ≤ b → Pj k = true) :
    b - a + 1 ≤ (longestRun Pj lo hi : Int) := by
  unfold longestRun
  apply runScan_ge_run Pj _ lo 0 0 a b (by simp; omega) h2 (by omega) _ hall
  rw [Int.toNat_of_nonneg (by omega)]
  omega

/-- A run `[a, b]` of passing elements that holds at least `MINACCEPT` elements
and more than half of the range is never dropped: a failing element lies outside
it, and `FIX` keeps the longer side, which contains it. -/
theorem findchainLoop_keeps {O : Int → Frac → Bool × Frac} {base : Int} {Pj : Int → Bool}
    {Rj : Int → Frac} (hO : OracleIs O base Pj Rj) (MINACCEPT glo a b : Int)
    (hMA : 1 ≤ MINACCEPT) (hrun : ∀ j, a ≤ j → j ≤ b → Pj j = true)
    (hlen : MINACCEPT ≤ b - a + 1) :
    ∀ (fuel : Nat) (s : FC), 0 ≤ s.lo → MaskOK Pj s.mask → s.hi - s.lo + 1 < (fuel : Int) →
      s.lo ≤ a → b ≤ s.hi → s.hi - s.lo + 1 < 2 * (b - a + 1) →
      ∃ r, findchainLoop O MINACCEPT base glo fuel s = some r ∧
        r.glo ≤ a ∧ b ≤ r.glo + r.len - 1 := by
  intro fuel
  induction fuel with
  | zero => intro s _ _ hf h1 h2 _; simp at hf; omega
  | succ fuel ih =>
    intro s hlo hm hf ha hb hhalf
    have hrestart : ∀ s', IsFix Pj Rj s.lo s.hi s.f s' →
        ∃ r, findchainLoop O MINACCEPT base glo fuel s' = some r ∧
          r.glo ≤ a ∧ b ≤ r.glo + r.len - 1 := by
      intro s' hfix
      obtain ⟨f1, f2, f3, f4, _, _⟩ := hfix.facts
      obtain ⟨j, m, j1, j2, hp, _, rfl⟩ := hfix
      have hj : j < a ∨ b < j := by
        by_contra hcon
        have := hrun j (by omega) (by omega)
        rw [this] at hp
        exact absurd hp (by simp)
      have hside : (FIX ⟨s.lo, s.hi, m, s.f, Rj j⟩ j).lo ≤ a ∧ b ≤ (FIX ⟨s.lo, s.hi, m, s.f, Rj j⟩ j).hi := by
        unfold FIX
        dsimp only
        by_cases hc : j - 1 - s.lo > s.hi - (j + 1)
        · rw [if_pos hc]
          dsimp only
          constructor <;> omega
        · rw [if_neg hc]
          dsimp only
          constructor <;> omega
      exact ih _ (by omega) f4 (by push_cast at hf; omega) hside.1 hside.2 (by omega)
    unfold findchainLoop
    rw [if_neg (by omega)]
    have hlen0 : 0 ≤ s.hi - s.lo := by omega
    have hdiv : Int.tdiv (s.hi - s.lo) 2 = (s.hi - s.lo) / 2 :=
      Int.tdiv_eq_ediv hlen0 (by norm_num)
    rw [hdiv]
    by_cases hodd : (s.hi - s.lo) % 2 ≠ 0
    · simp only [hodd, ne_eq, not_false_eq_true, if_true]
      have hfl := forLoop_spec hO (s.lo + (s.hi - s.lo) / 2) (s.lo + (s.hi - s.lo) / 2 + 1)
        (by omega) (s.lo + (s.hi - s.lo) / 2 - s.lo + 1).toNat 0 s (le_refl _) hlo
        (by rw [Int.toNat_of_nonneg (by omega)]; omega) (by omega) hm
        (by intro j h1 h2; omega)
      rcases hfl with ⟨m, h1, _, _⟩ | ⟨s', h1, hfix⟩
      · rw [h1]
        dsimp only
        exact ⟨_, rfl, ha, by dsimp only; omega⟩
      · rw [h1]
        dsimp only
        exact hrestart s' hfix
    · have heven : (s.hi - s.lo) % 2 = 0 := by omega
      simp only [heven, ne_eq, not_true_eq_false, if_false]
      rcases testElem_cases hO s (s.lo + (s.hi - s.lo) / 2) (by omega) hm with
        ⟨h0, hp0⟩ | ⟨h0, hp0, _⟩
      · rw [h0]
        dsimp only
        have hm1 := hm.set (j := s.lo + (s.hi - s.lo) / 2) (by omega) hp0
        have hfl := forLoop_spec hO (s.lo + (s.hi - s.lo) / 2 - 1)
          (s.lo + (s.hi - s.lo) / 2 + 1) (by omega)
          (s.lo + (s.hi - s.lo) / 2 - 1 - s.lo + 1).toNat 0
          ⟨s.lo, s.hi, s.mask ||| 1 <<< (s.lo + (s.hi - s.lo) / 2).toNat, s.f, s.g⟩
          (le_refl _) hlo
          (by dsimp only; rw [Int.toNat_of_nonneg (by omega)]; omega)
          (by dsimp only; omega) hm1
          (by
            intro j h1 h2
            have : j = s.lo + (s.hi - s.lo) / 2 := by omega
            dsimp only
            rw [testBit_lor_bit, this]
            simp)
        rcases hfl with ⟨m, h1, _, _⟩ | ⟨s', h1, hfix⟩
        · rw [h1]
          dsimp only
          exact ⟨_, rfl, ha, by dsimp only; omega⟩
        · rw [h1]
          dsimp only
          exact hrestart s' hfix
      · rw [h0]
        dsimp only
        exact hrestart _ ⟨s.lo + (s.hi - s.lo) / 2, s.mask, by omega, by omega, hp0, hm, rfl⟩

/-- C8 (amended). For every initial range `[lo, hi]` with `lo ≥ 0`, empty mask
and every behaviour of the oracle, `findchain` returns and its result `L` is
either `0` or the length, at least `MINACCEPT`, of a run of consecutive passing
elements of `[lo, hi]` that cannot be extended inside `[lo, hi]`; `L` never
exceeds the length of the longest run. Whenever a run `[a, b]` of at least
`MINACCEPT` passing elements holds more than half of the elements of `[lo, hi]`,
the run returned contains it (`glo ≤ a` and `b ≤ glo + L - 1`), so `L` is the
length of the longest run when that run holds more than half of the range. A run
holding at most half of the range can be dropped: after a failure only the
longer part of the range is searched. -/
theorem C8_findchain_maximal_run (O : Int → Frac → Bool × Frac) (base : Int)
    (Pj : Int → Bool) (Rj : Int → Frac) (MINACCEPT lo hi glo : Int) (f : Frac)
    (hO : OracleIs O base Pj Rj) (hMA : 1 ≤ MINACCEPT) (hlo : 0 ≤ lo) :
    ∃ r, findchainWith O MINACCEPT base lo hi 0 f glo = some r ∧
      r.len ≤ (longestRun Pj lo hi : Int) ∧
      (r.len = 0 ∨
        ∃ lo' hi', lo ≤ lo' ∧ hi' ≤ hi ∧ MINACCEPT ≤ r.len ∧ r.len = hi' - lo' + 1 ∧
          r.glo = lo' ∧ (∀ j, lo' ≤ j → j ≤ hi' → Pj j = true) ∧
          (lo' = lo ∨ Pj (lo' - 1) = false) ∧ (hi' = hi ∨ Pj (hi' + 1) = false)) ∧
      (∀ a b : Int, lo ≤ a → b ≤ hi → (∀ j, a ≤ j → j ≤ b → Pj j = true) →
        MINACCEPT ≤ b - a + 1 → hi - lo + 1 < 2 * (b - a + 1) →
        r.glo ≤ a ∧ b ≤ r.glo + r.len - 1 ∧ b - a + 1 ≤ r.len ∧
        (b - a + 1 = (longestRun Pj lo hi : Int) → r.len = (longestRun Pj lo hi : Int))) := by
  have hm : MaskOK Pj 0 := by
    intro j _ hb
    simp at hb
  obtain ⟨r, hr, hres⟩ := findchainWith_spec hO MINACCEPT lo hi glo 0 f hMA hlo hm
  have hle : r.len ≤ (longestRun Pj lo hi : Int) := by
    rcases hres with ⟨h0, _⟩ | ⟨lo', hi', fin, a1, a2, a3, a4, a5, a6, a7, a8, _⟩
    · rw [h0]; exact Int.natCast_nonneg _
    · dsimp only at a1 a2
      rw [a4]
      exact longestRun_ge_run Pj lo hi lo' hi' a1 (by omega) a2 a6
  refine ⟨r, hr, hle, ?_, ?_⟩
  · rcases hres with ⟨h0, _⟩ | ⟨lo', hi', fin, a1, a2, a3, a4, a5, a6, a7, a8, _⟩
    · exact Or.inl h0
    · dsimp only at a1 a2 a7 a8
      exact Or.inr ⟨lo', hi', a1, a2, by omega, a4, a5, a6, a7, a8⟩
  · intro a b ha hb hrun hlen hhalf
    obtain ⟨r', hr', h1, h2⟩ := findchainLoop_keeps hO MINACCEPT glo a b hMA hrun hlen
      ((hi - lo + 1).toNat + 1) ⟨lo, hi, 0, f, ⟨0, 1⟩⟩ hlo hm
      (by dsimp only; push_cast; omega) ha hb hhalf
    have : r' = r := by
      unfold findchainWith at hr
      rw [hr] at hr'
      exact (Option.some.inj hr').symm
    subst this
    refine ⟨h1, h2, by omega, fun h => by omega⟩

/-- C8 as stated fails: on `[0, 12]` with `B = 90`, `base = 1`, minus side and
empty mask, the elements `0..5` (`89, …, 2879`) pass the oracle, so the longest
run has `6 ≥ MINACCEPT = 5` elements, but element `6` fails, the upper part
`[7, 12]` is kept, element `9` fails, and `findchain` returns `0`. -/
theorem C8_counterexample :
    findchain 5 1 0 12 0 90 (-1) ⟨-1, 1⟩ 0 = some ⟨0, ⟨-1, 1⟩, 0⟩ ∧
    longestRun (fun j => (isbigprime 90 (1 * 2 ^ j.toNat) (-1) ⟨0, 1⟩).1) 0 12 = 6 ∧
    ¬ (∀ r, findchain 5 1 0 12 0 90 (-1) ⟨-1, 1⟩ 0 = some r →
        r.len = (longestRun (fun j => (isbigprime 90 (1 * 2 ^ j.toNat) (-1) ⟨0, 1⟩).1)
          0 12 : Int)) := by
  have h1 : findchain 5 1 0 12 0 90 (-1) ⟨-1, 1⟩ 0 = some ⟨0, ⟨-1, 1⟩, 0⟩ := by decide
  have h2 : longestRun (fun j => (isbigprime 90 (1 * 2 ^ j.toNat) (-1) ⟨0, 1⟩).1) 0 12 = 6 := by
    decide
  refine ⟨h1, h2, ?_⟩
  intro h
  have := h _ h1
  rw [h2] at this
  simp at this

/-- C8 (amended) for the source's oracle at `B = 90`, `base = 1`, minus side, on
the range `[0, 7]`: the run `[0, 5]` (`89, …, 2879`) holds `6` of the `8`
elements, and `findchain` returns `6`, the length of the longest run. -/
theorem C8_findchain_maximal_run_witness :
    findchain 5 1 0 7 0 90 (-1) ⟨-1, 1⟩ 0 = some ⟨6, ⟨1111, 5759⟩, 0⟩ ∧
    longestRun (fun j => fermattest (90 * (1 * 2 ^ j.toNat) + -1)) 0 7 = 6 ∧
    ∃ r, findchainWith (fun mul g => isbigprime 90 mul (-1) g) 5 1 0 7 0 ⟨-1, 1⟩ 0 = some r ∧
      r.glo ≤ 0 ∧ (5 : Int) ≤ r.glo + r.len - 1 ∧ (5 : Int) - 0 + 1 ≤ r.len := by
  obtain ⟨r, h1, _, _, h4⟩ :=
    C8_findchain_maximal_run _ 1 _ _ 5 0 7 0 ⟨-1, 1⟩ (oracleIs_isbigprime 90 1 (-1))
      (by decide) (by decide)
  obtain ⟨h5, h6, h7, _⟩ := h4 0 5 (by decide) (by decide)
    (by
      intro j hj1 hj2
      have : j = 0 ∨ j = 1 ∨ j = 2 ∨ j = 3 ∨ j = 4 ∨ j = 5 := by omega
      rcases this with h | h | h | h | h | h <;> subst h <;> decide)
    (by decide) (by decide)
  exact ⟨by decide, by decide, r, h1, h5, h6, h7⟩

/-! ### Oracle residues, the extension loop and the brute-force routine -/

theorem powmLoop_lt (m : Nat) (hm : 0 < m) :
    ∀ (fuel b e acc : Nat), acc < m → powmLoop m fuel b e acc < m := by
  intro fuel
  induction fuel with
  | zero => intro b e acc h; exact h
  | succ fuel ih =>
    intro b e acc h
    unfold powmLoop
    by_cases he : e = 0
    · rw [if_pos he]; exact h
    · rw [if_neg he]
      apply ih
      by_cases h2 : e % 2 = 1
      · rw [if_pos h2]; exact Nat.mod_lt _ hm
      · rw [if_neg h2]; exact h

theorem powm2_bounds {n : Int} (hn : 0 < n) : 0 ≤ powm2 n ∧ powm2 n < n := by
  unfold powm2 powm
  have hm : 0 < n.toNat := by omega
  have := powmLoop_lt n.toNat hm (n.toNat + 1) (2 % n.toNat) n.toNat (1 % n.toNat)
    (Nat.mod_lt _ hm)
  constructor
  · exact Int.natCast_nonneg _
  · omega

/-- A residue written by the oracle for a positive number is never mistaken for
the "unknown" value `-1`. -/
theorem fraction_not_unset {n : Int} (hn : 0 < n) : (fraction n).isUnset = false := by
  have := powm2_bounds hn
  simp only [fraction, Frac.isUnset, decide_eq_false_iff_not]
  omega

/-- At its `break` the extension loop has a mask of passing elements, and `*f`
is either untouched or the residue of the failing element `k`. -/
theorem beyondLoop_spec {O : Int → Frac → Bool × Frac} {i : Int} {Pj : Int → Bool}
    {Rj : Int → Frac} (hO : OracleIs O i Pj Rj) (sieve : Int → Bool) (S : Int) :
    ∀ (fuel : Nat) (k : Int) (mask : Nat) (f : Frac) (k' : Int) (mask' : Nat) (f' : Frac),
      0 ≤ k → MaskOK Pj mask →
      beyondLoop O sieve S i fuel k mask f = some (k', mask', f') →
      k ≤ k' ∧ MaskOK Pj mask' ∧ (f' = f ∨ (f' = Rj k' ∧ Pj k' = false)) := by
  intro fuel
  induction fuel with
  | zero => intro k mask f k' mask' f' _ _ h; simp [beyondLoop] at h
  | succ fuel ih =>
    intro k mask f k' mask' f' hk hm h
    unfold beyondLoop at h
    by_cases hS : i * 2 ^ k.toNat < S
    · rw [if_pos hS] at h
      by_cases hs : sieve (i * 2 ^ k.toNat) = true
      · rw [if_pos hs] at h
        simp only [Option.some.injEq, Prod.mk.injEq] at h
        obtain ⟨rfl, rfl, rfl⟩ := h
        exact ⟨le_refl _, hm, Or.inl rfl⟩
      · rw [if_neg hs] at h
        obtain ⟨h1, h2, h3⟩ := ih (k + 1) mask f k' mask' f' (by omega) hm h
        exact ⟨by omega, h2, h3⟩
    · rw [if_neg hS, hO k f] at h
      by_cases hp : Pj k = true
      · simp only [hp, if_true] at h
        obtain ⟨h1, h2, h3⟩ := ih (k + 1) _ f k' mask' f' (by omega) (hm.set hk hp) h
        exact ⟨by omega, h2, h3⟩
      · simp only [hp, Bool.false_eq_true, if_false, Option.some.injEq, Prod.mk.injEq] at h
        obtain ⟨rfl, rfl, rfl⟩ := h
        exact ⟨le_refl _, hm, Or.inr ⟨rfl, by simpa using hp⟩⟩

/-- The brute-force loop counts the passing elements `B*(x*2^k) + side`,
`k < L`, and stops at the first failing one with its residue. -/
theorem stupidLoop_spec (B side : Int) (hside : side = -1 ∨ side = 1) :
    ∀ (L fuel : Nat) (x len : Int) (f : Frac), L < fuel →
      (∀ k : Nat, k < L → fermattest (B * (x * 2 ^ k) + side) = true) →
      fermattest (B * (x * 2 ^ L) + side) = false →
      stupidLoop (-side) fuel (B * x + side) len f =
        some (len + L, fraction (B * (x * 2 ^ L) + side)) := by
  intro L
  induction L with
  | zero =>
    intro fuel x len f hf _ hfail
    obtain ⟨fuel, rfl⟩ : ∃ n, fuel = n + 1 := ⟨fuel - 1, by omega⟩
    simp only [pow_zero, mul_one] at hfail
    unfold stupidLoop
    rw [isbigprime_eq]
    simp [hfail]
  | succ L ih =>
    intro fuel x len f hf hpass hfail
    obtain ⟨fuel, rfl⟩ : ∃ n, fuel = n + 1 := ⟨fuel - 1, by omega⟩
    have h0 := hpass 0 (by omega)
    simp only [pow_zero, mul_one] at h0
    unfold stupidLoop
    rw [isbigprime_eq]
    simp only [mul_one, add_zero, h0, if_true]
    have hnext : (if -side < 0 then (B * x + side) * 2 - 1 else (B * x + side) * 2 + 1) =
        B * (x * 2) + side := by
      rcases hside with h | h <;> subst h <;> simp <;> ring
    rw [hnext, ih fuel (x * 2) (len + 1) f (by omega)]
    · congr 2
      · push_cast; ring
      · rw [pow_succ]; ring_nf
    · intro k hk
      have := hpass (k + 1) (by omega)
      rw [pow_succ] at this
      rw [← this]; ring_nf
    · rw [pow_succ] at hfail
      rw [← hfail]; ring_nf

/-- An accepted chain whose `f` is a residue (not the "unknown" value) is a run
of passing elements followed by a failing one whose residue is `f`. -/
theorem scanSide_accept_spec {O : Int → Frac → Bool × Frac} {i : Int} {Pj : Int → Bool}
    {Rj : Int → Frac} (hO : OracleIs O i Pj Rj) (sieve : Int → Bool)
    (S MINCHAIN MINACCEPT glo : Int) (fuel : Nat) (r : ChainOut) (hMA : 1 ≤ MINACCEPT)
    (hMC : 0 ≤ MINCHAIN)
    (hr : scanSide O sieve S MINCHAIN MINACCEPT i glo fuel = some r) (hL : 0 < r.len)
    (hf : r.f.isUnset = false) :
    0 ≤ r.glo ∧ (∀ j, r.glo ≤ j → j < r.glo + r.len → Pj j = true) ∧
      Pj (r.glo + r.len) = false ∧ r.f = Rj (r.glo + r.len) := by
  unfold scanSide at hr
  by_cases hg : i % 2 ≠ 0 ∨ sieve (i / 2) = true
  · rw [if_pos hg] at hr
    by_cases hc : contiguous sieve i MINCHAIN MINCHAIN.toNat 0 = true
    · rw [if_pos hc] at hr
      cases hb : beyondLoop O sieve S i fuel MINCHAIN 0 ⟨-1, 1⟩ with
      | none => rw [hb] at hr; simp at hr
      | some res =>
        obtain ⟨k, mask, f⟩ := res
        rw [hb] at hr
        dsimp only at hr
        have hm0 : MaskOK Pj 0 := by
          intro j _ h; simp at h
        obtain ⟨hk, hm, hfk⟩ := beyondLoop_spec hO sieve S fuel MINCHAIN 0 ⟨-1, 1⟩ k mask f
          hMC hm0 hb
        obtain ⟨r', hr', hres⟩ := findchainWith_spec hO MINACCEPT 0 (k - 1) glo mask f hMA
          (le_refl _) hm
        rw [hr'] at hr
        have hrr : r' = r := Option.some.inj hr
        subst hrr
        rcases hres with ⟨h0, _⟩ | ⟨lo', hi', fin, a1, a2, a3, a4, a5, a6, a7, a8, a9, a10⟩
        · omega
        · dsimp only at a1 a2 a7 a8 a9
          have hend : r'.glo + r'.len = hi' + 1 := by omega
          rw [hend]
          refine ⟨by omega, fun j h1 h2 => a6 j (by omega) (by omega), ?_⟩
          have hun : (⟨-1, 1⟩ : Frac).isUnset = true := by decide
          by_cases hfin : fin.isUnset = true
          · -- `fin` is the untouched `-1`: the final probe decides
            rw [if_pos hfin, hO (hi' + 1) fin] at a10
            by_cases hp : Pj (hi' + 1) = true
            · rw [if_pos hp] at a10
              rw [a10, hfin] at hf
              exact absurd hf (by simp)
            · rw [if_neg hp] at a10
              exact ⟨by simpa using hp, a10⟩
          · rw [if_neg hfin] at a10
            rcases a9 with ⟨e1, e2⟩ | ⟨e1, e2⟩
            · rcases hfk with e3 | ⟨e3, e4⟩
              · rw [e2, e3] at hfin
                exact absurd hun hfin
              · have : hi' + 1 = k := by omega
                rw [this]
                exact ⟨e4, by rw [a10, e2, e3]⟩
            · rcases a8 with e3 | e3
              · omega
              · exact ⟨e3, by rw [a10, e2]⟩
    · rw [if_neg hc] at hr
      have := Option.some.inj hr
      rw [← this] at hL
      simp at hL
  · rw [if_neg hg] at hr
    have := Option.some.inj hr
    rw [← this] at hL
    simp at hL

/-- Agreement of the locator with the brute-force routine, for the source's
oracle, whenever the reported `f` is a residue. -/
theorem bruteforce_agrees (sieve : Int → Bool) (S MINCHAIN MINACCEPT i glo B side : Int)
    (fuel : Nat) (r : ChainOut) (f0 : Frac) (hside : side = -1 ∨ side = 1)
    (hMA : 1 ≤ MINACCEPT) (hMC : 0 ≤ MINCHAIN) (hi : 1 ≤ i) (hB : 0 < B) (hB2 : 2 ∣ B)
    (hr : scanSide (fun mul g => isbigprime B mul side g) sieve S MINCHAIN MINACCEPT i glo
      fuel = some r)
    (hL : 0 < r.len) (hf : r.f.isUnset = false) :
    findchainstupid (r.len.toNat + 1) (B * (i * 2 ^ r.glo.toNat)) side (-side) f0 =
      some (r.len, r.f) := by
  have hpos : ∀ j : Int, 0 < B * (i * 2 ^ j.toNat) + side := by
    intro j
    obtain ⟨c, hc⟩ := hB2
    have h1 : (1 : Int) ≤ 2 ^ j.toNat := by
      have : (0 : Int) < 2 ^ j.toNat := by positivity
      omega
    have h2 : 1 ≤ i * 2 ^ j.toNat := by nlinarith
    have h3 : 2 ≤ B * (i * 2 ^ j.toNat) := by
      have : 1 ≤ c := by omega
      nlinarith
    rcases hside with h | h <;> omega
  have hodd : ∀ j : Int, (B * (i * 2 ^ j.toNat) + side) % 2 = 1 := by
    intro j
    obtain ⟨c, hc⟩ := hB2
    rw [hc, mul_assoc]
    rcases hside with h | h <;> subst h <;> omega
  obtain ⟨h1, h2, h3, h4⟩ := scanSide_accept_spec (oracleIs_isbigprime B i side) sieve S MINCHAIN MINACCEPT glo fuel r hMA hMC hr
    hL hf
  unfold findchainstupid
  have hbit : (B * (i * 2 ^ r.glo.toNat) + side).toNat.testBit 0 = true := by
    rw [Nat.testBit_zero]
    have := hodd r.glo
    have := hpos r.glo
    simp only [decide_eq_true_eq]
    omega
  simp only [hbit, Bool.true_eq_false, if_false]
  have esum : ∀ n : Nat, B * (i * 2 ^ (r.glo + (n : Int)).toNat) =
      B * (i * 2 ^ r.glo.toNat * 2 ^ n) := by
    intro n
    have e : (r.glo + (n : Int)).toNat = r.glo.toNat + n := by omega
    rw [e, pow_add, mul_assoc]
  have hlen : ((r.len.toNat : Nat) : Int) = r.len := Int.toNat_of_nonneg (by omega)
  have key := stupidLoop_spec B side hside r.len.toNat (r.len.toNat + 1) (i * 2 ^ r.glo.toNat) 0
    f0 (by omega)
    (by
      intro k hk
      have := h2 (r.glo + k) (by omega) (by omega)
      rw [esum] at this
      exact this)
    (by
      have := h3
      rw [← hlen, esum] at this
      exact this)
  rw [key, h4, zero_add, hlen]
  congr 2
  have := esum r.len.toNat
  rw [hlen] at this
  rw [this]


/-! ### The oracle is the base-2 Fermat test -/

theorem powmLoop_mod (m : Nat) :
    ∀ (fuel b e acc : Nat), e < 2 ^ fuel →
      powmLoop m fuel b e acc % m = (acc * b ^ e) % m := by
  intro fuel
  induction fuel with
  | zero =>
    intro b e acc he
    have : e = 0 := by simpa using he
    subst this
    simp [powmLoop]
  | succ fuel ih =>
    intro b e acc he
    unfold powmLoop
    by_cases h0 : e = 0
    · subst h0; simp
    · rw [if_neg h0]
      have he2 : e / 2 < 2 ^ fuel := by
        rw [pow_succ] at he
        omega
      rw [ih _ _ _ he2]
      have hsplit : b ^ e = (b * b) ^ (e / 2) * b ^ (e % 2) := by
        rw [← pow_two, ← pow_mul, ← pow_add, Nat.div_add_mod]
      have hbb : (b * b % m) ^ (e / 2) % m = (b * b) ^ (e / 2) % m := by
        rw [← Nat.pow_mod]
      by_cases h1 : e % 2 = 1
      · rw [if_pos h1, hsplit, h1, pow_one]
        calc acc * b % m * (b * b % m) ^ (e / 2) % m
            = (acc * b % m) * ((b * b % m) ^ (e / 2) % m) % m := by
              rw [Nat.mul_mod, Nat.mod_mod]
          _ = (acc * b % m) * ((b * b) ^ (e / 2) % m) % m := by rw [hbb]
          _ = acc * b * (b * b) ^ (e / 2) % m := by rw [← Nat.mul_mod]
          _ = acc * ((b * b) ^ (e / 2) * b) % m := by ring_nf
      · have h1' : e % 2 = 0 := by omega
        rw [if_neg h1, hsplit, h1', pow_zero, mul_one]
        calc acc * (b * b % m) ^ (e / 2) % m
            = (acc % m) * ((b * b % m) ^ (e / 2) % m) % m := by rw [Nat.mul_mod]
          _ = (acc % m) * ((b * b) ^ (e / 2) % m) % m := by rw [hbb]
          _ = acc * (b * b) ^ (e / 2) % m := by rw [← Nat.mul_mod]

/-- The square-and-multiply routine computes `b^e mod m`. -/
theorem powm_eq (b e m : Nat) : powm b e m = b ^ e % m := by
  unfold powm
  have h := powmLoop_mod m (e + 1) (b % m) e (1 % m)
    (lt_of_lt_of_le (Nat.lt_two_pow e) (Nat.pow_le_pow_right (by norm_num) (Nat.le_succ e)))
  have hlt : powmLoop m (e + 1) (b % m) e (1 % m) % m = powmLoop m (e + 1) (b % m) e (1 % m) := by
    rcases Nat.eq_zero_or_pos m with h0 | hpos
    · subst h0; simp
    · exact Nat.mod_eq_of_lt (powmLoop_lt m hpos _ _ _ _ (Nat.mod_lt _ hpos))
  rw [← hlt, h, Nat.mul_mod, Nat.mod_mod, ← Nat.pow_mod, ← Nat.mul_mod, one_mul]

theorem fermattest_iff (n : Int) (hn : 0 < n) :
    fermattest n = true ↔ (2 : Int) ^ n.toNat % n = 2 := by
  unfold fermattest powm2
  rw [powm_eq, decide_eq_true_eq]
  have hcast : (((2 ^ n.toNat % n.toNat : Nat)) : Int) = (2 : Int) ^ n.toNat % n := by
    rw [Int.natCast_mod]
    push_cast
    rw [Int.toNat_of_nonneg hn.le]
  rw [hcast]

/-- C11. `isbigprime B mul offs f` returns `1` iff `2^n mod n = 2` for
`n = mul*B + offs > 0`: the Euler-Lagrange-Lifchitz routine always returns `1`,
so it changes neither the verdict nor the stored residue (`*f` is untouched on
a pass and holds the Fermat residue on a failure), for every `offs` and every
residue of `n` modulo `4`. -/
theorem C11_oracle_fermat_only (B mul offs : Int) (f : Frac) (hn : 0 < mul * B + offs) :
    ((isbigprime B mul offs f).1 = true ↔
      (2 : Int) ^ (mul * B + offs).toNat % (mul * B + offs) = 2) ∧
    (∀ p eq rel : Int, eulerlagrangelifchitz p eq rel = true) ∧
    isbigprime B mul offs f =
      (if fermattest (mul * B + offs) = true then (true, f)
        else (false, fraction (mul * B + offs))) := by
  have hcomm : B * mul + offs = mul * B + offs := by ring
  have heq := isbigprime_eq B mul offs f
  rw [hcomm] at heq
  refine ⟨?_, fun _ _ _ => rfl, heq⟩
  rw [heq, ← fermattest_iff _ hn]
  by_cases h : fermattest (mul * B + offs) = true
  · simp [h]
  · simp [h]

/-- C11 at `B = 90`, `mul = 1`, `offs = -1`: `n = 89` passes. -/
theorem C11_oracle_fermat_only_witness :
    (0 : Int) < 1 * 90 + -1 ∧
    ((isbigprime 90 1 (-1) ⟨-1, 1⟩).1 = true ↔
      (2 : Int) ^ ((1 : Int) * 90 + -1).toNat % (1 * 90 + -1) = 2) ∧
    (isbigprime 90 1 (-1) ⟨-1, 1⟩).1 = true :=
  ⟨by decide, (C11_oracle_fermat_only 90 1 (-1) ⟨-1, 1⟩ (by decide)).1, by decide⟩

/-! ### Start indices of the marking loops -/

/-- The inverse of `B mod p` inverts `B` itself modulo the prime `p`. -/
theorem inverse_origin {p : Nat} (hp : p.Prime) (B : Int) (hfit : (p : Int) < 2147483648)
    (hB : B % (p : Int) ≠ 0) :
    1 ≤ inverse (B % p) p ∧ inverse (B % p) p < p ∧ (p : Int) ∣ B * inverse (B % p) p - 1 := by
  have hp2 : (2 : Int) ≤ p := by exact_mod_cast hp.two_le
  have hr0 : 0 ≤ B % p := Int.emod_nonneg _ (by omega)
  have hrp : B % p < p := Int.emod_lt_of_pos _ (by omega)
  have hrpos : 0 < B % p := lt_of_le_of_ne hr0 (Ne.symm hB)
  obtain ⟨_, hap, hinv⟩ := inverse_spec_prime hp hrpos hrp hfit
  have ha1 := inverse_pos_prime hp hrpos hrp hfit
  refine ⟨ha1, hap, ?_⟩
  have hBr : (p : Int) ∣ B - B % p := Int.dvd_sub_of_emod_eq rfl
  have hra : (p : Int) ∣ B % p * inverse (B % p) p - 1 := Int.dvd_sub_of_emod_eq hinv
  have : B * inverse (B % p) p - 1 =
      (B - B % p) * inverse (B % p) p + (B % p * inverse (B % p) p - 1) := by ring
  rw [this]
  exact dvd_add (Dvd.dvd.mul_right hBr _) hra

/-- C19. For every origin `B` and table prime `p > PRIMORIAL` with
`B mod p ≠ 0`, with `a = inverse (B mod p) p`: `a` is the least `k ≥ 1` with
`p ∣ k*B - 1`; the plus-sieve start `(a*(p-1)) mod p` equals `p - a` and is the
least `k ≥ 1` with `p ∣ k*B + 1`; and after the build `sieveplus[i]` is set iff
some sieving prime divides `i*B + 1`, for every `i` in `[1, SIEVESIZE)`. -/
theorem C19_plus_sieve (M : Nat) (P S B : Int) (p : Nat) (h3 : 2 < M) (hM : M ≤ 2 ^ 30)
    (hS : 0 ≤ S) (hfit : S + M ≤ 2 ^ 31) (hp : (p : Int) ∈ genprimes M) (hPp : P < p)
    (hB : B % (p : Int) ≠ 0) :
    (1 ≤ inverse (B % p) p ∧ (p : Int) ∣ inverse (B % p) p * B - 1 ∧
      ∀ k : Int, 1 ≤ k → (p : Int) ∣ k * B - 1 → inverse (B % p) p ≤ k) ∧
    (Int.tmod (inverse (B % p) p * wrap32 ((p : Int) - 1)) p = p - inverse (B % p) p ∧
      1 ≤ p - inverse (B % p) p ∧ (p : Int) ∣ (p - inverse (B % p) p) * B + 1 ∧
      ∀ k : Int, 1 ≤ k → (p : Int) ∣ k * B + 1 → p - inverse (B % p) p ≤ k) ∧
    ∃ sv, buildSieves S (genprimes M) P B = some sv ∧
      ∀ i : Int, 1 ≤ i → i < S →
        (sv.sieveplus i = true ↔
          ∃ q : Nat, q.Prime ∧ P < q ∧ q < M ∧ (q : Int) ∣ i * B + 1) := by
  obtain ⟨n, hn, hlt, hpn⟩ := (mem_genprimes h3 hM p).mp hp
  have hpn' : p = n := by exact_mod_cast hpn
  subst hpn'
  have hp2 : (2 : Int) ≤ p := by exact_mod_cast hn.two_le
  have hpfit : (p : Int) < 2147483648 := by
    have : (p : Int) < M := by exact_mod_cast hlt
    have : (M : Int) ≤ 2 ^ 30 := by exact_mod_cast hM
    norm_num at this
    omega
  obtain ⟨ha1, hap, hBa⟩ := inverse_origin hn B hpfit hB
  set a := inverse (B % p) p with ha
  refine ⟨⟨ha1, ?_, ?_⟩, ⟨?_, by omega, ?_, ?_⟩, ?_⟩
  · rw [mul_comm]; exact hBa
  · intro k hk hd
    have h1 : (p : Int) ∣ k - a := by
      have : k - a = a * (k * B - 1) - k * (B * a - 1) := by ring
      rw [this]
      exact dvd_sub (Dvd.dvd.mul_left hd a) (Dvd.dvd.mul_left hBa k)
    exact ((start_congr (p := (p : Int)) (i := k) ha1 hap).mpr ⟨hk, h1⟩).1
  · rw [wrap32_of_range (by omega) (by omega),
      Int.tmod_eq_emod (mul_nonneg (by omega) (by omega)) (by omega)]
    have : a * ((p : Int) - 1) = (p - a) + p * (a - 1) := by ring
    rw [this, Int.add_mul_emod_self_left]
    exact Int.emod_eq_of_lt (by omega) (by omega)
  · have : ((p : Int) - a) * B + 1 = p * B - (B * a - 1) := by ring
    rw [this]
    exact dvd_sub (Dvd.dvd.mul_right (dvd_refl _) B) hBa
  · intro k hk hd
    have h1 : (p : Int) ∣ k - (p - a) := by
      have : k - (p - a) = a * (k * B + 1) - k * (B * a - 1) - p := by ring
      rw [this]
      exact dvd_sub (dvd_sub (Dvd.dvd.mul_left hd a) (Dvd.dvd.mul_left hBa k)) (dvd_refl _)
    exact ((start_congr (p := (p : Int)) (a := p - a) (i := k) (by omega) (by omega)).mpr
      ⟨hk, h1⟩).1
  · obtain ⟨sv, hsv, hspec⟩ := buildSieves_spec M P S B h3 hM hS hfit ⟨p, hp, hPp⟩
    refine ⟨sv, hsv, ?_⟩
    intro i h1 h2
    rw [(hspec i).2]
    exact ⟨fun h => h.2.2, fun h => ⟨h1, h2, h⟩⟩

/-- C19 at the source's tunables, `B = 30`, `p = 37`: `a = 21`, plus start `16`. -/
theorem C19_plus_sieve_witness :
    (30 : Int) % ((37 : Nat) : Int) ≠ 0 ∧
    Int.tmod (inverse (30 % ((37 : Nat) : Int)) (37 : Nat) * wrap32 (((37 : Nat) : Int) - 1))
      (37 : Nat) = (37 : Nat) - inverse (30 % ((37 : Nat) : Int)) (37 : Nat) ∧
    inverse (30 % ((37 : Nat) : Int)) (37 : Nat) = 21 :=
  ⟨by decide,
    (C19_plus_sieve 50000 31 1000000 30 37 (by decide) (by decide) (by decide) (by decide)
      ((mem_genprimes (by decide) (by decide) _).mpr ⟨37, by norm_num, by decide, rfl⟩)
      (by decide) (by decide)).2.1.1,
    by decide⟩


/-! ### Known chain -/

set_option maxRecDepth 100000 in
/-- C17. For the input `978230124172507899911260068253742404889` the brute-force
routine for chains of the first kind (`05.c` `findchainstupid` with `inc = 1`,
and `01.c` `findchain1stupid`) returns length `13 ≥ 6`, and the terminating
fraction lies in `[0, 1)`. -/
theorem C17_known_first_kind_chain :
    findchainstupid 14 978230124172507899911260068253742404889 0 1 ⟨0, 1⟩ =
      some (13, ⟨3553176485735930363503166462173172007678400,
        8013661177221184716073042479134657780858879⟩) ∧
    findchain1stupid 978230124172507899911260068253742404889 =
      (13, ⟨3553176485735930363503166462173172007678400,
        8013661177221184716073042479134657780858879⟩) ∧
    (6 : Int) ≤ 13 ∧
    0 ≤ (⟨3553176485735930363503166462173172007678400,
        8013661177221184716073042479134657780858879⟩ : Frac).val ∧
    (⟨3553176485735930363503166462173172007678400,
        8013661177221184716073042479134657780858879⟩ : Frac).val < 1 := by
  refine ⟨by decide, by decide, by decide, ?_, ?_⟩
  · simp only [Frac.val]
    norm_num
  · simp only [Frac.val]
    norm_num

/-! ### Hash to origin -/

theorem hexDigit_hex (d : Nat) (hd : d < 16) :
    hexDigit (hex (d : Int)) = some (d : Int) ∧
      ((48 ≤ hex (d : Int) ∧ hex (d : Int) ≤ 57) ∨ (97 ≤ hex (d : Int) ∧ hex (d : Int) ≤ 102)) := by
  interval_cases d <;> decide

theorem setStr16_hexString :
    ∀ (u : List Nat) (acc : Int), (∀ b ∈ u, b < 256) →
      setStr16 (hexString u) acc = some (u.foldl (fun (a : Int) (b : Nat) => a * 256 + (b : Int)) acc) := by
  intro u
  induction u with
  | nil => intro acc _; rfl
  | cons b u ih =>
    intro acc hb
    have hb256 := hb b (List.mem_cons_self _ _)
    have h1 : b >>> 4 < 16 := by rw [Nat.shiftRight_eq_div_pow]; omega
    have h2 : b &&& 15 < 16 := by
      have : b &&& 15 = b % 16 := Nat.and_pow_two_sub_one_eq_mod b 4
      omega
    simp only [hexString, setStr16, (hexDigit_hex _ h1).1, (hexDigit_hex _ h2).1,
      List.foldl_cons]
    rw [ih _ (fun c hc => hb c (List.mem_cons_of_mem _ hc))]
    have e1 : b >>> 4 = b / 16 := by rw [Nat.shiftRight_eq_div_pow]
    have e2 : b &&& 15 = b % 16 := Nat.and_pow_two_sub_one_eq_mod b 4
    have e3 : (acc * (16 : Int) + ((b >>> 4 : Nat) : Int)) * (16 : Int) +
        ((b &&& 15 : Nat) : Int) =
        acc * 256 + (b : Int) := by
      rw [e1, e2]
      push_cast
      omega
    rw [e3]

theorem hexString_chars :
    ∀ (u : List Nat), (∀ b ∈ u, b < 256) →
      (hexString u).length = 2 * u.length ∧
      ∀ c ∈ hexString u, (48 ≤ c ∧ c ≤ 57) ∨ (97 ≤ c ∧ c ≤ 102) := by
  intro u
  induction u with
  | nil => intro _; simp [hexString]
  | cons b u ih =>
    intro hb
    have hb256 := hb b (List.mem_cons_self _ _)
    have h1 : b >>> 4 < 16 := by rw [Nat.shiftRight_eq_div_pow]; omega
    have h2 : b &&& 15 < 16 := by
      have : b &&& 15 = b % 16 := Nat.and_pow_two_sub_one_eq_mod b 4
      omega
    obtain ⟨ih1, ih2⟩ := ih (fun c hc => hb c (List.mem_cons_of_mem _ hc))
    refine ⟨by simp [hexString, ih1]; omega, ?_⟩
    intro c hc
    simp only [hexString, List.mem_cons] at hc
    rcases hc with rfl | rfl | hc
    · exact (hexDigit_hex _ h1).2
    · exact (hexDigit_hex _ h2).2
    · exact ih2 c hc

theorem foldl_bytes_sum :
    ∀ (u : List Nat) (acc : Int),
      u.foldl (fun (a : Int) (b : Nat) => a * 256 + (b : Int)) acc =
        acc * 256 ^ u.length +
          ∑ i in Finset.range u.length, (u.getD i 0 : Int) * 256 ^ (u.length - 1 - i) := by
  intro u
  induction u with
  | nil => intro acc; simp
  | cons b u ih =>
    intro acc
    rw [List.foldl_cons, ih, List.length_cons, Finset.sum_range_succ']
    simp only [List.getD_cons_succ, List.getD_cons_zero, Nat.add_sub_cancel, Nat.sub_zero]
    have hexp : ∀ i, u.length - (i + 1) = u.length - 1 - i := by intro i; omega
    rw [Finset.sum_congr rfl (fun i _ => by rw [← hexp i])]
    ring

theorem foldl_bytes_lt :
    ∀ (u : List Nat) (acc : Int) (k : Nat), (∀ b ∈ u, b < 256) → 0 ≤ acc → acc < 256 ^ k →
      0 ≤ u.foldl (fun (a : Int) (b : Nat) => a * 256 + (b : Int)) acc ∧
      u.foldl (fun (a : Int) (b : Nat) => a * 256 + (b : Int)) acc < 256 ^ (k + u.length) := by
  intro u
  induction u with
  | nil => intro acc k _ h0 h; exact ⟨h0, by simpa using h⟩
  | cons b u ih =>
    intro acc k hb h0 h
    have hb256 : (b : Int) < 256 := by exact_mod_cast hb b (List.mem_cons_self _ _)
    rw [List.foldl_cons, List.length_cons]
    have := ih (acc * 256 + b) (k + 1) (fun c hc => hb c (List.mem_cons_of_mem _ hc))
      (by positivity) (by rw [pow_succ]; nlinarith)
    have e : k + 1 + u.length = k + (u.length + 1) := by omega
    rw [e] at this
    exact this

/-- C16. For every 32-byte hash output `u`, the 64 characters built with `hex`
are all in `0-9a-f`, and parsing them in base 16 yields
`Σ u[i] * 256^(31-i)`, a value in `[0, 2^256)`. -/
theorem C16_hex_roundtrip (u : List Nat) (hlen : u.length = 32) (hb : ∀ b ∈ u, b < 256) :
    (hexString u).length = 64 ∧
    (∀ c ∈ hexString u, (48 ≤ c ∧ c ≤ 57) ∨ (97 ≤ c ∧ c ≤ 102)) ∧
    setStr16 (hexString u) 0 =
      some (∑ i in Finset.range 32, (u.getD i 0 : Int) * 256 ^ (31 - i)) ∧
    0 ≤ ∑ i in Finset.range 32, (u.getD i 0 : Int) * 256 ^ (31 - i) ∧
    ∑ i in Finset.range 32, (u.getD i 0 : Int) * 256 ^ (31 - i) < 2 ^ 256 := by
  obtain ⟨h1, h2⟩ := hexString_chars u hb
  have h3 := setStr16_hexString u 0 hb
  have h4 := foldl_bytes_sum u 0
  have h5 := foldl_bytes_lt u 0 0 hb (le_refl _) (by norm_num)
  rw [hlen] at h4 h5
  simp only [zero_mul, zero_add, Nat.reduceSub] at h4
  rw [h4] at h3 h5
  refine ⟨by rw [h1, hlen], h2, h3, h5.1, ?_⟩
  have : (256 : Int) ^ (0 + 32) = 2 ^ 256 := by norm_num
  rw [← this]
  exact h5.2

/-- C16 for the bytes `0, 1, …, 31`. -/
theorem C16_hex_roundtrip_witness :
    (List.range 32).length = 32 ∧ (∀ b ∈ List.range 32, b < 256) ∧
    setStr16 (hexString (List.range 32)) 0 =
      some (∑ i in Finset.range 32, ((List.range 32).getD i 0 : Int) * 256 ^ (31 - i)) :=
  ⟨rfl, by decide, (C16_hex_roundtrip (List.range 32) rfl (by decide)).2.2.1⟩

/-! ### Nonce partition -/

theorem wrap64_of_range {x : Int} (h1 : -9223372036854775808 ≤ x)
    (h2 : x < 9223372036854775808) : wrap64 x = x := by
  unfold wrap64
  rw [Int.emod_eq_of_lt (by omega) (by omega)]
  omega

theorem nonces_eq (N : Int) (hN : 0 ≤ N) :
    ∀ (m : Nat) (r : Int), 0 ≤ r → r + m * N < 9223372036854775808 →
      nonces N m r = (List.range m).map (fun k : Nat => r + k * N) := by
  intro m
  induction m with
  | zero => intro r _ _; rfl
  | succ m ih =>
    intro r hr hfit
    push_cast at hfit
    have hmN : 0 ≤ (m : Int) * N := mul_nonneg (Int.natCast_nonneg _) hN
    unfold nonces
    rw [wrap64_of_range (by omega) (by nlinarith), ih (r + N) (by omega) (by nlinarith),
      List.range_succ_eq_map, List.map_cons, List.map_map]
    congr 1
    · simp
    · apply List.map_congr_left
      intro k _
      simp only [Function.comp, Nat.succ_eq_add_one]
      push_cast
      ring

/-- C15. With `N` threads (`1 ≤ N`), the worker of rank `r < N` hashes in its
first `m` iterations exactly the nonces `r, r+N, …, r+(m-1)N`, in strictly
increasing order; the nonce lists of distinct workers are disjoint, and the
nonces hashed by all workers together are exactly `0, …, m*N - 1`
(while `m*N` stays below `2^62`, far inside the 64-bit range). -/
theorem C15_nonce_partition (N m : Nat) (hN : 1 ≤ N) (hfit : m * N < 2 ^ 62) :
    (∀ r : Nat, r < N →
      nonces N m r = (List.range m).map (fun k : Nat => (r : Int) + k * N) ∧
      List.Pairwise (· < ·) (nonces N m r)) ∧
    (∀ r r' : Nat, r < N → r' < N → r ≠ r' → ∀ x, x ∈ nonces N m r → x ∉ nonces N m r') ∧
    (∀ x : Int, (∃ r : Nat, r < N ∧ x ∈ nonces N m r) ↔ 0 ≤ x ∧ x < m * N) := by
  have hNm : (m : Int) * N < 4611686018427387904 := by
    have : ((m * N : Nat) : Int) < ((2 ^ 62 : Nat) : Int) := by exact_mod_cast hfit
    push_cast at this
    exact this
  have hNle : (N : Int) ≤ 4611686018427387904 ∨ m = 0 := by
    rcases Nat.eq_zero_or_pos m with h | h
    · exact Or.inr h
    · left
      have : (1 : Int) ≤ m := by exact_mod_cast h
      have hN0 : (0 : Int) ≤ N := Int.natCast_nonneg _
      nlinarith
  have heq : ∀ r : Nat, r < N →
      nonces N m r = (List.range m).map (fun k : Nat => (r : Int) + k * N) := by
    intro r hr
    rcases hNle with h | h
    · have : (r : Int) < N := by exact_mod_cast hr
      exact nonces_eq N (Int.natCast_nonneg _) m r (Int.natCast_nonneg _) (by omega)
    · subst h; rfl
  have hmem : ∀ (r : Nat) (x : Int), r < N →
      (x ∈ nonces N m r ↔ ∃ k : Nat, k < m ∧ x = (r : Int) + k * N) := by
    intro r x hr
    rw [heq r hr]
    simp only [List.mem_map, List.mem_range]
    constructor
    · rintro ⟨k, hk, rfl⟩; exact ⟨k, hk, rfl⟩
    · rintro ⟨k, hk, rfl⟩; exact ⟨k, hk, rfl⟩
  have hNpos : (0 : Int) < N := by exact_mod_cast hN
  refine ⟨fun r hr => ⟨heq r hr, ?_⟩, ?_, ?_⟩
  · rw [heq r hr, List.pairwise_map]
    apply List.Pairwise.imp _ (List.pairwise_lt_range m)
    intro a b hab
    have : (a : Int) < b := by exact_mod_cast hab
    nlinarith
  · intro r r' hr hr' hne x hx hx'
    obtain ⟨k, _, rfl⟩ := (hmem r x hr).mp hx
    obtain ⟨k', _, he⟩ := (hmem r' _ hr').mp hx'
    have h1 : ((r : Int) + k * N) % N = r := by
      rw [Int.add_mul_emod_self]
      exact Int.emod_eq_of_lt (Int.natCast_nonneg _) (by exact_mod_cast hr)
    have h2 : ((r' : Int) + k' * N) % N = r' := by
      rw [Int.add_mul_emod_self]
      exact Int.emod_eq_of_lt (Int.natCast_nonneg _) (by exact_mod_cast hr')
    rw [he, h2] at h1
    exact hne (by exact_mod_cast h1.symm)
  · intro x
    constructor
    · rintro ⟨r, hr, hx⟩
      obtain ⟨k, hk, rfl⟩ := (hmem r x hr).mp hx
      have h1 : (r : Int) < N := by exact_mod_cast hr
      have h2 : (k : Int) + 1 ≤ m := by exact_mod_cast hk
      have h3 : (0 : Int) ≤ (k : Int) * N := by positivity
      have h4 : ((k : Int) + 1) * N ≤ m * N := mul_le_mul_of_nonneg_right h2 hNpos.le
      constructor
      · have := Int.natCast_nonneg r; omega
      · nlinarith
    · rintro ⟨h0, hlt⟩
      have hr0 : 0 ≤ x % N := Int.emod_nonneg _ (by omega)
      have hrN : x % N < N := Int.emod_lt_of_pos _ hNpos
      have hq0 : 0 ≤ x / N := Int.ediv_nonneg h0 hNpos.le
      have hdecomp := Int.emod_add_ediv x N
      refine ⟨(x % N).toNat, by omega, ?_⟩
      rw [hmem _ _ (by omega)]
      refine ⟨(x / N).toNat, ?_, ?_⟩
      · have : x / N < m := by
          by_contra hcon
          have : (m : Int) ≤ x / N := by omega
          have := mul_le_mul_of_nonneg_left this hNpos.le
          nlinarith
        omega
      · rw [Int.toNat_of_nonneg hr0, Int.toNat_of_nonneg hq0]
        linarith [mul_comm (N : Int) (x / N)]

/-- C15 for `8` threads and `1000` iterations. -/
theorem C15_nonce_partition_witness :
    1 ≤ 8 ∧ 1000 * 8 < 2 ^ 62 ∧
    ∀ x : Int, (∃ r : Nat, r < 8 ∧ x ∈ nonces (8 : Nat) 1000 r) ↔
      0 ≤ x ∧ x < (1000 : Nat) * (8 : Nat) :=
  ⟨by decide, by decide, (C15_nonce_partition 8 1000 (by decide) (by decide)).2.2⟩


/-! ### Range of the brute-force fraction -/

theorem powm2_eq (n : Int) (hn : 0 < n) : powm2 n = (2 : Int) ^ n.toNat % n := by
  unfold powm2
  rw [powm_eq, Int.natCast_mod]
  push_cast
  rw [Int.toNat_of_nonneg hn.le]

/-! ### The fraction as a `double` -/

theorem bitLengthLoop_zero (fuel : Nat) : bitLengthLoop fuel 0 = 0 := by
  cases fuel <;> simp [bitLengthLoop]

theorem bitLengthLoop_spec :
    ∀ (fuel n : Nat), n ≤ fuel →
      n < 2 ^ bitLengthLoop fuel n ∧ (0 < n → 2 ^ (bitLengthLoop fuel n - 1) ≤ n) := by
  intro fuel
  induction fuel with
  | zero =>
    intro n hn
    have : n = 0 := by omega
    subst this
    simp [bitLengthLoop]
  | succ fuel ih =>
    intro n hn
    unfold bitLengthLoop
    by_cases h0 : n = 0
    · subst h0; simp
    · rw [if_neg h0]
      obtain ⟨h1, h2⟩ := ih (n / 2) (by omega)
      constructor
      · rw [pow_succ]
        omega
      · intro _
        rw [Nat.add_sub_cancel]
        by_cases hh : n / 2 = 0
        · rw [hh, bitLengthLoop_zero]
          simp
          omega
        · have h3 := h2 (by omega)
          have hb : 1 ≤ bitLengthLoop fuel (n / 2) := by
            by_contra hcon
            have : bitLengthLoop fuel (n / 2) = 0 := by omega
            rw [this] at h1
            simp at h1
            omega
          have : 2 ^ bitLengthLoop fuel (n / 2) = 2 ^ (bitLengthLoop fuel (n / 2) - 1) * 2 := by
            rw [← pow_succ]
            congr 1
            omega
          omega

theorem bitLength_lt (n : Nat) : n < 2 ^ bitLength n :=
  (bitLengthLoop_spec n n (le_refl _)).1

theorem bitLength_le {n : Nat} (hn : 0 < n) : 2 ^ (bitLength n - 1) ≤ n :=
  (bitLengthLoop_spec n n (le_refl _)).2 hn

theorem bitLength_pos {n : Nat} (hn : 0 < n) : 0 < bitLength n := by
  by_contra h
  have h0 : bitLength n = 0 := by omega
  have := bitLength_lt n
  rw [h0] at this
  simp at this
  omega

theorem bitLength_mono {a b : Nat} (h : a ≤ b) : bitLength a ≤ bitLength b := by
  by_contra hcon
  have hlt : bitLength b < bitLength a := by omega
  have ha : 0 < a := by
    by_contra h0
    have : a = 0 := by omega
    subst this
    have : bitLength 0 = 0 := bitLengthLoop_zero 0
    omega
  have h1 := bitLength_lt b
  have h2 := bitLength_le ha
  have h3 : 2 ^ bitLength b ≤ 2 ^ (bitLength a - 1) :=
    Nat.pow_le_pow_right (by norm_num) (by omega)
  omega

theorem mpz_get_d_le (n : Nat) : mpz_get_d n ≤ n :=
  Nat.div_mul_le_self _ _

theorem mpz_get_d_dvd (n : Nat) : 2 ^ (bitLength n - 53) ∣ mpz_get_d n :=
  Dvd.intro_left _ rfl

theorem mpz_get_d_ge {n : Nat} (hn : 0 < n) : 2 ^ (bitLength n - 1) ≤ mpz_get_d n := by
  unfold mpz_get_d
  have hb := bitLength_pos hn
  have h1 := bitLength_le hn
  have hsplit : 2 ^ (bitLength n - 1) =
      2 ^ (bitLength n - 1 - (bitLength n - 53)) * 2 ^ (bitLength n - 53) := by
    rw [← pow_add]
    congr 1
    omega
  rw [hsplit]
  apply Nat.mul_le_mul_right
  rw [Nat.le_div_iff_mul_le (by positivity), ← hsplit]
  exact h1

theorem mpz_get_d_pos {n : Nat} (hn : 0 < n) : 0 < mpz_get_d n :=
  lt_of_lt_of_le (by positivity) (mpz_get_d_ge hn)

/-- Truncation is monotone. -/
theorem mpz_get_d_mono {a b : Nat} (h : a ≤ b) : mpz_get_d a ≤ mpz_get_d b := by
  have hbl := bitLength_mono h
  by_cases heq : bitLength a = bitLength b
  · unfold mpz_get_d
    rw [heq]
    exact Nat.mul_le_mul_right _ (Nat.div_le_div_right h)
  · have hb : 0 < b := by
      by_contra h0
      have : b = 0 := by omega
      subst this
      have : a = 0 := by omega
      subst this
      exact heq rfl
    have h1 := mpz_get_d_ge hb
    have h2 := bitLength_lt a
    have h3 : 2 ^ bitLength a ≤ 2 ^ (bitLength b - 1) :=
      Nat.pow_le_pow_right (by norm_num) (by omega)
    have h4 := mpz_get_d_le a
    omega

/-- Rounding to nearest does not pass a representable upper bound. -/
theorem roundNearest53_le {d z : Nat} (h : d ≤ z) (hz : 2 ^ (bitLength d - 53) ∣ z) :
    roundNearest53 d ≤ z := by
  obtain ⟨c, hc⟩ := hz
  unfold roundNearest53
  dsimp only
  have hpos : 0 < 2 ^ (bitLength d - 53) := by positivity
  have hdm := Nat.div_add_mod d (2 ^ (bitLength d - 53))
  have hq : d / 2 ^ (bitLength d - 53) ≤ c := by
    rw [Nat.div_le_iff_le_mul_add_pred hpos]
    rw [hc] at h
    have : 2 ^ (bitLength d - 53) * c ≤ 2 ^ (bitLength d - 53) * c + (2 ^ (bitLength d - 53) - 1) :=
      Nat.le_add_right _ _
    omega
  split
  · rename_i hcond
    have hr : 0 < d % 2 ^ (bitLength d - 53) := by
      rcases hcond with h1 | ⟨h1, _⟩ <;> omega
    have hlt : d / 2 ^ (bitLength d - 53) < c := by
      by_contra hcon
      have hcq : c = d / 2 ^ (bitLength d - 53) := by omega
      rw [hc, hcq] at h
      omega
    rw [hc, mul_comm]
    exact Nat.mul_le_mul_left _ hlt
  · rw [hc, mul_comm]
    exact Nat.mul_le_mul_left _ hq

/-- A quotient of `0 ≤ x ≤ z`, `z > 0`, rounded to a `double`, lies in `[0, 1]`. -/
theorem doubleDiv_range {x z : Nat} (hz : 0 < z) (hx : x ≤ z) :
    0 < (doubleDiv x z).den ∧ 0 ≤ (doubleDiv x z).num ∧
      (doubleDiv x z).num ≤ (doubleDiv x z).den := by
  unfold doubleDiv
  by_cases h0 : x = 0
  · rw [if_pos h0]
    exact ⟨by norm_num, le_refl _, by norm_num⟩
  · rw [if_neg h0]
    dsimp only
    generalize min (if 2 ^ 52 * z ≤ x * 2 ^ (52 + bitLength z - bitLength x)
      then 52 + bitLength z - bitLength x else 52 + bitLength z - bitLength x + 1) 1074 = k
    refine ⟨by positivity, Int.natCast_nonneg _, ?_⟩
    have hle : x * 2 ^ k ≤ z * 2 ^ k := Nat.mul_le_mul_right _ hx
    have hq : x * 2 ^ k / z ≤ 2 ^ k := by
      rw [Nat.div_le_iff_le_mul_add_pred hz]
      have : z * 2 ^ k ≤ z * 2 ^ k + (z - 1) := Nat.le_add_right _ _
      omega
    have hdm := Nat.div_add_mod (x * 2 ^ k) z
    have hgoal : (if z < 2 * (x * 2 ^ k % z) ∨
        (2 * (x * 2 ^ k % z) = z ∧ x * 2 ^ k / z % 2 = 1) then x * 2 ^ k / z + 1
        else x * 2 ^ k / z) ≤ 2 ^ k := by
      split
      · rename_i hcond
        have hr : 0 < x * 2 ^ k % z := by
          rcases hcond with h1 | ⟨h1, _⟩ <;> omega
        by_contra hcon
        have hqk : x * 2 ^ k / z = 2 ^ k := by omega
        rw [hqk] at hdm
        omega
      · exact hq
    exact_mod_cast hgoal

/-- Truncation loses less than one part in `2^52`. -/
theorem mpz_get_d_err (a : Nat) : 2 ^ 52 * (a - mpz_get_d a) ≤ a := by
  unfold mpz_get_d
  have hdm := Nat.div_add_mod a (2 ^ (bitLength a - 53))
  have hcomm : a / 2 ^ (bitLength a - 53) * 2 ^ (bitLength a - 53) =
      2 ^ (bitLength a - 53) * (a / 2 ^ (bitLength a - 53)) := Nat.mul_comm _ _
  have hsub : a - a / 2 ^ (bitLength a - 53) * 2 ^ (bitLength a - 53) =
      a % 2 ^ (bitLength a - 53) := by omega
  rw [hsub]
  by_cases hs : bitLength a - 53 = 0
  · rw [hs]
    simp [Nat.mod_one]
  · have ha : 0 < a := by
      by_contra h0
      have : a = 0 := by omega
      subst this
      have : bitLength 0 = 0 := bitLengthLoop_zero 0
      omega
    have h1 := bitLength_le ha
    have h2 : a % 2 ^ (bitLength a - 53) < 2 ^ (bitLength a - 53) :=
      Nat.mod_lt _ (by positivity)
    have h3 : 2 ^ 52 * 2 ^ (bitLength a - 53) = 2 ^ (bitLength a - 1) := by
      rw [← pow_add]
      congr 1
      omega
    have h4 : 2 ^ 52 * (a % 2 ^ (bitLength a - 53)) ≤ 2 ^ 52 * 2 ^ (bitLength a - 53) :=
      Nat.mul_le_mul_left _ h2.le
    omega

/-- Rounding to nearest moves a number by at most one part in `2^53`. -/
theorem roundNearest53_err (d : Nat) :
    2 ^ 53 * (roundNearest53 d - d) ≤ d ∧ 2 ^ 53 * (d - roundNearest53 d) ≤ d := by
  unfold roundNearest53
  dsimp only
  have hdm := Nat.div_add_mod d (2 ^ (bitLength d - 53))
  by_cases hs : bitLength d - 53 = 0
  · rw [hs]
    simp [Nat.mod_one]
  · have hd : 0 < d := by
      by_contra h0
      have : d = 0 := by omega
      subst this
      have : bitLength 0 = 0 := bitLengthLoop_zero 0
      omega
    have h1 := bitLength_le hd
    have h2 : d % 2 ^ (bitLength d - 53) < 2 ^ (bitLength d - 53) :=
      Nat.mod_lt _ (by positivity)
    have h3 : 2 ^ 52 * 2 ^ (bitLength d - 53) = 2 ^ (bitLength d - 1) := by
      rw [← pow_add]
      congr 1
      omega
    generalize 2 ^ (bitLength d - 53) = P at *
    generalize d / P = q at *
    generalize d % P = r at *
    split
    · rename_i hcond
      have hr : P ≤ 2 * r := by rcases hcond with h | ⟨h, _⟩ <;> omega
      have hx : (q + 1) * P = P * q + P := by ring
      rw [hx]
      constructor
      · have : P * q + P - d = P - r := by omega
        rw [this]
        have h5 : 2 ^ 53 * (P - r) ≤ 2 ^ 52 * P := by omega
        omega
      · have : d - (P * q + P) = 0 := by omega
        rw [this]
        omega
    · rename_i hcond
      have hr : 2 * r ≤ P := by
        by_contra hcon
        exact hcond (Or.inl (by omega))
      have hx : q * P = P * q := Nat.mul_comm _ _
      rw [hx]
      constructor
      · have : P * q - d = 0 := by omega
        rw [this]
        omega
      · have : d - P * q = r := by omega
        rw [this]
        omega

/-- The rounded quotient differs from the exact one by at most `2^-53`. -/
theorem doubleDiv_err {x z : Nat} (hz : 0 < z) (hx : x ≤ z) :
    |(doubleDiv x z).val - (x : Rat) / (z : Rat)| ≤ 1 / 2 ^ 53 := by
  unfold doubleDiv
  by_cases h0 : x = 0
  · rw [if_pos h0, h0]
    simp [Frac.val]
  · rw [if_neg h0]
    dsimp only
    have hbl := bitLength_mono hx
    have hk : 52 ≤ min (if 2 ^ 52 * z ≤ x * 2 ^ (52 + bitLength z - bitLength x)
        then 52 + bitLength z - bitLength x else 52 + bitLength z - bitLength x + 1) 1074 := by
      apply le_min _ (by norm_num)
      split <;> omega
    generalize min (if 2 ^ 52 * z ≤ x * 2 ^ (52 + bitLength z - bitLength x)
      then 52 + bitLength z - bitLength x else 52 + bitLength z - bitLength x + 1) 1074 = k
      at hk ⊢
    have hdm := Nat.div_add_mod (x * 2 ^ k) z
    have hr : x * 2 ^ k % z < z := Nat.mod_lt _ hz
    have hzq : (0 : Rat) < (z : Rat) := by exact_mod_cast hz
    have hkq : (0 : Rat) < (2 : Rat) ^ k := by positivity
    have hk52 : (2 : Rat) ^ 52 ≤ 2 ^ k := pow_le_pow_right₀ (by norm_num) hk
    generalize x * 2 ^ k / z = q at hdm ⊢
    generalize x * 2 ^ k % z = r at hdm hr ⊢
    have hdmq : (z : Rat) * (q : Rat) + (r : Rat) = (x : Rat) * 2 ^ k := by exact_mod_cast hdm
    have hrq : (r : Rat) < (z : Rat) := by exact_mod_cast hr
    have hr0 : (0 : Rat) ≤ (r : Rat) := Nat.cast_nonneg _
    have key : ∀ q' : Rat, |q' * (z : Rat) - (x : Rat) * 2 ^ k| ≤ (z : Rat) / 2 →
        |q' / 2 ^ k - (x : Rat) / (z : Rat)| ≤ 1 / 2 ^ 53 := by
      intro q' hq'
      have heq : q' / 2 ^ k - (x : Rat) / (z : Rat) =
          (q' * (z : Rat) - (x : Rat) * 2 ^ k) / (2 ^ k * (z : Rat)) := by
        field_simp
        ring
      rw [heq, abs_div, abs_of_pos (by positivity : (0 : Rat) < 2 ^ k * (z : Rat)),
        div_le_iff₀ (by positivity)]
      have : (z : Rat) / 2 ≤ 1 / 2 ^ 53 * (2 ^ k * (z : Rat)) := by
        have h53 : (1 : Rat) / 2 ^ 53 * 2 ^ 52 = 1 / 2 := by norm_num
        nlinarith
      linarith
    by_cases hcond : z < 2 * r ∨ (2 * r = z ∧ q % 2 = 1)
    · rw [if_pos hcond]
      have hr2 : z ≤ 2 * r := by rcases hcond with h | ⟨h, _⟩ <;> omega
      have hr2q : (z : Rat) ≤ 2 * (r : Rat) := by exact_mod_cast hr2
      simp only [Frac.val]
      push_cast
      apply key
      rw [abs_le]
      constructor <;> nlinarith
    · rw [if_neg hcond]
      have hr2 : 2 * r ≤ z := by
        by_contra hcon
        exact hcond (Or.inl (by omega))
      have hr2q : 2 * (r : Rat) ≤ (z : Rat) := by exact_mod_cast hr2
      simp only [Frac.val]
      push_cast
      apply key
      rw [abs_le]
      constructor <;> nlinarith

/-- The `double` computed as `(z - mpz_get_d(t))/z`, `z = mpz_get_d(n)`, for
`0 ≤ t ≤ n`, `n > 0`, differs from the exact quotient `(n - t)/n` by at most
`2^-51`. -/
theorem residueD_err {N T : Nat} (hN : 0 < N) (hT : T ≤ N) :
    |(doubleDiv (doubleSub (mpz_get_d N) (mpz_get_d T)) (mpz_get_d N)).val -
        ((N : Rat) - (T : Rat)) / (N : Rat)| ≤ 1 / 2 ^ 51 := by
  have hz := mpz_get_d_pos hN
  have hzN := mpz_get_d_le N
  have hrT := mpz_get_d_le T
  have hrz := mpz_get_d_mono hT
  have he1 := mpz_get_d_err N
  have he2 := mpz_get_d_err T
  have he3 := roundNearest53_err (mpz_get_d N - mpz_get_d T)
  have hxz : doubleSub (mpz_get_d N) (mpz_get_d T) ≤ mpz_get_d N := by
    unfold doubleSub
    apply roundNearest53_le (Nat.sub_le _ _)
    have h1 : bitLength (mpz_get_d N - mpz_get_d T) ≤ bitLength N :=
      bitLength_mono (le_trans (Nat.sub_le _ _) (mpz_get_d_le _))
    exact dvd_trans (pow_dvd_pow 2 (by omega)) (mpz_get_d_dvd N)
  have hdiv := doubleDiv_err hz hxz
  unfold doubleSub at hxz hdiv ⊢
  generalize (doubleDiv (roundNearest53 (mpz_get_d N - mpz_get_d T)) (mpz_get_d N)).val = f
    at hdiv ⊢
  generalize roundNearest53 (mpz_get_d N - mpz_get_d T) = x at he3 hxz hdiv
  generalize mpz_get_d N = z at hz hzN hrz he1 he3 hxz hdiv
  generalize mpz_get_d T = r at hrT hrz he2 he3
  -- the facts over the rationals
  have hNq : (0 : Rat) < (N : Rat) := by exact_mod_cast hN
  have hzq : (0 : Rat) < (z : Rat) := by exact_mod_cast hz
  have hzNq : (z : Rat) ≤ (N : Rat) := by exact_mod_cast hzN
  have hrTq : (r : Rat) ≤ (T : Rat) := by exact_mod_cast hrT
  have hTNq : (T : Rat) ≤ (N : Rat) := by exact_mod_cast hT
  have hxzq : (x : Rat) ≤ (z : Rat) := by exact_mod_cast hxz
  have hx0 : (0 : Rat) ≤ (x : Rat) := Nat.cast_nonneg _
  have ha : (2 : Rat) ^ 52 * ((N : Rat) - (z : Rat)) ≤ (N : Rat) := by
    have : ((2 ^ 52 * (N - z) : Nat) : Rat) ≤ (N : Rat) := by exact_mod_cast he1
    rw [Nat.cast_mul, Nat.cast_sub hzN] at this
    exact_mod_cast this
  have hb : (2 : Rat) ^ 52 * ((T : Rat) - (r : Rat)) ≤ (N : Rat) := by
    have : ((2 ^ 52 * (T - r) : Nat) : Rat) ≤ (T : Rat) := by exact_mod_cast he2
    rw [Nat.cast_mul, Nat.cast_sub hrT] at this
    have h2 : (2 : Rat) ^ 52 * ((T : Rat) - (r : Rat)) ≤ (T : Rat) := by exact_mod_cast this
    linarith
  have hc1 : (2 : Rat) ^ 53 * ((x : Rat) - ((z : Rat) - (r : Rat))) ≤ (N : Rat) := by
    by_cases hle : z - r ≤ x
    · have : ((2 ^ 53 * (x - (z - r)) : Nat) : Rat) ≤ ((z - r : Nat) : Rat) := by
        exact_mod_cast he3.1
      rw [Nat.cast_mul, Nat.cast_sub hle, Nat.cast_sub hrz] at this
      have h2 : (2 : Rat) ^ 53 * ((x : Rat) - ((z : Rat) - (r : Rat))) ≤
          (z : Rat) - (r : Rat) := by exact_mod_cast this
      have h3 : (0 : Rat) ≤ (r : Rat) := Nat.cast_nonneg _
      linarith
    · have hlt : (x : Rat) ≤ ((z - r : Nat) : Rat) := by exact_mod_cast (by omega : x ≤ z - r)
      rw [Nat.cast_sub hrz] at hlt
      have : (2 : Rat) ^ 53 * ((x : Rat) - ((z : Rat) - (r : Rat))) ≤ 0 :=
        mul_nonpos_of_nonneg_of_nonpos (by positivity) (by linarith)
      linarith
  have hc2 : (2 : Rat) ^ 53 * (((z : Rat) - (r : Rat)) - (x : Rat)) ≤ (N : Rat) := by
    by_cases hle : x ≤ z - r
    · have : ((2 ^ 53 * (z - r - x) : Nat) : Rat) ≤ ((z - r : Nat) : Rat) := by
        exact_mod_cast he3.2
      rw [Nat.cast_mul, Nat.cast_sub hle, Nat.cast_sub hrz] at this
      have h2 : (2 : Rat) ^ 53 * (((z : Rat) - (r : Rat)) - (x : Rat)) ≤
          (z : Rat) - (r : Rat) := by exact_mod_cast this
      have h3 : (0 : Rat) ≤ (r : Rat) := Nat.cast_nonneg _
      linarith
    · have hlt : ((z - r : Nat) : Rat) ≤ (x : Rat) := by exact_mod_cast (by omega : z - r ≤ x)
      rw [Nat.cast_sub hrz] at hlt
      have : (2 : Rat) ^ 53 * (((z : Rat) - (r : Rat)) - (x : Rat)) ≤ 0 :=
        mul_nonpos_of_nonneg_of_nonpos (by positivity) (by linarith)
      linarith
  generalize (N : Rat) = Nq at *
  generalize (T : Rat) = Tq at *
  generalize (z : Rat) = zq at *
  generalize (r : Rat) = rq at *
  generalize (x : Rat) = xq at *
  have hmid : |xq / zq - (Nq - Tq) / Nq| ≤ 3 / 2 ^ 53 := by
    have heq : xq / zq - (Nq - Tq) / Nq =
        (xq * (Nq - zq) + zq * (xq - (zq - rq) + (Tq - rq) - (Nq - zq))) / (zq * Nq) := by
      field_simp
      ring
    rw [heq, abs_div, abs_of_pos (by positivity : (0 : Rat) < zq * Nq),
      div_le_iff₀ (by positivity), abs_le]
    have hp1 : xq * (Nq - zq) ≤ zq * (Nq - zq) :=
      mul_le_mul_of_nonneg_right hxzq (by linarith)
    have hp0 : 0 ≤ xq * (Nq - zq) := mul_nonneg hx0 (by linarith)
    have hq1 : zq * ((2 : Rat) ^ 52 * (Nq - zq)) ≤ zq * Nq :=
      mul_le_mul_of_nonneg_left ha hzq.le
    have hq2 : zq * ((2 : Rat) ^ 52 * (Tq - rq)) ≤ zq * Nq :=
      mul_le_mul_of_nonneg_left hb hzq.le
    have hq3 : zq * ((2 : Rat) ^ 53 * (xq - (zq - rq))) ≤ zq * Nq :=
      mul_le_mul_of_nonneg_left hc1 hzq.le
    have hq4 : zq * ((2 : Rat) ^ 53 * (zq - rq - xq)) ≤ zq * Nq :=
      mul_le_mul_of_nonneg_left hc2 hzq.le
    have hq5 : 0 ≤ zq * (Tq - rq) := mul_nonneg hzq.le (by linarith)
    have hq6 : 0 ≤ zq * (Nq - zq) := mul_nonneg hzq.le (by linarith)
    constructor <;> linarith
  have htri : |f - (Nq - Tq) / Nq| ≤ |f - xq / zq| + |xq / zq - (Nq - Tq) / Nq| := by
    have := abs_add (f - xq / zq) (xq / zq - (Nq - Tq) / Nq)
    simpa using this
  have h53 : (1 : Rat) / 2 ^ 53 + 3 / 2 ^ 53 = 1 / 2 ^ 51 := by norm_num
  linarith

theorem frac_val_range {f : Frac} (h : 0 < f.den ∧ 0 ≤ f.num ∧ f.num ≤ f.den) :
    0 ≤ f.val ∧ f.val ≤ 1 := by
  obtain ⟨h1, h2, h3⟩ := h
  have hd : (0 : Rat) < (f.den : Rat) := by exact_mod_cast h1
  have hn : (0 : Rat) ≤ (f.num : Rat) := by exact_mod_cast h2
  have hle : (f.num : Rat) ≤ (f.den : Rat) := by exact_mod_cast h3
  unfold Frac.val
  exact ⟨div_nonneg hn hd.le, (div_le_one hd).mpr hle⟩

/-- The `double` residue of a tested number `n > 0` lies in `[0, 1]`. -/
theorem fractionD_range {n : Int} (hn : 0 < n) :
    0 ≤ (fractionD n).val ∧ (fractionD n).val ≤ 1 := by
  apply frac_val_range
  unfold fractionD
  dsimp only
  have hn' : 0 < n.toNat := by omega
  have hz := mpz_get_d_pos hn'
  have ht : (powm2 n).toNat ≤ n.toNat := by
    have := powm2_bounds hn
    omega
  have hr := mpz_get_d_mono ht
  apply doubleDiv_range hz
  unfold doubleSub
  apply roundNearest53_le (Nat.sub_le _ _)
  have h1 : bitLength (mpz_get_d n.toNat - mpz_get_d (powm2 n).toNat) ≤ bitLength n.toNat :=
    bitLength_mono (le_trans (Nat.sub_le _ _) (mpz_get_d_le _))
  exact dvd_trans (pow_dvd_pow 2 (by omega)) (mpz_get_d_dvd n.toNat)

theorem isbigprimeD_eq (n mul offs : Int) (f : Frac) :
    isbigprimeD n mul offs f =
      if fermattest (n * mul + offs) = true then (true, f)
      else (false, fractionD (n * mul + offs)) := by
  unfold isbigprimeD eulerlagrangelifchitz
  by_cases h : fermattest (n * mul + offs) = true
  · simp [h]
  · simp [h]

/-- The source's oracle with `*f` as a `double` is a pure test: verdict
`fermattest`, residue `fractionD`. -/
theorem oracleIs_isbigprimeD (B base offs : Int) :
    OracleIs (fun mul g => isbigprimeD B mul offs g) base
      (fun j => fermattest (B * (base * 2 ^ j.toNat) + offs))
      (fun j => fractionD (B * (base * 2 ^ j.toNat) + offs)) := by
  intro j g
  exact isbigprimeD_eq B _ offs g

theorem chainElem_zero (inc p : Int) : chainElem inc p 0 = p := rfl

theorem chainElem_succ (inc p : Int) (k : Nat) :
    chainElem inc p (k + 1) =
      if inc < 0 then chainElem inc p k * 2 - 1 else chainElem inc p k * 2 + 1 := rfl

theorem chainElem_shift (inc p : Int) :
    ∀ k : Nat, chainElem inc p (k + 1) =
      chainElem inc (if inc < 0 then p * 2 - 1 else p * 2 + 1) k := by
  intro k
  induction k with
  | zero => rfl
  | succ k ih =>
    rw [chainElem_succ, ih, chainElem_succ]

/-- When the brute-force loop returns, it has passed over `m` candidates and
stopped on the next one, whose `double` residue it returns. -/
theorem stupidLoopD_result (inc : Int) :
    ∀ (fuel : Nat) (p len : Int) (f : Frac) (len' : Int) (f' : Frac),
      stupidLoopD inc fuel p len f = some (len', f') →
      ∃ m : Nat, len' = len + m ∧
        (∀ k : Nat, k < m → fermattest (chainElem inc p k) = true) ∧
        fermattest (chainElem inc p m) = false ∧ f' = fractionD (chainElem inc p m) := by
  intro fuel
  induction fuel with
  | zero => intro p len f len' f' h; simp [stupidLoopD] at h
  | succ fuel ih =>
    intro p len f len' f' h
    unfold stupidLoopD at h
    have he := isbigprimeD_eq p 1 0 f
    rw [mul_one, add_zero] at he
    cases hf : fermattest p with
    | true =>
      rw [hf, if_pos rfl] at he
      rw [he] at h
      dsimp only at h
      rw [if_pos rfl] at h
      obtain ⟨m, h1, h2, h3, h4⟩ := ih _ _ _ _ _ h
      refine ⟨m + 1, by push_cast; omega, ?_, ?_, ?_⟩
      · intro k hk
        cases k with
        | zero => rw [chainElem_zero]; exact hf
        | succ k =>
          rw [chainElem_shift]
          exact h2 k (by omega)
      · rw [chainElem_shift]; exact h3
      · rw [chainElem_shift]; exact h4
    | false =>
      rw [hf, if_neg (by decide)] at he
      rw [he] at h
      dsimp only at h
      rw [if_neg (by decide)] at h
      have h' := Prod.mk.inj (Option.some.inj h)
      refine ⟨0, by rw [← h'.1]; simp, fun k hk => absurd hk (by omega), ?_, ?_⟩
      · rw [chainElem_zero]; exact hf
      · rw [chainElem_zero]; exact h'.2.symm

theorem chainElem_pos (inc : Int) {p : Int} (hp : 1 ≤ p) : ∀ k : Nat, 1 ≤ chainElem inc p k := by
  intro k
  induction k with
  | zero => exact hp
  | succ k ih =>
    rw [chainElem_succ]
    split <;> omega

/-- The `double` residue of a tested number `n > 0` differs from the exact value
`(n - t)/n`, `t = 2^n mod n`, by at most `2^-51`. -/
theorem fractionD_err {n : Int} (hn : 0 < n) :
    |(fractionD n).val - ((n - (2 : Int) ^ n.toNat % n : Int) : Rat) / (n : Rat)| ≤
      1 / 2 ^ 51 := by
  have hb := powm2_bounds hn
  have h := residueD_err (N := n.toNat) (T := (powm2 n).toNat) (by omega) (by omega)
  have hN : ((n.toNat : Nat) : Rat) = (n : Rat) := by
    have : ((n.toNat : Nat) : Int) = n := Int.toNat_of_nonneg hn.le
    exact_mod_cast this
  have hT : (((powm2 n).toNat : Nat) : Rat) = (powm2 n : Rat) := by
    have : (((powm2 n).toNat : Nat) : Int) = powm2 n := Int.toNat_of_nonneg hb.1
    exact_mod_cast this
  rw [hN, hT] at h
  rw [← powm2_eq n hn]
  unfold fractionD
  dsimp only
  push_cast
  exact h

/-- C12 (amended). For every positive input `in` and `offs ∈ {-1, 0, 1}`,
whenever `findchainstupid` returns: for an even start `in + offs` the length is
`0` and `f = 0`; for an odd start the routine has passed over `len` candidates
`p, 2p ± 1, …` and stopped on the candidate `n` of round `len`, which failed
the Fermat test, and (for `n < 2^1024`, where the conversion to `double` is
finite) `f` is the `double` computed as `(z - mpz_get_d(t))/z`,
`z = mpz_get_d(n)`, `t = 2^n mod n`; it satisfies `0 ≤ f ≤ 1` and differs from
the exact value `(n - t)/n` by at most `2^-51`. -/
theorem C12_fraction_range (fuel : Nat) (inn offs inc : Int) (f0 : Frac) (len : Int)
    (f : Frac) (hin : 0 < inn) (hoffs : offs = -1 ∨ offs = 0 ∨ offs = 1)
    (hr : findchainstupidD fuel inn offs inc f0 = some (len, f)) :
    ((inn + offs) % 2 = 0 → len = 0 ∧ f = ⟨0, 1⟩) ∧
    ((inn + offs) % 2 = 1 →
      ∃ m : Nat, len = m ∧
        (∀ k : Nat, k < m → fermattest (chainElem inc (inn + offs) k) = true) ∧
        fermattest (chainElem inc (inn + offs) m) = false ∧
        f = fractionD (chainElem inc (inn + offs) m) ∧
        (chainElem inc (inn + offs) m < 2 ^ 1024 →
          0 ≤ f.val ∧ f.val ≤ 1 ∧
          |f.val - ((chainElem inc (inn + offs) m -
              (2 : Int) ^ (chainElem inc (inn + offs) m).toNat %
                chainElem inc (inn + offs) m : Int) : Rat) /
            (chainElem inc (inn + offs) m : Rat)| ≤ 1 / 2 ^ 51)) := by
  have hnn : 0 ≤ inn + offs := by rcases hoffs with h | h | h <;> omega
  unfold findchainstupidD at hr
  by_cases hbit : (inn + offs).toNat.testBit 0 = false
  · rw [if_pos hbit] at hr
    have heven : (inn + offs) % 2 = 0 := by
      rw [Nat.testBit_zero] at hbit
      simp only [decide_eq_false_iff_not] at hbit
      omega
    have h' := Prod.mk.inj (Option.some.inj hr)
    exact ⟨fun _ => ⟨h'.1.symm, h'.2.symm⟩, fun h => by omega⟩
  · rw [if_neg hbit] at hr
    have hodd : (inn + offs) % 2 = 1 := by
      rw [Nat.testBit_zero] at hbit
      simp only [decide_eq_false_iff_not, not_not] at hbit
      omega
    refine ⟨fun h => by omega, fun _ => ?_⟩
    obtain ⟨m, h1, h2, h3, h4⟩ := stupidLoopD_result inc fuel _ _ _ _ _ hr
    have hpos := chainElem_pos inc (by omega : 1 ≤ inn + offs) m
    refine ⟨m, by omega, h2, h3, h4, fun _ => ?_⟩
    have hrange := fractionD_range (by omega : 0 < chainElem inc (inn + offs) m)
    have herr := fractionD_err (by omega : 0 < chainElem inc (inn + offs) m)
    rw [h4]
    exact ⟨hrange.1, hrange.2, herr⟩

set_option maxRecDepth 100000 in
/-- C12 as stated fails at the positive input `6917529027641081853 = 3 * (2^61 - 1)`
(`offs = 0`): the candidate fails the test (`2^n mod n = 8`), `z - mpz_get_d(res)`
rounds back to `z`, and the routine returns `f = 1.0`, which is not below `1` and
is not the exact value `(n - 8)/n`. -/
theorem C12_counterexample :
    findchainstupidD 1 6917529027641081853 0 1 ⟨0, 1⟩ =
      some (0, ⟨4503599627370496, 4503599627370496⟩) ∧
    (2 : Int) ^ (6917529027641081853 : Int).toNat % 6917529027641081853 = 8 ∧
    (⟨4503599627370496, 4503599627370496⟩ : Frac).val = 1 ∧
    ¬ ((⟨4503599627370496, 4503599627370496⟩ : Frac).val < 1) ∧
    (⟨4503599627370496, 4503599627370496⟩ : Frac).val ≠
      ((6917529027641081853 - 8 : Int) : Rat) / ((6917529027641081853 : Int) : Rat) := by
  refine ⟨by decide, ?_, ?_, ?_, ?_⟩
  · rw [← powm2_eq _ (by decide)]
    decide
  · simp [Frac.val]
  · simp [Frac.val]
  · simp only [Frac.val]
    norm_num

set_option maxRecDepth 100000 in
/-- C12 (amended) at the input `89` of the first kind: the chain
`89, 179, 359, 719, 1439, 2879` ends at `5759`, whose `double` residue is
`6950511110968739 / 2^55` (the exact value is `1111/5759`). -/
theorem C12_fraction_range_witness :
    findchainstupidD 7 89 0 1 ⟨0, 1⟩ = some (6, ⟨6950511110968739, 36028797018963968⟩) ∧
    chainElem 1 (89 + 0) 6 = 5759 ∧
    ∃ m : Nat, (6 : Int) = m ∧ fermattest (chainElem 1 (89 + 0) m) = false ∧
      (⟨6950511110968739, 36028797018963968⟩ : Frac) = fractionD (chainElem 1 (89 + 0) m) :=
  have h : findchainstupidD 7 89 0 1 ⟨0, 1⟩ =
      some (6, ⟨6950511110968739, 36028797018963968⟩) := by decide
  have h2 := (C12_fraction_range 7 89 0 1 ⟨0, 1⟩ 6 ⟨6950511110968739, 36028797018963968⟩
    (by decide) (by decide) h).2 (by decide)
  ⟨h, by decide, h2.elim fun m hm => ⟨m, hm.1, hm.2.2.1, hm.2.2.2.1⟩⟩


/-! ### Evaluating one side of the scan -/

theorem rangeProd_dvd :
    ∀ (d lo q : Nat), lo ≤ q → q < lo + 2 ^ d → q ∣ rangeProd d lo := by
  intro d
  induction d with
  | zero =>
    intro lo q h1 h2
    have : q = lo := by simp at h2; omega
    subst this
    exact dvd_refl _
  | succ d ih =>
    intro lo q h1 h2
    unfold rangeProd
    by_cases h : q < lo + 2 ^ d
    · exact Dvd.dvd.mul_right (ih lo q h1 h) _
    · have h3 : q < lo + 2 ^ d + 2 ^ d := by
        rw [pow_succ] at h2
        omega
      exact Dvd.dvd.mul_left (ih (lo + 2 ^ d) q (by omega) h3) _

/-- A number coprime to the product of `32, …, 65567` has no prime factor
between `PRIMORIAL = 31` and `MAXPRIME = 50000`. -/
theorem no_sieving_prime (n : Int) (h : Nat.gcd n.natAbs (rangeProd 16 32) = 1) :
    ¬ ∃ p : Nat, p.Prime ∧ (31 : Int) < p ∧ p < 50000 ∧ (p : Int) ∣ n := by
  rintro ⟨p, hp, h1, h2, hd⟩
  have h1' : 31 < p := by exact_mod_cast h1
  have hdn : p ∣ n.natAbs := Int.natCast_dvd.mp hd
  have hdr : p ∣ rangeProd 16 32 := rangeProd_dvd 16 32 p (by omega) (by norm_num; omega)
  have := Nat.dvd_gcd hdn hdr
  rw [h] at this
  have := Nat.le_of_dvd (by norm_num) this
  omega

theorem contiguous_of_unmarked (sieve : Int → Bool) (i MC : Int)
    (hun : ∀ j : Nat, (j : Int) < MC → sieve (i * 2 ^ j) = false) :
    ∀ (fuel : Nat) (k : Int), 0 ≤ k → contiguous sieve i MC fuel k = true := by
  intro fuel
  induction fuel with
  | zero => intro k _; rfl
  | succ fuel ih =>
    intro k hk
    unfold contiguous
    by_cases h : k < MC
    · rw [if_pos h]
      have := hun k.toNat (by omega)
      rw [this]
      simp only [Bool.false_eq_true, if_false]
      exact ih (k + 1) (by omega)
    · rw [if_neg h]

theorem beyondLoop_inside (O : Int → Frac → Bool × Frac) (sieve : Int → Bool) (S i : Int)
    (K : Nat) (hi : 0 < i) (hS : i * 2 ^ K < S) (hmark : sieve (i * 2 ^ K) = true)
    (hun : ∀ j : Nat, j < K → sieve (i * 2 ^ j) = false) (mask : Nat) (f : Frac) :
    ∀ (n k fuel : Nat), k + n = K → n < fuel →
      beyondLoop O sieve S i fuel (k : Int) mask f = some ((K : Int), mask, f) := by
  intro n
  induction n with
  | zero =>
    intro k fuel hk hf
    obtain ⟨fuel, rfl⟩ : ∃ m, fuel = m + 1 := ⟨fuel - 1, by omega⟩
    have : k = K := by omega
    subst this
    unfold beyondLoop
    rw [Int.toNat_natCast, if_pos hS, if_pos hmark]
  | succ n ih =>
    intro k fuel hk hf
    obtain ⟨fuel, rfl⟩ : ∃ m, fuel = m + 1 := ⟨fuel - 1, by omega⟩
    unfold beyondLoop
    rw [Int.toNat_natCast]
    have hle : (2 : Int) ^ k ≤ 2 ^ K := pow_le_pow_right₀ (by norm_num) (by omega)
    have hlt : i * 2 ^ k < S := lt_of_le_of_lt (by nlinarith) hS
    rw [if_pos hlt, if_neg (by rw [hun k (by omega)]; simp)]
    have := ih (k + 1) fuel (by omega) (by omega)
    push_cast at this
    exact this

/-- When none of the elements `0..K-1` of the candidate `i` is marked and element
`K ≥ MINCHAIN` is marked inside the sieve, the scan calls `findchain` on
`[0, K-1]` with empty mask and `f = -1`. -/
theorem scanSide_inside (O : Int → Frac → Bool × Frac) (sieve : Int → Bool)
    (S MINCHAIN MINACCEPT i glo : Int) (fuel K : Nat) (hi : 0 < i)
    (hgate : i % 2 ≠ 0 ∨ sieve (i / 2) = true) (hMC : 0 ≤ MINCHAIN) (hK : MINCHAIN ≤ K)
    (hfuel : K < fuel) (hS : i * 2 ^ K < S) (hmark : sieve (i * 2 ^ K) = true)
    (hun : ∀ j : Nat, j < K → sieve (i * 2 ^ j) = false) :
    scanSide O sieve S MINCHAIN MINACCEPT i glo fuel =
      findchainWith O MINACCEPT i 0 ((K : Int) - 1) 0 ⟨-1, 1⟩ glo := by
  unfold scanSide
  rw [if_pos hgate,
    if_pos (contiguous_of_unmarked sieve i MINCHAIN (fun j hj => hun j (by omega)) _ 0
      (le_refl _))]
  have hb := beyondLoop_inside O sieve S i K hi hS hmark hun 0 ⟨-1, 1⟩
    (K - MINCHAIN.toNat) MINCHAIN.toNat fuel (by omega) (by omega)
  rw [Int.toNat_of_nonneg hMC] at hb
  rw [hb]

/-! ### Sieve accesses stay in bounds -/

theorem markWrites_bounds (S p : Int) (hp : 1 ≤ p) (hfit : S + p ≤ 2147483648) :
    ∀ (fuel : Nat) (j : Int), 0 ≤ j → ∀ x ∈ markWrites S p fuel j, 0 ≤ x ∧ x < S := by
  intro fuel
  induction fuel with
  | zero => intro j _ x hx; simp [markWrites] at hx
  | succ fuel ih =>
    intro j hj x hx
    unfold markWrites at hx
    by_cases h : j < S
    · rw [if_pos h] at hx
      rcases List.mem_cons.mp hx with rfl | hx
      · exact ⟨hj, h⟩
      · rw [wrap32_of_range (by omega) (by omega)] at hx
        exact ih (j + p) (by omega) x hx
    · rw [if_neg h] at hx
      simp at hx

/-- The marking loop sets exactly the elements at the indices it writes. -/
theorem markLoop_eq_writes (S p : Int) :
    ∀ (fuel : Nat) (j : Int) (sieve : Int → Bool) (x : Int),
      markLoop S p fuel j sieve x = (decide (x ∈ markWrites S p fuel j) || sieve x) := by
  intro fuel
  induction fuel with
  | zero => intro j sieve x; simp [markLoop, markWrites]
  | succ fuel ih =>
    intro j sieve x
    unfold markLoop markWrites
    by_cases h : j < S
    · rw [if_pos h, if_pos h, ih]
      by_cases hx : x = j
      · simp [hx]
      · simp [hx]
    · rw [if_neg h, if_neg h]
      simp

theorem sieveStepWrites_bounds {p : Nat} (hp : p.Prime) (S B : Int)
    (hfit : S + p ≤ 2147483648) :
    ∀ x ∈ sieveStepWrites S B p, 0 ≤ x ∧ x < S := by
  intro x hx
  have hp2 : (2 : Int) ≤ p := by exact_mod_cast hp.two_le
  unfold sieveStepWrites at hx
  dsimp only at hx
  by_cases hB : B % (p : Int) ≠ 0
  · rw [if_pos hB] at hx
    have hS : 0 ≤ S ∨ S < 0 := le_or_lt 0 S
    have hpfit : (p : Int) < 2147483648 ∨ 2147483648 ≤ (p : Int) := lt_or_le _ _
    rcases hpfit with hpfit | hpfit
    · obtain ⟨ha1, hap, _⟩ := inverse_origin hp B hpfit hB
      rcases List.mem_append.mp hx with h | h
      · exact markWrites_bounds S p (by omega) hfit _ _ (by omega) x h
      · refine markWrites_bounds S p (by omega) hfit _ _ ?_ x h
        rw [wrap32_of_range (by omega) (by omega)]
        exact Int.tmod_nonneg _ (mul_nonneg (by omega) (by omega))
    · have hS0 : S.toNat = 0 := by omega
      rw [hS0] at hx
      simp [markWrites] at hx
  · rw [if_neg hB] at hx
    simp at hx

theorem mem_foldr_append {l : List (List Int)} {x : Int}
    (h : x ∈ l.foldr List.append []) : ∃ w ∈ l, x ∈ w := by
  induction l with
  | nil => simp at h
  | cons a l ih =>
    simp only [List.foldr_cons, List.append_eq, List.mem_append] at h
    rcases h with h | h
    · exact ⟨a, List.mem_cons_self _ _, h⟩
    · obtain ⟨w, hw, hx⟩ := ih h
      exact ⟨w, List.mem_cons_of_mem _ hw, hx⟩

theorem buildWrites_bounds (M : Nat) (P S B : Int) (h3 : 2 < M) (hM : M ≤ 2 ^ 30)
    (hfit : S + M ≤ 2 ^ 31) :
    ∀ x ∈ buildWrites S (genprimes M) P B, 0 ≤ x ∧ x < S := by
  intro x hx
  unfold buildWrites at hx
  cases hs : skipSmall (genprimes M) P ((genprimes M).length + 1) 0 with
  | none => rw [hs] at hx; simp at hx
  | some i0 =>
    rw [hs] at hx
    dsimp only at hx
    obtain ⟨w, hw, hxw⟩ := mem_foldr_append hx
    obtain ⟨q, hq, rfl⟩ := List.mem_map.mp hw
    obtain ⟨n, hn, hlt, rfl⟩ := (mem_genprimes h3 hM q).mp (List.mem_of_mem_drop hq)
    have : (n : Int) < M := by exact_mod_cast hlt
    norm_num at hfit
    exact sieveStepWrites_bounds hn S B (by omega) x hxw

theorem shifted_lt {S MINCHAIN i : Int} (hMC : 0 ≤ MINCHAIN) (hi1 : 1 ≤ i)
    (hi2 : i < S / 2 ^ MINCHAIN.toNat) {k : Int} (hk0 : 0 ≤ k) (hk : k < MINCHAIN) :
    i * 2 ^ k.toNat < S := by
  have hpos : (0 : Int) < 2 ^ MINCHAIN.toNat := by positivity
  have h1 : (S / 2 ^ MINCHAIN.toNat) * 2 ^ MINCHAIN.toNat ≤ S := Int.ediv_mul_le _ (by omega)
  have h2 : (2 : Int) ^ k.toNat ≤ 2 ^ MINCHAIN.toNat :=
    pow_le_pow_right₀ (by norm_num) (by omega)
  have h3 : i * 2 ^ k.toNat ≤ i * 2 ^ MINCHAIN.toNat := by nlinarith
  have h4 : (i + 1) * 2 ^ MINCHAIN.toNat ≤ (S / 2 ^ MINCHAIN.toNat) * 2 ^ MINCHAIN.toNat := by
    nlinarith
  nlinarith

theorem contiguousReads_bounds (sieve : Int → Bool) (S MINCHAIN i : Int) (hMC : 0 ≤ MINCHAIN)
    (hi1 : 1 ≤ i) (hi2 : i < S / 2 ^ MINCHAIN.toNat) :
    ∀ (fuel : Nat) (k : Int), 0 ≤ k →
      ∀ x ∈ contiguousReads sieve i MINCHAIN fuel k, 0 ≤ x ∧ x < S := by
  intro fuel
  induction fuel with
  | zero => intro k _ x hx; simp [contiguousReads] at hx
  | succ fuel ih =>
    intro k hk x hx
    unfold contiguousReads at hx
    by_cases h : k < MINCHAIN
    · rw [if_pos h] at hx
      rcases List.mem_cons.mp hx with rfl | hx
      · exact ⟨by positivity, shifted_lt hMC hi1 hi2 hk h⟩
      · by_cases hs : sieve (i * 2 ^ k.toNat) = true
        · rw [if_pos hs] at hx; simp at hx
        · rw [if_neg hs] at hx
          exact ih (k + 1) (by omega) x hx
    · rw [if_neg h] at hx
      simp at hx

theorem beyondReads_bounds (O : Int → Frac → Bool × Frac) (sieve : Int → Bool) (S i : Int)
    (hi1 : 1 ≤ i) :
    ∀ (fuel : Nat) (k : Int) (f : Frac),
      ∀ x ∈ beyondReads O sieve S i fuel k f, 0 ≤ x ∧ x < S := by
  intro fuel
  induction fuel with
  | zero => intro k f x hx; simp [beyondReads] at hx
  | succ fuel ih =>
    intro k f x hx
    unfold beyondReads at hx
    by_cases h : i * 2 ^ k.toNat < S
    · rw [if_pos h] at hx
      rcases List.mem_cons.mp hx with rfl | hx
      · exact ⟨by positivity, h⟩
      · by_cases hs : sieve (i * 2 ^ k.toNat) = true
        · rw [if_pos hs] at hx; simp at hx
        · rw [if_neg hs] at hx
          exact ih _ _ x hx
    · rw [if_neg h] at hx
      dsimp only at hx
      by_cases hr : (O (i * 2 ^ k.toNat) f).1 = true
      · rw [if_pos hr] at hx
        exact ih _ _ x hx
      · rw [if_neg hr] at hx
        simp at hx

theorem beyondProbes_ge (O : Int → Frac → Bool × Frac) (sieve : Int → Bool) (S i : Int) :
    ∀ (fuel : Nat) (k : Int) (f : Frac),
      ∀ m ∈ beyondProbes O sieve S i fuel k f, S ≤ m ∧ ∃ j : Nat, m = i * 2 ^ j := by
  intro fuel
  induction fuel with
  | zero => intro k f x hx; simp [beyondProbes] at hx
  | succ fuel ih =>
    intro k f x hx
    unfold beyondProbes at hx
    by_cases h : i * 2 ^ k.toNat < S
    · rw [if_pos h] at hx
      by_cases hs : sieve (i * 2 ^ k.toNat) = true
      · rw [if_pos hs] at hx; simp at hx
      · rw [if_neg hs] at hx
        exact ih _ _ x hx
    · rw [if_neg h] at hx
      dsimp only at hx
      rcases List.mem_cons.mp hx with rfl | hx
      · exact ⟨by omega, k.toNat, rfl⟩
      · by_cases hr : (O (i * 2 ^ k.toNat) f).1 = true
        · rw [if_pos hr] at hx
          exact ih _ _ x hx
        · rw [if_neg hr] at hx
          simp at hx

/-- C14. Every sieve access of the build and of the scan uses an index in
`[0, SIEVESIZE)`: the marking loops write only at `0 ≤ j < SIEVESIZE` (and set
exactly the elements they write); for `1 ≤ i < SIEVESIZE/2^MINCHAIN` the gating
test and the contiguity check read only inside the array; the extension loop
reads the sieve at `i*2^k` only when `i*2^k < SIEVESIZE` and otherwise passes
`i*2^k ≥ SIEVESIZE` to the oracle. `i<<k` is the exact product `i*2^k`, as it
is in C while that product fits an `int`. -/
theorem C14_sieve_access_in_bounds (M : Nat) (P S B MINCHAIN i : Int)
    (O : Int → Frac → Bool × Frac) (sieve : Int → Bool) (fuel : Nat) (f : Frac)
    (h3 : 2 < M) (hM : M ≤ 2 ^ 30) (hfit : S + M ≤ 2 ^ 31) (hMC : 0 ≤ MINCHAIN)
    (hi1 : 1 ≤ i) (hi2 : i < S / 2 ^ MINCHAIN.toNat) :
    (∀ x ∈ buildWrites S (genprimes M) P B, 0 ≤ x ∧ x < S) ∧
    (∀ (p : Int) (n : Nat) (j : Int) (s : Int → Bool) (x : Int),
      markLoop S p n j s x = (decide (x ∈ markWrites S p n j) || s x)) ∧
    (∀ x ∈ gateReads i, 0 ≤ x ∧ x < S) ∧
    (∀ x ∈ contiguousReads sieve i MINCHAIN MINCHAIN.toNat 0, 0 ≤ x ∧ x < S) ∧
    (∀ x ∈ beyondReads O sieve S i fuel MINCHAIN f, 0 ≤ x ∧ x < S) ∧
    (∀ m ∈ beyondProbes O sieve S i fuel MINCHAIN f, S ≤ m ∧ ∃ k : Nat, m = i * 2 ^ k) := by
  refine ⟨buildWrites_bounds M P S B h3 hM hfit, fun p n j s x => markLoop_eq_writes S p n j s x,
    ?_, contiguousReads_bounds sieve S MINCHAIN i hMC hi1 hi2 _ 0 (le_refl _),
    beyondReads_bounds O sieve S i hi1 fuel MINCHAIN f,
    beyondProbes_ge O sieve S i fuel MINCHAIN f⟩
  intro x hx
  unfold gateReads at hx
  by_cases h : i % 2 ≠ 0
  · rw [if_pos h] at hx; simp at hx
  · rw [if_neg h] at hx
    have hx : x = i / 2 := by simpa using hx
    have hpos : (1 : Int) ≤ 2 ^ MINCHAIN.toNat := by
      have : (0 : Int) < 2 ^ MINCHAIN.toNat := by positivity
      omega
    have hS : S / 2 ^ MINCHAIN.toNat ≤ S := by
      have hS0 : 0 ≤ S := by
        by_contra hneg
        have : S / 2 ^ MINCHAIN.toNat < 0 :=
          Int.ediv_neg' (by omega) (by omega)
        omega
      exact Int.ediv_le_self _ hS0
    omega

/-- C14 at the source's tunables, origin `200560490130`, candidate `i = 15624`
(the last one) on the minus side with an empty sieve: the contiguity check
reads `15624, …, 499968`, the extension loop reads `999936` and then probes the
multiplier `1999872 ≥ SIEVESIZE` with the oracle. -/
theorem C14_sieve_access_in_bounds_witness :
    contiguousReads (fun _ => false) 15624 6 6 0 =
      [15624, 31248, 62496, 124992, 249984, 499968] ∧
    beyondReads (fun mul g => isbigprime 200560490130 mul (-1) g) (fun _ => false)
      1000000 15624 32 6 ⟨-1, 1⟩ = [999936] ∧
    beyondProbes (fun mul g => isbigprime 200560490130 mul (-1) g) (fun _ => false)
      1000000 15624 32 6 ⟨-1, 1⟩ = [1999872] ∧
    (∀ x ∈ beyondReads (fun mul g => isbigprime 200560490130 mul (-1) g) (fun _ => false)
      1000000 15624 32 6 ⟨-1, 1⟩, 0 ≤ x ∧ x < 1000000) ∧
    (∀ x ∈ buildWrites 1000000 (genprimes 50000) 31 200560490130,
      0 ≤ x ∧ x < 1000000) :=
  have h := C14_sieve_access_in_bounds 50000 31 1000000 200560490130 6 15624
    (fun mul g => isbigprime 200560490130 mul (-1) g) (fun _ => false) 32 ⟨-1, 1⟩
    (by decide) (by decide) (by decide) (by decide) (by decide) (by decide)
  ⟨by decide, by decide, by decide, h.2.2.2.2.1, h.1⟩


/-! ### Shared statistics under interleaving -/

/-- C18 fails for the summed statistics. Take 800 hashes whose only chain (type
1, length 6) is found among the first 100 hashes of worker 0. One worker flushes
eight batches and ends with `num[6][0] = 1`. With eight workers and 100 hashes
each, the interleaving in which every worker enters `work` after its
predecessor has flushed clears the table again: `num[6][0] = 0`, although
`tried = 800` in both runs; when all workers clear before the first flush, the
count is `1`. -/
theorem C18_statistics_lost_by_late_clear :
    (runSched [0, 0, 0, 0, 0, 0, 0, 0, 0]
        [workerOps ((fun i j => if i = 6 ∧ j = 0 then 1 else 0) ::
          List.replicate 7 (fun _ _ => 0))]
        ⟨fun _ _ => 0, 0⟩).num 6 0 = 1 ∧
    (runSched [0, 0, 0, 0, 0, 0, 0, 0, 0]
        [workerOps ((fun i j => if i = 6 ∧ j = 0 then 1 else 0) ::
          List.replicate 7 (fun _ _ => 0))]
        ⟨fun _ _ => 0, 0⟩).tried = 800 ∧
    (runSched [0, 0, 1, 1, 2, 2, 3, 3, 4, 4, 5, 5, 6, 6, 7, 7]
        (workerOps [fun i j => if i = 6 ∧ j = 0 then 1 else 0] ::
          List.replicate 7 (workerOps [fun _ _ => 0]))
        ⟨fun _ _ => 0, 0⟩).num 6 0 = 0 ∧
    (runSched [0, 0, 1, 1, 2, 2, 3, 3, 4, 4, 5, 5, 6, 6, 7, 7]
        (workerOps [fun i j => if i = 6 ∧ j = 0 then 1 else 0] ::
          List.replicate 7 (workerOps [fun _ _ => 0]))
        ⟨fun _ _ => 0, 0⟩).tried = 800 ∧
    (runSched [0, 1, 2, 3, 4, 5, 6, 7, 0, 1, 2, 3, 4, 5, 6, 7]
        (workerOps [fun i j => if i = 6 ∧ j = 0 then 1 else 0] ::
          List.replicate 7 (workerOps [fun _ _ => 0]))
        ⟨fun _ _ => 0, 0⟩).num 6 0 = 1 := by
  refine ⟨by decide, by decide, by decide, by decide, by decide⟩


/-! ### A pseudoprime just past the chain -/

/-- An origin that every prime up to `PRIMORIAL = 31` divides is left unchanged
by the primorial step of `work`: it is the adjusted origin of the hash value equal
to itself. -/
theorem primorialAdjust_fixed (B : Int)
    (hdiv : ∀ p : Nat, p.Prime → p ≤ 31 → (p : Int) ∣ B) :
    primorialAdjust (genprimes 50000) 31 B = some B := by
  have hq : ∃ q ∈ genprimes 50000, ((31 : Nat) : Int) < q :=
    ⟨37, (mem_genprimes (by decide) (by decide) _).mpr ⟨37, by norm_num, by decide, rfl⟩,
      by decide⟩
  have hempty : (Finset.range (31 + 1)).filter
      (fun p : Nat => p.Prime ∧ ¬ (p : Int) ∣ B) = ∅ := by
    apply Finset.filter_eq_empty_iff.mpr
    intro p hp hcon
    exact hcon.2 (hdiv p hcon.1 (by have := Finset.mem_range.mp hp; omega))
  have := primorialAdjust_table 50000 ((31 : Nat) : Int) B (by decide) (by decide) hq
  rw [table_prod_eq 50000 31 B (by decide) (by decide) (by decide),
    hempty, Finset.prod_empty, mul_one] at this
  exact this

set_option maxRecDepth 100000 in
/-- At the source's tunables and the origin
`B = 70820659523084466804579308773948980909312035716210860`
(`353113713858495678799821792068677873395622 * 200560490130`),
a multiple of every prime up to `PRIMORIAL = 31` (the primorial step of `work`
leaves it unchanged), candidate `i = 1`, plus side: no sieving prime divides
`2^k*B + 1` for `k = 0..5`, while `53` divides `64*B + 1`, the Carmichael number
`53 * 131 * 281 * 311 * 313 * 419 * 647 * 859 * 929 * 953 * 1103 * 1217 * 1321 *
1483 * 1597 * 1871 * 2113 * 2437 * 2861`, so the contiguity check passes, the
extension loop stops at `k = 6` on the sieve, and the scan calls
`findchain(1,0,5,0,B,1,&f2)` with `f2 = -1`. -/
theorem scan_pseudoprime_plus :
    primorialAdjust (genprimes 50000) 31
      70820659523084466804579308773948980909312035716210860 =
      some 70820659523084466804579308773948980909312035716210860 ∧
    ∃ sv, buildSieves 1000000 (genprimes 50000) 31
        70820659523084466804579308773948980909312035716210860 = some sv ∧
      sv.sieveplus (1 * 2 ^ 6) = true ∧
      scanSide (fun mul g =>
          isbigprimeD 70820659523084466804579308773948980909312035716210860 mul 1 g) sv.sieveplus
        1000000 6 5 1 0 32 =
        findchainD 5 1 0 5 0 70820659523084466804579308773948980909312035716210860 1 ⟨-1, 1⟩ 0 := by
  obtain ⟨sv, hsv, hspec⟩ := buildSieves_spec 50000 31 1000000
    70820659523084466804579308773948980909312035716210860
    (by decide) (by decide) (by decide) (by decide)
    ⟨37, (mem_genprimes (by decide) (by decide) _).mpr ⟨37, by norm_num, by decide, rfl⟩,
      by decide⟩
  have hun : ∀ j : Nat, j < 6 → sv.sieveplus (1 * 2 ^ j) = false := by
    intro j hj
    have hn : ¬ ∃ p : Nat, p.Prime ∧ (31 : Int) < p ∧ p < 50000 ∧
        (p : Int) ∣ 1 * 2 ^ j * 70820659523084466804579308773948980909312035716210860 + 1 := by
      interval_cases j
      · exact no_sieving_prime _ (by decide)
      · exact no_sieving_prime _ (by decide)
      · exact no_sieving_prime _ (by decide)
      · exact no_sieving_prime _ (by decide)
      · exact no_sieving_prime _ (by decide)
      · exact no_sieving_prime _ (by decide)
    cases h : sv.sieveplus (1 * 2 ^ j) with
    | false => rfl
    | true => exact absurd ((hspec _).2.mp h).2.2 hn
  have hmark : sv.sieveplus (1 * 2 ^ 6) = true :=
    (hspec _).2.mpr ⟨by norm_num, by norm_num, 53, by norm_num, by norm_num, by norm_num,
      by decide⟩
  refine ⟨?_, sv, hsv, hmark, ?_⟩
  · apply primorialAdjust_fixed
    intro p hp hle
    interval_cases p
    all_goals first | (norm_num; done) | (exfalso; norm_num at hp)
  rw [scanSide_inside _ _ _ _ _ _ _ 32 6 (by decide) (Or.inl (by decide)) (by decide)
    (by decide) (by decide) (by norm_num) hmark hun]
  rfl

set_option maxRecDepth 100000 in
/-- C9 fails at the source's tunables for the origin
`B = 70820659523084466804579308773948980909312035716210860`, which every prime up to
`PRIMORIAL = 31` divides (the primorial step leaves it unchanged), candidate
`i = 1`, plus side. The scan accepts the chain of the five elements `2^k*B + 1`,
`k = 1..5`, with length `5`, lower bound `1` and `f2 = -1`: the element
`64*B + 1` just past it is marked in the sieve (`53` divides it) but passes the
base-2 Fermat test (it is a Carmichael number), so the extra probe leaves `f2`
untouched. The brute-force routine started at `(1*2^1)*B + 1` (doubling with
`-1`) also accepts that element and returns length `6` with the `double` residue
`4536763926058262 / 2^53` of `128*B + 1`. -/
theorem C9_scan_differs_from_bruteforce :
    primorialAdjust (genprimes 50000) 31
      70820659523084466804579308773948980909312035716210860 =
      some 70820659523084466804579308773948980909312035716210860 ∧
    ∃ sv, buildSieves 1000000 (genprimes 50000) 31
        70820659523084466804579308773948980909312035716210860 = some sv ∧
      scanSide (fun mul g =>
          isbigprimeD 70820659523084466804579308773948980909312035716210860 mul 1 g) sv.sieveplus
        1000000 6 5 1 0 32 = some ⟨5, ⟨-1, 1⟩, 1⟩ ∧
      findchainstupidD 32
          (70820659523084466804579308773948980909312035716210860 * (1 * 2 ^ 1)) 1 (-1) ⟨0, 1⟩ =
        some (6, ⟨4536763926058262, 9007199254740992⟩) := by
  obtain ⟨h0, sv, h1, _, h3⟩ := scan_pseudoprime_plus
  refine ⟨h0, sv, h1, ?_, by decide⟩
  rw [h3]
  decide

set_option maxRecDepth 100000 in
/-- C20 fails at the source's tunables for the origin
`B = 70820659523084466804579308773948980909312035716210860`, which every prime up to
`PRIMORIAL = 31` divides (the primorial step leaves it unchanged), candidate
`i = 1`, plus side. The scan calls `findchain(1,0,5,0,B,1,&f2)` with `f2 = -1`,
the element `64*B + 1` at `hi+1 = 6` being known composite from the sieve only.
`findchain` accepts `[1, 5]`; the extra probe of element `6` returns `1` (it
passes the base-2 Fermat test although `53` divides it) and leaves
`*f = -1 < -0.1`: the `bug` branch is taken, and `*f` is negative, not the
residue `(n - t)/n` of that element (`t = 2`; as a `double` it is `1.0`). -/
theorem C20_bug_branch_taken :
    primorialAdjust (genprimes 50000) 31
      70820659523084466804579308773948980909312035716210860 =
      some 70820659523084466804579308773948980909312035716210860 ∧
    ∃ sv, buildSieves 1000000 (genprimes 50000) 31
        70820659523084466804579308773948980909312035716210860 = some sv ∧
      sv.sieveplus (1 * 2 ^ 6) = true ∧
      scanSide (fun mul g =>
          isbigprimeD 70820659523084466804579308773948980909312035716210860 mul 1 g) sv.sieveplus
        1000000 6 5 1 0 32 =
        findchainD 5 1 0 5 0 70820659523084466804579308773948980909312035716210860 1 ⟨-1, 1⟩ 0 ∧
      findchainD 5 1 0 5 0 70820659523084466804579308773948980909312035716210860 1 ⟨-1, 1⟩ 0 =
        some ⟨5, ⟨-1, 1⟩, 1⟩ ∧
      isbigprimeD 70820659523084466804579308773948980909312035716210860 (1 * 2 ^ 6) 1 ⟨-1, 1⟩ =
        (true, ⟨-1, 1⟩) ∧
      (⟨-1, 1⟩ : Frac).isUnset = true ∧ (⟨-1, 1⟩ : Frac).val < 0 ∧
      (53 : Int) ∣ 70820659523084466804579308773948980909312035716210860 * (1 * 2 ^ 6) + 1 ∧
      powm2 (70820659523084466804579308773948980909312035716210860 * (1 * 2 ^ 6) + 1) = 2 ∧
      fractionD (70820659523084466804579308773948980909312035716210860 * (1 * 2 ^ 6) + 1) =
        ⟨4503599627370496, 4503599627370496⟩ := by
  obtain ⟨h0, sv, h1, h2, h3⟩ := scan_pseudoprime_plus
  refine ⟨h0, sv, h1, h2, h3, by decide, by decide, by decide, ?_, by decide, by decide,
    by decide⟩
  simp [Frac.val]


/-! ### Range kept after a failure -/

theorem forLoopC_fst (O : Int → Frac → Bool × Frac) (base mid mid2 : Int) :
    ∀ (fuel : Nat) (i : Int) (s : FC),
      (forLoopC O base mid mid2 fuel i s).1 = forLoop O base mid mid2 fuel i s := by
  intro fuel
  induction fuel with
  | zero => intro i s; rfl
  | succ fuel ih =>
    intro i s
    unfold forLoopC forLoop
    by_cases h : i ≤ mid - s.lo
    · rw [if_pos h, if_pos h]
      cases testElem O base s (mid - i) with
      | restart s1 => rfl
      | cont s1 =>
        dsimp only
        cases testElem O base s1 (mid2 + i) with
        | restart s2 => rfl
        | cont s2 => exact ih _ _
    · rw [if_neg h, if_neg h]

theorem findchainLoopC_out (O : Int → Frac → Bool × Frac) (MINACCEPT base glo : Int) :
    ∀ (fuel : Nat) (s : FC),
      (findchainLoopC O MINACCEPT base glo fuel s).map Run.out =
        findchainLoop O MINACCEPT base glo fuel s := by
  intro fuel
  induction fuel with
  | zero => intro s; rfl
  | succ fuel ih =>
    intro s
    unfold findchainLoopC findchainLoop
    dsimp only
    by_cases h : s.hi - s.lo + 1 < MINACCEPT
    · rw [if_pos h, if_pos h]; rfl
    · rw [if_neg h, if_neg h]
      cases hpre : (if (s.hi - s.lo) % 2 ≠ 0 then Probe.cont s
          else testElem O base s (s.lo + Int.tdiv (s.hi - s.lo) 2)) with
      | restart s1 =>
        dsimp only
        rw [← ih s1, Option.map_map]
        rfl
      | cont s1 =>
        dsimp only
        rw [← forLoopC_fst]
        cases hfl : (forLoopC O base
            (if (s.hi - s.lo) % 2 ≠ 0 then s.lo + Int.tdiv (s.hi - s.lo) 2
              else s.lo + Int.tdiv (s.hi - s.lo) 2 - 1)
            (s.lo + Int.tdiv (s.hi - s.lo) 2 + 1)
            ((if (s.hi - s.lo) % 2 ≠ 0 then s.lo + Int.tdiv (s.hi - s.lo) 2
              else s.lo + Int.tdiv (s.hi - s.lo) 2 - 1) - s.lo + 1).toNat 0 s1).1 with
        | restart s2 =>
          dsimp only
          rw [← ih s2, Option.map_map]
          rfl
        | cont s2 => rfl

theorem findchainC_out (O : Int → Frac → Bool × Frac) (MINACCEPT base lo hi : Int)
    (mask : Nat) (f : Frac) (glo : Int) :
    (findchainC O MINACCEPT base lo hi mask f glo).map Run.out =
      findchainWith O MINACCEPT base lo hi mask f glo :=
  findchainLoopC_out O MINACCEPT base glo _ _

theorem scanSideC_out (O : Int → Frac → Bool × Frac) (sieve : Int → Bool)
    (S MINCHAIN MINACCEPT i glo : Int) (fuel : Nat) :
    (scanSideC O sieve S MINCHAIN MINACCEPT i glo fuel).map ScanRun.out =
      scanSide O sieve S MINCHAIN MINACCEPT i glo fuel := by
  unfold scanSideC scanSide
  by_cases hg : i % 2 ≠ 0 ∨ sieve (i / 2) = true
  · rw [if_pos hg, if_pos hg]
    by_cases hc : contiguous sieve i MINCHAIN MINCHAIN.toNat 0 = true
    · rw [if_pos hc, if_pos hc]
      cases beyondLoop O sieve S i fuel MINCHAIN 0 ⟨-1, 1⟩ with
      | none => rfl
      | some res =>
        obtain ⟨k, mask, f⟩ := res
        dsimp only
        rw [← findchainC_out]
        cases findchainC O MINACCEPT i 0 (k - 1) mask f glo with
        | none => rfl
        | some r => rfl
    · rw [if_neg hc, if_neg hc]; rfl
  · rw [if_neg hg, if_neg hg]; rfl

/-! ### Oracle calls of `findchain` -/

theorem Shrinks.refl (O : Int → Frac → Bool × Frac) (base : Int) (s : FC) :
    Shrinks O base s s [] where
  inRange := by intro x hx; simp at hx
  clear0 := by intro x hx; simp at hx
  clearAt := by intro x hx; simp at hx
  nodup := by simp
  lo_le := le_refl _
  hi_le := le_refl _
  mono := fun _ h => h
  newBits := fun _ h => Or.inl h
  done := by intro x hx; simp at hx
  front := Or.inl ⟨rfl, rfl⟩

theorem Shrinks.trans {O : Int → Frac → Bool × Frac} {base : Int} {s s1 s2 : FC}
    {l1 l2 : List (Int × Nat)} (h1 : Shrinks O base s s1 l1) (h2 : Shrinks O base s1 s2 l2) :
    Shrinks O base s s2 (l1 ++ l2) where
  inRange := by
    intro x hx
    rcases List.mem_append.mp hx with h | h
    · exact h1.inRange x h
    · have := h2.inRange x h
      have := h1.lo_le
      have := h1.hi_le
      omega
  clear0 := by
    intro x hx
    rcases List.mem_append.mp hx with h | h
    · exact h1.clear0 x h
    · have hc := h2.clear0 x h
      cases hb : s.mask.testBit x.1.toNat with
      | false => rfl
      | true => rw [h1.mono _ hb] at hc; exact absurd hc (by simp)
  clearAt := by
    intro x hx
    rcases List.mem_append.mp hx with h | h
    · exact h1.clearAt x h
    · exact h2.clearAt x h
  nodup := by
    rw [List.map_append, List.nodup_append]
    refine ⟨h1.nodup, h2.nodup, ?_⟩
    intro a ha1 ha2
    obtain ⟨x, hx, rfl⟩ := List.mem_map.mp ha1
    obtain ⟨y, hy, hxy⟩ := List.mem_map.mp ha2
    have hy1 := h2.inRange y hy
    have hy2 := h2.clear0 y hy
    rw [hxy] at hy1 hy2
    rcases h1.done x hx with hd | hd | hd
    · rw [hd] at hy2; exact absurd hy2 (by simp)
    · omega
    · omega
  lo_le := le_trans h1.lo_le h2.lo_le
  hi_le := le_trans h2.hi_le h1.hi_le
  mono := fun k h => h2.mono k (h1.mono k h)
  newBits := by
    intro k hk
    rcases h2.newBits k hk with h | h
    · exact h1.newBits k h
    · right
      have := h1.lo_le
      have := h1.hi_le
      omega
  done := by
    intro x hx
    rcases List.mem_append.mp hx with h | h
    · rcases h1.done x h with hd | hd | hd
      · exact Or.inl (h2.mono _ hd)
      · right; left; have := h2.lo_le; omega
      · right; right; have := h2.hi_le; omega
    · exact h2.done x h
  front := by
    rcases h2.front with ⟨ha, hb⟩ | ⟨ha, hb⟩
    · rcases h1.front with ⟨hc, hd⟩ | ⟨hc, hd⟩
      · exact Or.inl ⟨by omega, by rw [hb, hd]⟩
      · exact Or.inr ⟨by omega, by rw [hb]; exact hd⟩
    · exact Or.inr ⟨by have := h1.hi_le; omega, hb⟩

/-- One test of `findchain` on an element of the range. -/
theorem testElem_shrinks (O : Int → Frac → Bool × Frac) (base : Int) (s : FC) (j : Int)
    (h0 : 0 ≤ s.lo) (h1 : s.lo ≤ j) (h2 : j ≤ s.hi) :
    (∀ s1, testElem O base s j = .cont s1 →
      Shrinks O base s s1 (testCalls s j) ∧ s1.lo = s.lo ∧ s1.hi = s.hi) ∧
    (∀ s1, testElem O base s j = .restart s1 →
      Shrinks O base s s1 (testCalls s j) ∧ s1.hi - s1.lo < s.hi - s.lo ∧ s1.lo ≤ s1.hi + 1) := by
  have hjn : ((j.toNat : Nat) : Int) = j := Int.toNat_of_nonneg (by omega)
  unfold testElem testCalls
  by_cases hb : s.mask.testBit j.toNat = true
  · rw [if_pos hb, if_pos hb]
    refine ⟨?_, fun s1 h => by cases h⟩
    intro s1 h
    cases h
    refine ⟨⟨by simp, by simp, by simp, by simp, le_refl _, le_refl _, ?_, ?_, by simp,
      Or.inl ⟨rfl, rfl⟩⟩, rfl, rfl⟩
    · intro k hk
      show (s.mask ||| 1 <<< j.toNat).testBit k = true
      rw [testBit_lor_bit, hk]; rfl
    · intro k hk
      have hk' : (s.mask ||| 1 <<< j.toNat).testBit k = true := hk
      rw [testBit_lor_bit] at hk'
      rcases Bool.or_eq_true _ _ ▸ hk' with h | h
      · exact Or.inl h
      · have : j.toNat = k := by simpa using h
        right; omega
  · rw [if_neg hb, if_neg hb]
    have hb' : s.mask.testBit j.toNat = false := by simpa using hb
    dsimp only
    by_cases hp : (O (base * 2 ^ j.toNat) s.g).1 = true
    · rw [if_pos hp]
      refine ⟨?_, fun s1 h => by cases h⟩
      intro s1 h
      cases h
      refine ⟨⟨?_, ?_, ?_, by simp, le_refl _, le_refl _, ?_, ?_, ?_, Or.inl ⟨rfl, rfl⟩⟩,
        rfl, rfl⟩
      · intro x hx
        have : x = (j, s.mask) := by simpa using hx
        subst this
        exact ⟨h1, h2⟩
      · intro x hx
        have : x = (j, s.mask) := by simpa using hx
        subst this
        exact hb'
      · intro x hx
        have : x = (j, s.mask) := by simpa using hx
        subst this
        exact hb'
      · intro k hk
        show (s.mask ||| 1 <<< j.toNat).testBit k = true
        rw [testBit_lor_bit, hk]; rfl
      · intro k hk
        have hk' : (s.mask ||| 1 <<< j.toNat).testBit k = true := hk
        rw [testBit_lor_bit] at hk'
        rcases Bool.or_eq_true _ _ ▸ hk' with h | h
        · exact Or.inl h
        · have : j.toNat = k := by simpa using h
          right; omega
      · intro x hx
        have : x = (j, s.mask) := by simpa using hx
        subst this
        left
        show (s.mask ||| 1 <<< j.toNat).testBit j.toNat = true
        rw [testBit_lor_bit]; simp
    · rw [if_neg hp]
      have hp' : (O (base * 2 ^ j.toNat) s.g).1 = false := by simpa using hp
      refine ⟨fun s1 h => (by cases h), ?_⟩
      intro s1 h
      cases h
      unfold FIX
      dsimp only
      by_cases hc : j - 1 - s.lo > s.hi - (j + 1)
      · rw [if_pos hc]
        dsimp only
        refine ⟨⟨?_, ?_, ?_, by simp, le_refl _, by show j - 1 ≤ s.hi; omega, fun _ h => h,
          fun _ h => Or.inl h, ?_, Or.inr ⟨by show j - 1 < s.hi; omega, _, _, hp', rfl⟩⟩,
          by show j - 1 - s.lo < s.hi - s.lo; omega, by show s.lo ≤ j - 1 + 1; omega⟩
        · intro x hx
          have : x = (j, s.mask) := by simpa using hx
          subst this
          exact ⟨h1, h2⟩
        · intro x hx
          have : x = (j, s.mask) := by simpa using hx
          subst this
          exact hb'
        · intro x hx
          have : x = (j, s.mask) := by simpa using hx
          subst this
          exact hb'
        · intro x hx
          have : x = (j, s.mask) := by simpa using hx
          subst this
          right; right
          show j - 1 < j
          omega
      · rw [if_neg hc]
        dsimp only
        refine ⟨⟨?_, ?_, ?_, by simp, by show s.lo ≤ j + 1; omega, le_refl _, fun _ h => h,
          fun _ h => Or.inl h, ?_, Or.inl ⟨rfl, rfl⟩⟩,
          by show s.hi - (j + 1) < s.hi - s.lo; omega, by show j + 1 ≤ s.hi + 1; omega⟩
        · intro x hx
          have : x = (j, s.mask) := by simpa using hx
          subst this
          exact ⟨h1, h2⟩
        · intro x hx
          have : x = (j, s.mask) := by simpa using hx
          subst this
          exact hb'
        · intro x hx
          have : x = (j, s.mask) := by simpa using hx
          subst this
          exact hb'
        · intro x hx
          have : x = (j, s.mask) := by simpa using hx
          subst this
          right; left
          show j < j + 1
          omega

/-- The probing loop of `findchain` on a range it splits symmetrically. -/
theorem forLoopC_shrinks (O : Int → Frac → Bool × Frac) (base mid mid2 : Int)
    (hmid : mid < mid2) :
    ∀ (fuel : Nat) (i : Int) (s : FC), 0 ≤ s.lo → 0 ≤ i → mid2 + (mid - s.lo) ≤ s.hi →
      (∀ s1, (forLoopC O base mid mid2 fuel i s).1 = .cont s1 →
        Shrinks O base s s1 (forLoopC O base mid mid2 fuel i s).2 ∧ s1.lo = s.lo ∧ s1.hi = s.hi) ∧
      (∀ s1, (forLoopC O base mid mid2 fuel i s).1 = .restart s1 →
        Shrinks O base s s1 (forLoopC O base mid mid2 fuel i s).2 ∧
          s1.hi - s1.lo < s.hi - s.lo ∧ s1.lo ≤ s1.hi + 1) := by
  intro fuel
  induction fuel with
  | zero =>
    intro i s _ _ _
    refine ⟨?_, fun s1 h => (by cases h)⟩
    intro s1 h
    cases h
    exact ⟨Shrinks.refl O base s, rfl, rfl⟩
  | succ fuel ih =>
    intro i s h0 hi hfit
    unfold forLoopC
    by_cases hg : i ≤ mid - s.lo
    · rw [if_pos hg]
      have hA := testElem_shrinks O base s (mid - i) h0 (by omega) (by omega)
      cases hAe : testElem O base s (mid - i) with
      | restart sA =>
        dsimp only
        refine ⟨fun s1 h => (by cases h), ?_⟩
        intro s1 h
        cases h
        exact hA.2 sA hAe
      | cont sA =>
        dsimp only
        obtain ⟨shA, hAlo, hAhi⟩ := hA.1 sA hAe
        have hB := testElem_shrinks O base sA (mid2 + i) (by omega) (by omega) (by omega)
        cases hBe : testElem O base sA (mid2 + i) with
        | restart sB =>
          dsimp only
          refine ⟨fun s1 h => (by cases h), ?_⟩
          intro s1 h
          cases h
          obtain ⟨shB, hB1, hB2⟩ := hB.2 sB hBe
          exact ⟨shA.trans shB, by omega, hB2⟩
        | cont sB =>
          dsimp only
          obtain ⟨shB, hBlo, hBhi⟩ := hB.1 sB hBe
          have hrec := ih (i + 1) sB (by omega) (by omega) (by omega)
          constructor
          · intro s1 h
            obtain ⟨sh, h1, h2⟩ := hrec.1 s1 h
            refine ⟨?_, by omega, by omega⟩
            rw [List.append_assoc]
            exact shA.trans (shB.trans sh)
          · intro s1 h
            obtain ⟨sh, h1, h2⟩ := hrec.2 s1 h
            refine ⟨?_, by omega, h2⟩
            rw [List.append_assoc]
            exact shA.trans (shB.trans sh)
    · rw [if_neg hg]
      refine ⟨?_, fun s1 h => (by cases h)⟩
      intro s1 h
      cases h
      exact ⟨Shrinks.refl O base s, rfl, rfl⟩

/-- Run of `findchain` from any state whose range starts at `lo ≥ 0`: it returns
within one round more than the size of the range, the range only shrinks, and
the result is `0` on a range below `MINACCEPT` or the size of the final range. -/
theorem findchainLoopC_spec (O : Int → Frac → Bool × Frac) (MINACCEPT base glo : Int)
    (hMA : 1 ≤ MINACCEPT) :
    ∀ (n : Nat) (s : FC), 0 ≤ s.lo → s.hi - s.lo + 1 ≤ (n : Int) →
      ∃ r, findchainLoopC O MINACCEPT base glo (n + 1) s = some r ∧
        Shrinks O base s r.fin r.calls ∧ (r.restarts : Int) ≤ max 0 (s.hi - s.lo + 1) ∧
        ((r.out = ⟨0, r.fin.f, glo⟩ ∧ r.fin.hi - r.fin.lo + 1 < MINACCEPT ∧ r.extra = []) ∨
          (r.out = ⟨r.fin.hi - r.fin.lo + 1,
              if r.fin.f.isUnset then (O (base * 2 ^ (r.fin.hi + 1).toNat) r.fin.f).2
              else r.fin.f, r.fin.lo⟩ ∧
            MINACCEPT ≤ r.fin.hi - r.fin.lo + 1 ∧
            r.extra = if r.fin.f.isUnset then [(r.fin.hi + 1, r.fin.mask)] else [])) := by
  intro n
  induction n with
  | zero =>
    intro s _ hn
    unfold findchainLoopC
    rw [if_pos (by simp at hn; omega)]
    exact ⟨_, rfl, Shrinks.refl O base s, by simp, Or.inl ⟨rfl, by simp at hn; dsimp only; omega, rfl⟩⟩
  | succ n ih =>
    intro s h0 hn
    -- a restart continues with the induction hypothesis
    have hrestart : ∀ (s' : FC) (l : List (Int × Nat)), Shrinks O base s s' l →
        s'.hi - s'.lo < s.hi - s.lo → s'.lo ≤ s'.hi + 1 →
        ∃ r, (findchainLoopC O MINACCEPT base glo (n + 1) s').map
            (fun r => { r with calls := l ++ r.calls, restarts := r.restarts + 1 }) = some r ∧
          Shrinks O base s r.fin r.calls ∧ (r.restarts : Int) ≤ max 0 (s.hi - s.lo + 1) ∧
          ((r.out = ⟨0, r.fin.f, glo⟩ ∧ r.fin.hi - r.fin.lo + 1 < MINACCEPT ∧ r.extra = []) ∨
            (r.out = ⟨r.fin.hi - r.fin.lo + 1,
                if r.fin.f.isUnset then (O (base * 2 ^ (r.fin.hi + 1).toNat) r.fin.f).2
                else r.fin.f, r.fin.lo⟩ ∧
              MINACCEPT ≤ r.fin.hi - r.fin.lo + 1 ∧
              r.extra = if r.fin.f.isUnset then [(r.fin.hi + 1, r.fin.mask)] else [])) := by
      intro s' l hsh hlt hle
      have hlo' := hsh.lo_le
      obtain ⟨r, hr, hs, hcount, hout⟩ := ih s' (by omega) (by push_cast at hn; omega)
      refine ⟨{ r with calls := l ++ r.calls, restarts := r.restarts + 1 }, by rw [hr]; rfl,
        hsh.trans hs, ?_, hout⟩
      dsimp only
      push_cast
      have : max 0 (s'.hi - s'.lo + 1) = s'.hi - s'.lo + 1 := max_eq_right (by omega)
      rw [this] at hcount
      have : max 0 (s.hi - s.lo + 1) = s.hi - s.lo + 1 := max_eq_right (by omega)
      rw [this]
      omega
    unfold findchainLoopC
    dsimp only
    by_cases hshort : s.hi - s.lo + 1 < MINACCEPT
    · rw [if_pos hshort]
      exact ⟨_, rfl, Shrinks.refl O base s, by simp, Or.inl ⟨rfl, hshort, rfl⟩⟩
    · rw [if_neg hshort]
      have hlen : 0 ≤ s.hi - s.lo := by omega
      have hdiv : Int.tdiv (s.hi - s.lo) 2 = (s.hi - s.lo) / 2 :=
        Int.tdiv_eq_ediv hlen (by norm_num)
      rw [hdiv]
      by_cases hodd : (s.hi - s.lo) % 2 ≠ 0
      · simp only [hodd, ne_eq, not_false_eq_true, if_true]
        have hfl := forLoopC_shrinks O base (s.lo + (s.hi - s.lo) / 2)
          (s.lo + (s.hi - s.lo) / 2 + 1) (by omega)
          (s.lo + (s.hi - s.lo) / 2 - s.lo + 1).toNat 0 s h0 (le_refl _) (by omega)
        cases hfe : (forLoopC O base (s.lo + (s.hi - s.lo) / 2)
            (s.lo + (s.hi - s.lo) / 2 + 1)
            (s.lo + (s.hi - s.lo) / 2 - s.lo + 1).toNat 0 s).1 with
        | restart s2 =>
          dsimp only
          obtain ⟨sh, h1, h2⟩ := hfl.2 s2 hfe
          have := hrestart s2 _ sh h1 h2
          simpa using this
        | cont s2 =>
          dsimp only
          obtain ⟨sh, h1, h2⟩ := hfl.1 s2 hfe
          refine ⟨_, rfl, by simpa using sh, by simp, Or.inr ⟨rfl, by dsimp only; omega, rfl⟩⟩
      · have heven : (s.hi - s.lo) % 2 = 0 := by omega
        simp only [heven, ne_eq, not_true_eq_false, if_false]
        have hA := testElem_shrinks O base s (s.lo + (s.hi - s.lo) / 2) h0 (by omega) (by omega)
        cases hAe : testElem O base s (s.lo + (s.hi - s.lo) / 2) with
        | restart s1 =>
          dsimp only
          obtain ⟨sh, h1, h2⟩ := hA.2 s1 hAe
          exact hrestart s1 _ sh h1 h2
        | cont s1 =>
          dsimp only
          obtain ⟨shA, hAlo, hAhi⟩ := hA.1 s1 hAe
          have hfl := forLoopC_shrinks O base (s.lo + (s.hi - s.lo) / 2 - 1)
            (s.lo + (s.hi - s.lo) / 2 + 1) (by omega)
            (s.lo + (s.hi - s.lo) / 2 - 1 - s.lo + 1).toNat 0 s1 (by omega) (le_refl _)
            (by omega)
          cases hfe : (forLoopC O base (s.lo + (s.hi - s.lo) / 2 - 1)
              (s.lo + (s.hi - s.lo) / 2 + 1)
              (s.lo + (s.hi - s.lo) / 2 - 1 - s.lo + 1).toNat 0 s1).1 with
          | restart s2 =>
            dsimp only
            obtain ⟨sh, h1, h2⟩ := hfl.2 s2 hfe
            exact hrestart s2 _ (shA.trans sh) (by omega) h2
          | cont s2 =>
            dsimp only
            obtain ⟨sh, h1, h2⟩ := hfl.1 s2 hfe
            exact ⟨_, rfl, shA.trans sh, by simp,
              Or.inr ⟨rfl, by dsimp only; omega, rfl⟩⟩

/-! ### Result and cost of `findchain` -/

/-- A test of an element that is in the mask or passes the oracle falls through. -/
theorem testElem_pass (O : Int → Frac → Bool × Frac) (base : Int) (s : FC) (j : Int)
    (h : s.mask.testBit j.toNat = true ∨ ∀ g, (O (base * 2 ^ j.toNat) g).1 = true) :
    ∃ s1, testElem O base s j = .cont s1 := by
  unfold testElem
  by_cases hb : s.mask.testBit j.toNat = true
  · rw [if_pos hb]; exact ⟨_, rfl⟩
  · rw [if_neg hb]
    rcases h with h | h
    · exact absurd h hb
    · dsimp only
      rw [if_pos (h s.g)]
      exact ⟨_, rfl⟩

/-- The probing loop falls through when every element of the range is in the
mask or passes the oracle. -/
theorem forLoopC_pass (O : Int → Frac → Bool × Frac) (base mid mid2 : Int) (hmid : mid < mid2) :
    ∀ (fuel : Nat) (i : Int) (s : FC), 0 ≤ s.lo → 0 ≤ i → mid2 + (mid - s.lo) ≤ s.hi →
      (∀ j, s.lo ≤ j → j ≤ s.hi →
        s.mask.testBit j.toNat = true ∨ ∀ g, (O (base * 2 ^ j.toNat) g).1 = true) →
      ∃ s1, (forLoopC O base mid mid2 fuel i s).1 = .cont s1 := by
  intro fuel
  induction fuel with
  | zero => intro i s _ _ _ _; exact ⟨s, rfl⟩
  | succ fuel ih =>
    intro i s h0 hi hfit hall
    unfold forLoopC
    by_cases hg : i ≤ mid - s.lo
    · rw [if_pos hg]
      obtain ⟨sA, hAe⟩ := testElem_pass O base s (mid - i) (hall _ (by omega) (by omega))
      obtain ⟨shA, hAlo, hAhi⟩ :=
        (testElem_shrinks O base s (mid - i) h0 (by omega) (by omega)).1 sA hAe
      have hallA : ∀ j, sA.lo ≤ j → j ≤ sA.hi →
          sA.mask.testBit j.toNat = true ∨ ∀ g, (O (base * 2 ^ j.toNat) g).1 = true := by
        intro j h1 h2
        rcases hall j (by omega) (by omega) with h | h
        · exact Or.inl (shA.mono _ h)
        · exact Or.inr h
      obtain ⟨sB, hBe⟩ := testElem_pass O base sA (mid2 + i) (hallA _ (by omega) (by omega))
      obtain ⟨shB, hBlo, hBhi⟩ :=
        (testElem_shrinks O base sA (mid2 + i) (by omega) (by omega) (by omega)).1 sB hBe
      have hallB : ∀ j, sB.lo ≤ j → j ≤ sB.hi →
          sB.mask.testBit j.toNat = true ∨ ∀ g, (O (base * 2 ^ j.toNat) g).1 = true := by
        intro j h1 h2
        rcases hallA j (by omega) (by omega) with h | h
        · exact Or.inl (shB.mono _ h)
        · exact Or.inr h
      rw [hAe]
      dsimp only
      rw [hBe]
      dsimp only
      exact ih (i + 1) sB (by omega) (by omega) (by omega) hallB
    · rw [if_neg hg]
      exact ⟨s, rfl⟩

/-- With every element of the range in the mask or passing, `findchain` accepts
the whole range in its first round. -/
theorem findchainLoopC_pass (O : Int → Frac → Bool × Frac) (MINACCEPT base glo : Int)
    (n : Nat) (s : FC) (h0 : 0 ≤ s.lo) (hlen : MINACCEPT ≤ s.hi - s.lo + 1)
    (hMA : 1 ≤ MINACCEPT)
    (hall : ∀ j, s.lo ≤ j → j ≤ s.hi →
      s.mask.testBit j.toNat = true ∨ ∀ g, (O (base * 2 ^ j.toNat) g).1 = true) :
    ∃ r, findchainLoopC O MINACCEPT base glo (n + 1) s = some r ∧
      r.out.len = s.hi - s.lo + 1 ∧ r.out.glo = s.lo ∧ r.restarts = 0 := by
  unfold findchainLoopC
  dsimp only
  rw [if_neg (by omega)]
  have hlen0 : 0 ≤ s.hi - s.lo := by omega
  have hdiv : Int.tdiv (s.hi - s.lo) 2 = (s.hi - s.lo) / 2 :=
    Int.tdiv_eq_ediv hlen0 (by norm_num)
  rw [hdiv]
  by_cases hodd : (s.hi - s.lo) % 2 ≠ 0
  · simp only [hodd, ne_eq, not_false_eq_true, if_true]
    obtain ⟨s2, hfe⟩ := forLoopC_pass O base (s.lo + (s.hi - s.lo) / 2)
      (s.lo + (s.hi - s.lo) / 2 + 1) (by omega)
      (s.lo + (s.hi - s.lo) / 2 - s.lo + 1).toNat 0 s h0 (le_refl _) (by omega) hall
    obtain ⟨_, h1, h2⟩ := (forLoopC_shrinks O base (s.lo + (s.hi - s.lo) / 2)
      (s.lo + (s.hi - s.lo) / 2 + 1) (by omega)
      (s.lo + (s.hi - s.lo) / 2 - s.lo + 1).toNat 0 s h0 (le_refl _) (by omega)).1 s2 hfe
    rw [hfe]
    dsimp only
    exact ⟨_, rfl, by dsimp only; omega, h1, rfl⟩
  · have heven : (s.hi - s.lo) % 2 = 0 := by omega
    simp only [heven, ne_eq, not_true_eq_false, if_false]
    obtain ⟨s1, hAe⟩ := testElem_pass O base s (s.lo + (s.hi - s.lo) / 2)
      (hall _ (by omega) (by omega))
    obtain ⟨shA, hAlo, hAhi⟩ :=
      (testElem_shrinks O base s (s.lo + (s.hi - s.lo) / 2) h0 (by omega) (by omega)).1 s1 hAe
    have hall1 : ∀ j, s1.lo ≤ j → j ≤ s1.hi →
        s1.mask.testBit j.toNat = true ∨ ∀ g, (O (base * 2 ^ j.toNat) g).1 = true := by
      intro j h1 h2
      rcases hall j (by omega) (by omega) with h | h
      · exact Or.inl (shA.mono _ h)
      · exact Or.inr h
    rw [hAe]
    dsimp only
    obtain ⟨s2, hfe⟩ := forLoopC_pass O base (s.lo + (s.hi - s.lo) / 2 - 1)
      (s.lo + (s.hi - s.lo) / 2 + 1) (by omega)
      (s.lo + (s.hi - s.lo) / 2 - 1 - s.lo + 1).toNat 0 s1 (by omega) (le_refl _) (by omega)
      hall1
    obtain ⟨_, h1, h2⟩ := (forLoopC_shrinks O base (s.lo + (s.hi - s.lo) / 2 - 1)
      (s.lo + (s.hi - s.lo) / 2 + 1) (by omega)
      (s.lo + (s.hi - s.lo) / 2 - 1 - s.lo + 1).toNat 0 s1 (by omega) (le_refl _)
      (by omega)).1 s2 hfe
    rw [hfe]
    dsimp only
    exact ⟨_, rfl, by dsimp only; omega, by dsimp only; omega, rfl⟩

/-- C22. For every range `[lo, hi]` with `lo ≥ 0`, every mask and every oracle
(`MINACCEPT ≥ 1`), `findchain` returns either `0` or a value `L` with
`MINACCEPT ≤ L ≤ hi - lo + 1`; it returns `0` exactly when the range it has
shrunk to holds fewer than `MINACCEPT` elements, and otherwise the size of that
range with its lower end recorded; when every element of the initial range
passes or is in the mask and `hi - lo + 1 ≥ MINACCEPT`, it returns `hi - lo + 1`
with recorded lower bound `lo`. -/
theorem C22_findchain_result (O : Int → Frac → Bool × Frac) (MINACCEPT base lo hi : Int)
    (mask : Nat) (f : Frac) (glo : Int) (hMA : 1 ≤ MINACCEPT) (hlo : 0 ≤ lo) :
    ∃ r : Run, findchainC O MINACCEPT base lo hi mask f glo = some r ∧
      findchainWith O MINACCEPT base lo hi mask f glo = some r.out ∧
      (r.out.len = 0 ∨ (MINACCEPT ≤ r.out.len ∧ r.out.len ≤ hi - lo + 1)) ∧
      lo ≤ r.fin.lo ∧ r.fin.hi ≤ hi ∧
      (r.out.len = 0 ↔ r.fin.hi - r.fin.lo + 1 < MINACCEPT) ∧
      (r.out.len ≠ 0 → r.out.len = r.fin.hi - r.fin.lo + 1 ∧ r.out.glo = r.fin.lo) ∧
      ((∀ j, lo ≤ j → j ≤ hi →
          mask.testBit j.toNat = true ∨ ∀ g, (O (base * 2 ^ j.toNat) g).1 = true) →
        MINACCEPT ≤ hi - lo + 1 → r.out.len = hi - lo + 1 ∧ r.out.glo = lo) := by
  obtain ⟨r, hr, hsh, _, hout⟩ := findchainLoopC_spec O MINACCEPT base glo hMA
    (hi - lo + 1).toNat ⟨lo, hi, mask, f, ⟨0, 1⟩⟩ hlo (by dsimp only; omega)
  have hlo' : lo ≤ r.fin.lo := hsh.lo_le
  have hhi' : r.fin.hi ≤ hi := hsh.hi_le
  have hW : findchainWith O MINACCEPT base lo hi mask f glo = some r.out := by
    rw [← findchainC_out]
    unfold findchainC
    rw [hr]
    rfl
  refine ⟨r, hr, hW, ?_, hlo', hhi', ?_, ?_, ?_⟩
  · rcases hout with ⟨h1, _, _⟩ | ⟨h1, h2, _⟩
    · left; rw [h1]
    · right; rw [h1]; dsimp only; omega
  · rcases hout with ⟨h1, h2, _⟩ | ⟨h1, h2, _⟩
    · rw [h1]; exact ⟨fun _ => h2, fun _ => rfl⟩
    · rw [h1]; dsimp only; constructor <;> intro h <;> omega
  · intro hne
    rcases hout with ⟨h1, _, _⟩ | ⟨h1, _, _⟩
    · rw [h1] at hne; exact absurd rfl hne
    · rw [h1]; exact ⟨rfl, rfl⟩
  · intro hall hlen
    obtain ⟨r', hr', h1, h2, _⟩ := findchainLoopC_pass O MINACCEPT base glo
      (hi - lo + 1).toNat ⟨lo, hi, mask, f, ⟨0, 1⟩⟩ hlo hlen hMA hall
    rw [hr] at hr'
    cases hr'
    exact ⟨h1, h2⟩

/-- C22 at `MINACCEPT = 5`, `B = 90`, `base = 1`, minus side: on `[0, 5]` every
element passes and the result is `6` with lower bound `0`; on `[0, 12]` the
range shrinks to `[10, 12]` and the result is `0`. -/
theorem C22_findchain_result_witness :
    findchain 5 1 0 5 0 90 (-1) ⟨-1, 1⟩ 0 = some ⟨6, ⟨1111, 5759⟩, 0⟩ ∧
    findchain 5 1 0 12 0 90 (-1) ⟨-1, 1⟩ 0 = some ⟨0, ⟨-1, 1⟩, 0⟩ ∧
    ∃ r : Run, findchainC (fun mul g => isbigprime 90 mul (-1) g) 5 1 0 12 0 ⟨-1, 1⟩ 0 =
        some r ∧
      (r.out.len = 0 ↔ r.fin.hi - r.fin.lo + 1 < 5) := by
  obtain ⟨r, h1, _, _, _, _, h6, _⟩ :=
    C22_findchain_result (fun mul g => isbigprime 90 mul (-1) g) 5 1 0 12 0 ⟨-1, 1⟩ 0
      (by decide) (by decide)
  exact ⟨by decide, by decide, r, h1, h6⟩

theorem nodup_range_length (l : List Int) (lo hi : Int) (hn : l.Nodup)
    (hr : ∀ x ∈ l, lo ≤ x ∧ x ≤ hi) : l.length ≤ (hi - lo + 1).toNat := by
  have hsub : l.toFinset ⊆ Finset.Icc lo hi := by
    intro x hx
    rw [List.mem_toFinset] at hx
    exact Finset.mem_Icc.mpr (hr x hx)
  have hcard := Finset.card_le_card hsub
  rw [List.toFinset_card_of_nodup hn, Int.card_Icc] at hcard
  have : hi + 1 - lo = hi - lo + 1 := by ring
  rw [this] at hcard
  exact hcard

/-- C28. `findchain` terminates for every range `[lo, hi]` with `lo ≥ 0`, every
mask and every oracle (`MINACCEPT ≥ 1`): a test that fails on an element of the
range restarts with a strictly smaller `hi - lo`, the number of restarts is at
most the size of the initial range, the tests call the oracle at most once per
element of the range, and with the extra probe the number of oracle calls is at
most `hi - lo + 2`. -/
theorem C28_findchain_terminates (O : Int → Frac → Bool × Frac) (MINACCEPT base lo hi : Int)
    (mask : Nat) (f : Frac) (glo : Int) (hMA : 1 ≤ MINACCEPT) (hlo : 0 ≤ lo) :
    (∃ r : Run, findchainC O MINACCEPT base lo hi mask f glo = some r ∧
      findchainWith O MINACCEPT base lo hi mask f glo = some r.out ∧
      r.restarts ≤ (hi - lo + 1).toNat ∧
      (r.calls.map Prod.fst).Nodup ∧ (∀ x ∈ r.calls, lo ≤ x.1 ∧ x.1 ≤ hi) ∧
      r.calls.length ≤ (hi - lo + 1).toNat ∧
      r.calls.length + r.extra.length ≤ (hi - lo + 2).toNat) ∧
    (∀ (s s' : FC) (j : Int), 0 ≤ s.lo → s.lo ≤ j → j ≤ s.hi →
      testElem O base s j = .restart s' → s'.hi - s'.lo < s.hi - s.lo) := by
  refine ⟨?_, fun s s' j h0 h1 h2 h => ((testElem_shrinks O base s j h0 h1 h2).2 s' h).2.1⟩
  obtain ⟨r, hr, hsh, hcount, hout⟩ := findchainLoopC_spec O MINACCEPT base glo hMA
    (hi - lo + 1).toNat ⟨lo, hi, mask, f, ⟨0, 1⟩⟩ hlo (by dsimp only; omega)
  have hW : findchainWith O MINACCEPT base lo hi mask f glo = some r.out := by
    rw [← findchainC_out]
    unfold findchainC
    rw [hr]
    rfl
  have hlen : r.calls.length ≤ (hi - lo + 1).toNat := by
    have := nodup_range_length (r.calls.map Prod.fst) lo hi hsh.nodup (by
      intro x hx
      obtain ⟨y, hy, rfl⟩ := List.mem_map.mp hx
      exact hsh.inRange y hy)
    simpa using this
  have hlo' : lo ≤ r.fin.lo := hsh.lo_le
  have hhi' : r.fin.hi ≤ hi := hsh.hi_le
  refine ⟨r, hr, hW, ?_, hsh.nodup, fun x hx => hsh.inRange x hx, hlen, ?_⟩
  · dsimp only at hcount
    rcases le_or_lt 0 (hi - lo + 1) with h | h
    · rw [max_eq_right h] at hcount; omega
    · rw [max_eq_left h.le] at hcount; omega
  · rcases hout with ⟨_, _, h3⟩ | ⟨_, h2, h3⟩
    · rw [h3]
      simp only [List.length_nil, add_zero]
      omega
    · have hex : r.extra.length ≤ 1 := by
        rw [h3]
        split <;> simp
      omega

/-- C28 at `MINACCEPT = 5`, `B = 90`, `base = 1`, minus side, range `[0, 12]`:
two restarts and the two calls on the failing elements `6` and `9`. -/
theorem C28_findchain_terminates_witness :
    (findchainC (fun mul g => isbigprime 90 mul (-1) g) 5 1 0 12 0 ⟨-1, 1⟩ 0).map
        (fun r => (r.restarts, r.calls.map Prod.fst, r.extra)) = some (2, [6, 9], []) ∧
    ∃ r : Run, findchainC (fun mul g => isbigprime 90 mul (-1) g) 5 1 0 12 0 ⟨-1, 1⟩ 0 =
        some r ∧ r.restarts ≤ ((12 : Int) - 0 + 1).toNat ∧
      r.calls.length + r.extra.length ≤ ((12 : Int) - 0 + 2).toNat := by
  obtain ⟨r, h1, _, h3, _, _, _, h7⟩ :=
    (C28_findchain_terminates (fun mul g => isbigprime 90 mul (-1) g) 5 1 0 12 0 ⟨-1, 1⟩ 0
      (by decide) (by decide)).1
  exact ⟨by decide, r, h1, h3, h7⟩


/-! ### Oracle calls of one side of the scan -/

/-- Calls of the extension loop: their indices increase from `k` to at most the
index `K` at the `break`, each passing one sets its mask bit, and either all
calls passed or `*f` holds the residue of the failing one. -/
theorem beyondCalls_spec (O : Int → Frac → Bool × Frac) (sieve : Int → Bool) (S i : Int) :
    ∀ (fuel : Nat) (k : Int) (mask : Nat) (f : Frac) (K : Int) (mask' : Nat) (f' : Frac),
      0 ≤ k → (∀ n : Nat, mask.testBit n = true → (n : Int) < k) →
      beyondLoop O sieve S i fuel k mask f = some (K, mask', f') →
      k ≤ K ∧
      (∀ x ∈ beyondCalls O sieve S i fuel k mask f,
        k ≤ x.1 ∧ x.1 ≤ K ∧ x.2.testBit x.1.toNat = false) ∧
      ((beyondCalls O sieve S i fuel k mask f).map Prod.fst).Nodup ∧
      (∀ x ∈ beyondCalls O sieve S i fuel k mask f, x.1 < K →
        mask'.testBit x.1.toNat = true) ∧
      (∀ n : Nat, mask'.testBit n = true → (n : Int) < K) ∧
      (∀ n : Nat, mask.testBit n = true → mask'.testBit n = true) ∧
      ((∀ x ∈ beyondCalls O sieve S i fuel k mask f, x.1 < K) ∨ IsResidue O i f') := by
  intro fuel
  induction fuel with
  | zero => intro k mask f K mask' f' _ _ h; simp [beyondLoop] at h
  | succ fuel ih =>
    intro k mask f K mask' f' hk hbits h
    unfold beyondLoop at h
    unfold beyondCalls
    by_cases hS : i * 2 ^ k.toNat < S
    · rw [if_pos hS] at h
      rw [if_pos hS]
      by_cases hs : sieve (i * 2 ^ k.toNat) = true
      · rw [if_pos hs] at h
        rw [if_pos hs]
        simp only [Option.some.injEq, Prod.mk.injEq] at h
        obtain ⟨rfl, rfl, rfl⟩ := h
        exact ⟨le_refl _, by simp, by simp, by simp, hbits, fun _ h => h, Or.inl (by simp)⟩
      · rw [if_neg hs] at h
        rw [if_neg hs]
        obtain ⟨h1, h2, h3, h4, h5, h6, h7⟩ := ih (k + 1) mask f K mask' f' (by omega)
          (fun n hn => by have := hbits n hn; omega) h
        exact ⟨by omega, fun x hx => by have := h2 x hx; exact ⟨by omega, this.2⟩, h3, h4, h5,
          h6, h7⟩
    · rw [if_neg hS] at h
      rw [if_neg hS]
      dsimp only at h ⊢
      have hkn : ((k.toNat : Nat) : Int) = k := Int.toNat_of_nonneg hk
      have hclear : mask.testBit k.toNat = false := by
        cases hb : mask.testBit k.toNat with
        | false => rfl
        | true => have := hbits _ hb; omega
      by_cases hp : (O (i * 2 ^ k.toNat) f).1 = true
      · rw [if_pos hp] at h
        rw [if_pos hp]
        obtain ⟨h1, h2, h3, h4, h5, h6, h7⟩ := ih (k + 1) (mask ||| 1 <<< k.toNat)
          (O (i * 2 ^ k.toNat) f).2 K mask' f' (by omega)
          (by
            intro n hn
            rw [testBit_lor_bit] at hn
            rcases Bool.or_eq_true _ _ ▸ hn with hn | hn
            · have := hbits n hn; omega
            · have : k.toNat = n := by simpa using hn
              omega) h
        have hset : mask'.testBit k.toNat = true := h6 _ (by rw [testBit_lor_bit]; simp)
        refine ⟨by omega, ?_, ?_, ?_, h5, ?_, ?_⟩
        · intro x hx
          rcases List.mem_cons.mp hx with rfl | hx
          · exact ⟨le_refl _, by dsimp only; omega, hclear⟩
          · have := h2 x hx
            exact ⟨by omega, this.2⟩
        · rw [List.map_cons, List.nodup_cons]
          refine ⟨?_, h3⟩
          intro hmem
          obtain ⟨y, hy, hyk⟩ := List.mem_map.mp hmem
          have := (h2 y hy).1
          dsimp only at hyk
          omega
        · intro x hx hlt
          rcases List.mem_cons.mp hx with rfl | hx
          · exact hset
          · exact h4 x hx hlt
        · intro n hn
          exact h6 n (by rw [testBit_lor_bit, hn]; rfl)
        · rcases h7 with h7 | h7
          · left
            intro x hx
            rcases List.mem_cons.mp hx with rfl | hx
            · dsimp only; omega
            · exact h7 x hx
          · exact Or.inr h7
      · rw [if_neg hp] at h
        rw [if_neg hp]
        simp only [Option.some.injEq, Prod.mk.injEq] at h
        obtain ⟨rfl, rfl, rfl⟩ := h
        refine ⟨le_refl _, ?_, by simp, ?_, hbits, fun _ h => h,
          Or.inr ⟨k.toNat, f, by simpa using hp, rfl⟩⟩
        · intro x hx
          have : x = (k, mask) := by simpa using hx
          subst this
          exact ⟨le_refl _, le_refl _, hclear⟩
        · intro x hx hlt
          have : x = (k, mask) := by simpa using hx
          subst this
          dsimp only at hlt
          omega

/-- For any oracle whose failing calls leave a value that is not below `-0.1`,
the calls of one side of the scan are made with the mask bit clear and on
pairwise different elements. -/
theorem scanSideC_calls (O : Int → Frac → Bool × Frac) (sieve : Int → Bool)
    (S MINCHAIN MINACCEPT i glo : Int) (fuel : Nat) (r : ScanRun) (hMA : 1 ≤ MINACCEPT)
    (hMC : 0 ≤ MINCHAIN)
    (hNU : ∀ (k : Nat) (g : Frac), (O (i * 2 ^ k) g).1 = false →
      (O (i * 2 ^ k) g).2.isUnset = false)
    (hr : scanSideC O sieve S MINCHAIN MINACCEPT i glo fuel = some r) :
    (∀ x ∈ r.calls, x.2.testBit x.1.toNat = false) ∧ (r.calls.map Prod.fst).Nodup := by
  have hres : ∀ f, IsResidue O i f → f.isUnset = false := by
    rintro f ⟨k, g, h1, rfl⟩
    exact hNU k g h1
  unfold scanSideC at hr
  by_cases hg : i % 2 ≠ 0 ∨ sieve (i / 2) = true
  · rw [if_pos hg] at hr
    by_cases hc : contiguous sieve i MINCHAIN MINCHAIN.toNat 0 = true
    · rw [if_pos hc] at hr
      cases hb : beyondLoop O sieve S i fuel MINCHAIN 0 ⟨-1, 1⟩ with
      | none => rw [hb] at hr; simp at hr
      | some res =>
        obtain ⟨K, mask', f'⟩ := res
        rw [hb] at hr
        dsimp only at hr
        obtain ⟨b1, b2, b3, b4, b5, _, b7⟩ := beyondCalls_spec O sieve S i fuel MINCHAIN 0
          ⟨-1, 1⟩ K mask' f' hMC (by intro n hn; simp at hn) hb
        obtain ⟨run, hrun, hsh, _, hout⟩ := findchainLoopC_spec O MINACCEPT i glo hMA
          (K - 1 - 0 + 1).toNat ⟨0, K - 1, mask', f', ⟨0, 1⟩⟩ (le_refl _)
          (by dsimp only; omega)
        unfold findchainC at hr
        rw [hrun] at hr
        dsimp only at hr
        have hrr := Option.some.inj hr
        rw [← hrr]
        dsimp only
        -- facts about the extra probe
        have hextra : ∀ x ∈ run.extra, x = (K, run.fin.mask) ∧ run.fin.f.isUnset = true ∧
            run.fin.f = f' := by
          intro x hx
          rcases hout with ⟨_, _, h3⟩ | ⟨_, _, h3⟩
          · rw [h3] at hx; simp at hx
          · rw [h3] at hx
            by_cases hu : run.fin.f.isUnset = true
            · rw [if_pos hu] at hx
              rcases hsh.front with ⟨hf1, hf2⟩ | ⟨_, hf2⟩
              · dsimp only at hf1 hf2
                have : x = (run.fin.hi + 1, run.fin.mask) := by simpa using hx
                rw [this, hf1]
                exact ⟨by rw [sub_add_cancel], hu, hf2⟩
              · rw [hres _ hf2] at hu
                exact absurd hu (by simp)
            · rw [if_neg hu] at hx
              simp at hx
        have hKn : ((K.toNat : Nat) : Int) = K := Int.toNat_of_nonneg (by omega)
        constructor
        · intro x hx
          rcases List.mem_append.mp hx with hx | hx
          · rcases List.mem_append.mp hx with hx | hx
            · exact (b2 x hx).2.2
            · exact hsh.clearAt x hx
          · obtain ⟨rfl, _, _⟩ := hextra x hx
            dsimp only
            cases hbit : run.fin.mask.testBit K.toNat with
            | false => rfl
            | true =>
              rcases hsh.newBits _ hbit with h | h
              · have := b5 _ h; omega
              · dsimp only at h; omega
        · rw [List.map_append, List.map_append, List.nodup_append]
          refine ⟨?_, ?_, ?_⟩
          · rw [List.nodup_append]
            refine ⟨b3, hsh.nodup, ?_⟩
            intro a ha1 ha2
            obtain ⟨x, hx, rfl⟩ := List.mem_map.mp ha1
            obtain ⟨y, hy, hxy⟩ := List.mem_map.mp ha2
            have hy1 := hsh.inRange y hy
            have hy2 := hsh.clear0 y hy
            dsimp only at hy1 hy2
            rw [hxy] at hy1 hy2
            have := b4 x hx (by omega)
            rw [this] at hy2
            exact absurd hy2 (by simp)
          · rcases hout with ⟨_, _, h3⟩ | ⟨_, _, h3⟩
            · rw [h3]; simp
            · rw [h3]; split <;> simp
          · intro a ha1 ha2
            obtain ⟨y, hy, hya⟩ := List.mem_map.mp ha2
            obtain ⟨rfl, hu, hfe⟩ := hextra y hy
            dsimp only at hya
            rcases List.mem_append.mp ha1 with ha1 | ha1
            · obtain ⟨x, hx, hxa⟩ := List.mem_map.mp ha1
              rcases b7 with h | h
              · have := h x hx; omega
              · rw [hfe, hres _ h] at hu
                exact absurd hu (by simp)
            · obtain ⟨x, hx, hxa⟩ := List.mem_map.mp ha1
              have := hsh.inRange x hx
              dsimp only at this
              omega
    · rw [if_neg hc] at hr
      have hrr := Option.some.inj hr
      rw [← hrr]
      simp
  · rw [if_neg hg] at hr
    have hrr := Option.some.inj hr
    rw [← hrr]
    simp

/-- C24. During the extension loop and the following call of `findchain` for a
candidate `i ≥ 1` and a side (origin `B ≥ 2`), every call of the oracle is made
on an element whose mask bit is clear at that moment, and no element is passed
to the oracle twice, the extra probe at `hi+1` included. Each entry of the record
is the index `k` of the element `(i*2^k)*B + side` and the mask at the call. -/
theorem C24_no_repeated_oracle_call (sieve : Int → Bool)
    (S MINCHAIN MINACCEPT i glo B side : Int) (fuel : Nat) (r : ScanRun)
    (hside : side = -1 ∨ side = 1) (hMA : 1 ≤ MINACCEPT) (hMC : 0 ≤ MINCHAIN) (hi : 1 ≤ i)
    (hB : 2 ≤ B)
    (hr : scanSideC (fun mul g => isbigprime B mul side g) sieve S MINCHAIN MINACCEPT i glo
      fuel = some r) :
    scanSide (fun mul g => isbigprime B mul side g) sieve S MINCHAIN MINACCEPT i glo fuel =
      some r.out ∧
    (∀ x ∈ r.calls, x.2.testBit x.1.toNat = false) ∧ (r.calls.map Prod.fst).Nodup := by
  refine ⟨by rw [← scanSideC_out, hr]; rfl, ?_⟩
  apply scanSideC_calls _ sieve S MINCHAIN MINACCEPT i glo fuel r hMA hMC _ hr
  intro k g hfail
  dsimp only at hfail ⊢
  rw [isbigprime_eq] at hfail ⊢
  by_cases hf : fermattest (B * (i * 2 ^ k) + side) = true
  · rw [if_pos hf] at hfail
    exact absurd hfail (by simp)
  · rw [if_neg hf]
    dsimp only
    apply fraction_not_unset
    have h1 : (1 : Int) ≤ 2 ^ k := by
      have : (0 : Int) < 2 ^ k := by positivity
      omega
    have h2 : 1 ≤ i * 2 ^ k := by nlinarith
    have h3 : 2 ≤ B * (i * 2 ^ k) := by nlinarith
    rcases hside with h | h <;> omega

/-- C24 at the source's `MINCHAIN` and `MINACCEPT`, `B = 90`, `i = 1`, minus
side, with an empty sieve of size `128`: the extension loop reads the sieve at
`64` and calls the oracle on the elements `7`, `8` (which pass) and `9` (which
fails); `findchain` on `[0, 8]` then calls it on `4, 3, 5, 2, 6`, restarts on
`[0, 5]` after the failure of `6`, and calls it on `1` and `0`; no extra probe
is made. -/
theorem C24_no_repeated_oracle_call_witness :
    (scanSideC (fun mul g => isbigprime 90 mul (-1) g) (fun _ => false) 128 6 5 1 0 32).map
        (fun r => (r.out.len, r.calls.map Prod.fst)) = some (6, [7, 8, 9, 4, 3, 5, 2, 6, 1, 0]) ∧
    ∀ r, scanSideC (fun mul g => isbigprime 90 mul (-1) g) (fun _ => false) 128 6 5 1 0 32 =
        some r → (r.calls.map Prod.fst).Nodup :=
  ⟨by decide, fun r hr =>
    (C24_no_repeated_oracle_call (fun _ => false) 128 6 5 1 0 90 (-1) 32 r (Or.inl rfl)
      (by decide) (by decide) (by decide) (by decide) hr).2.2⟩


/-! ### Gating of the chain search -/

theorem contiguous_unmarked (sieve : Int → Bool) (i MC : Int) :
    ∀ (fuel : Nat) (k0 : Int), 0 ≤ k0 → MC - k0 ≤ (fuel : Int) →
      contiguous sieve i MC fuel k0 = true →
      ∀ k : Nat, k0 ≤ (k : Int) → (k : Int) < MC → sieve (i * 2 ^ k) = false := by
  intro fuel
  induction fuel with
  | zero =>
    intro k0 _ hf _ k h1 h2
    simp at hf
    omega
  | succ fuel ih =>
    intro k0 hk0 hf hc k h1 h2
    unfold contiguous at hc
    rw [if_pos (by omega)] at hc
    by_cases hs : sieve (i * 2 ^ k0.toNat) = true
    · rw [if_pos hs] at hc
      exact absurd hc (by simp)
    · rw [if_neg hs] at hc
      by_cases hk : (k : Int) = k0
      · have : k0.toNat = k := by omega
        rw [this] at hs
        simpa using hs
      · exact ih (k0 + 1) (by omega) (by push_cast at hf; omega) hc k (by omega) h2

theorem contiguous_iff (sieve : Int → Bool) (i MC : Int) :
    contiguous sieve i MC MC.toNat 0 = true ↔
      ∀ k : Nat, (k : Int) < MC → sieve (i * 2 ^ k) = false :=
  ⟨fun h k hk => contiguous_unmarked sieve i MC _ 0 (le_refl _) (by omega) h k (by omega) hk,
    fun h => contiguous_of_unmarked sieve i MC h _ 0 (le_refl _)⟩

/-- C23. For a candidate `i` and a side, the scan runs the primality-based chain
search (extension loop and `findchain`) if and only if `i` is odd or the sieve
bit at `i/2` is set, and the sieve bits at `i*2^k` are `0` for every
`k = 0..MINCHAIN-1`; otherwise the length of the side is `0`, `f` is `0` and no
call of the oracle is made. The condition of `03.c` is the same one with
`MINCHAIN = 4`. -/
theorem C23_scan_gating (O : Int → Frac → Bool × Frac) (sieve : Int → Bool)
    (S MINCHAIN MINACCEPT i glo : Int) (fuel : Nat) :
    (¬ ((i % 2 ≠ 0 ∨ sieve (i / 2) = true) ∧
          ∀ k : Nat, (k : Int) < MINCHAIN → sieve (i * 2 ^ k) = false) →
      scanSideC O sieve S MINCHAIN MINACCEPT i glo fuel =
        some ⟨⟨0, ⟨0, 1⟩, glo⟩, false, []⟩) ∧
    (((i % 2 ≠ 0 ∨ sieve (i / 2) = true) ∧
          ∀ k : Nat, (k : Int) < MINCHAIN → sieve (i * 2 ^ k) = false) →
      scanSideC O sieve S MINCHAIN MINACCEPT i glo fuel =
        (beyondLoop O sieve S i fuel MINCHAIN 0 ⟨-1, 1⟩).bind (fun b =>
          (findchainC O MINACCEPT i 0 (b.1 - 1) b.2.1 b.2.2 glo).map (fun r =>
            ⟨r.out, true,
              beyondCalls O sieve S i fuel MINCHAIN 0 ⟨-1, 1⟩ ++ r.calls ++ r.extra⟩))) ∧
    (∀ r, scanSideC O sieve S MINCHAIN MINACCEPT i glo fuel = some r →
      (r.searched = true ↔ ((i % 2 ≠ 0 ∨ sieve (i / 2) = true) ∧
          ∀ k : Nat, (k : Int) < MINCHAIN → sieve (i * 2 ^ k) = false)) ∧
      (r.searched = false → r.out.len = 0 ∧ r.out.f = ⟨0, 1⟩ ∧ r.calls = [])) ∧
    scanSide O sieve S MINCHAIN MINACCEPT i glo fuel =
      (scanSideC O sieve S MINCHAIN MINACCEPT i glo fuel).map ScanRun.out ∧
    (gate03 sieve i = true ↔ ((i % 2 ≠ 0 ∨ sieve (i / 2) = true) ∧
      ∀ k : Nat, (k : Int) < 4 → sieve (i * 2 ^ k) = false)) := by
  have hno : ¬ ((i % 2 ≠ 0 ∨ sieve (i / 2) = true) ∧
        ∀ k : Nat, (k : Int) < MINCHAIN → sieve (i * 2 ^ k) = false) →
      scanSideC O sieve S MINCHAIN MINACCEPT i glo fuel =
        some ⟨⟨0, ⟨0, 1⟩, glo⟩, false, []⟩ := by
    intro h
    unfold scanSideC
    by_cases hg : i % 2 ≠ 0 ∨ sieve (i / 2) = true
    · rw [if_pos hg]
      have hc : ¬ contiguous sieve i MINCHAIN MINCHAIN.toNat 0 = true := by
        rw [contiguous_iff]
        exact fun hc => h ⟨hg, hc⟩
      rw [if_neg hc]
    · rw [if_neg hg]
  have hyes : ((i % 2 ≠ 0 ∨ sieve (i / 2) = true) ∧
        ∀ k : Nat, (k : Int) < MINCHAIN → sieve (i * 2 ^ k) = false) →
      scanSideC O sieve S MINCHAIN MINACCEPT i glo fuel =
        (beyondLoop O sieve S i fuel MINCHAIN 0 ⟨-1, 1⟩).bind (fun b =>
          (findchainC O MINACCEPT i 0 (b.1 - 1) b.2.1 b.2.2 glo).map (fun r =>
            ⟨r.out, true,
              beyondCalls O sieve S i fuel MINCHAIN 0 ⟨-1, 1⟩ ++ r.calls ++ r.extra⟩)) := by
    rintro ⟨hg, hc⟩
    unfold scanSideC
    rw [if_pos hg, if_pos ((contiguous_iff sieve i MINCHAIN).mpr hc)]
    cases beyondLoop O sieve S i fuel MINCHAIN 0 ⟨-1, 1⟩ with
    | none => rfl
    | some b =>
      obtain ⟨k, mask, f⟩ := b
      dsimp only [Option.bind]
      cases findchainC O MINACCEPT i 0 (k - 1) mask f glo with
      | none => rfl
      | some r => rfl
  refine ⟨hno, hyes, ?_, (scanSideC_out O sieve S MINCHAIN MINACCEPT i glo fuel).symm, ?_⟩
  · intro r hr
    by_cases hcond : (i % 2 ≠ 0 ∨ sieve (i / 2) = true) ∧
        ∀ k : Nat, (k : Int) < MINCHAIN → sieve (i * 2 ^ k) = false
    · rw [hyes hcond] at hr
      cases hb : beyondLoop O sieve S i fuel MINCHAIN 0 ⟨-1, 1⟩ with
      | none => rw [hb] at hr; simp at hr
      | some b =>
        rw [hb] at hr
        dsimp only [Option.bind] at hr
        cases hf : findchainC O MINACCEPT i 0 (b.1 - 1) b.2.1 b.2.2 glo with
        | none => rw [hf] at hr; simp at hr
        | some run =>
          rw [hf] at hr
          have hrr := Option.some.inj hr
          rw [← hrr]
          dsimp only [Option.map]
          exact ⟨⟨fun _ => hcond, fun _ => rfl⟩, fun h => absurd h (by simp)⟩
    · rw [hno hcond] at hr
      have hrr := Option.some.inj hr
      rw [← hrr]
      exact ⟨⟨fun h => absurd h (by simp), fun h => absurd h hcond⟩, fun _ => ⟨rfl, rfl, rfl⟩⟩
  · unfold gate03
    simp only [Bool.and_eq_true, Bool.or_eq_true, decide_eq_true_eq, Bool.not_eq_true']
    constructor
    · rintro ⟨⟨⟨⟨hg, h0⟩, h1⟩, h2⟩, h3⟩
      refine ⟨hg, ?_⟩
      intro k hk
      have hk' : k < 4 := by exact_mod_cast hk
      interval_cases k
      · simpa using h0
      · simpa using h1
      · norm_num; exact h2
      · norm_num; exact h3
    · rintro ⟨hg, hc⟩
      have h0 := hc 0 (by norm_num)
      have h1 := hc 1 (by norm_num)
      have h2 := hc 2 (by norm_num)
      have h3 := hc 3 (by norm_num)
      norm_num at h0 h1 h2 h3
      exact ⟨⟨⟨⟨hg, h0⟩, h1⟩, h2⟩, h3⟩

/-! ### Index `0` of the sieves -/

theorem plus_start_eq {p : Nat} {a : Int} (hp : 2 ≤ p) (hfit : (p : Int) < 2147483648)
    (ha1 : 1 ≤ a) (hap : a < p) : Int.tmod (a * wrap32 ((p : Int) - 1)) p = p - a := by
  have hp2 : (2 : Int) ≤ p := by exact_mod_cast hp
  rw [wrap32_of_range (by omega) (by omega),
    Int.tmod_eq_emod (mul_nonneg (by omega) (by omega)) (by omega)]
  have : a * ((p : Int) - 1) = (p - a) + p * (a - 1) := by ring
  rw [this, Int.add_mul_emod_self_left]
  exact Int.emod_eq_of_lt (by omega) (by omega)

theorem markWrites_ge (S p : Int) (hp : 1 ≤ p) (hfit : S + p ≤ 2147483648) :
    ∀ (fuel : Nat) (j : Int), 1 ≤ j → ∀ x ∈ markWrites S p fuel j, 1 ≤ x := by
  intro fuel
  induction fuel with
  | zero => intro j _ x hx; simp [markWrites] at hx
  | succ fuel ih =>
    intro j hj x hx
    unfold markWrites at hx
    by_cases h : j < S
    · rw [if_pos h] at hx
      rcases List.mem_cons.mp hx with rfl | hx
      · exact hj
      · rw [wrap32_of_range (by omega) (by omega)] at hx
        exact ih (j + p) (by omega) x hx
    · rw [if_neg h] at hx
      simp at hx

theorem sieveStepWrites_ge {p : Nat} (hp : p.Prime) (S B : Int)
    (hfit : S + p ≤ 2147483648) :
    ∀ x ∈ sieveStepWrites S B p, 1 ≤ x := by
  intro x hx
  have hp2 : (2 : Int) ≤ p := by exact_mod_cast hp.two_le
  unfold sieveStepWrites at hx
  dsimp only at hx
  by_cases hB : B % (p : Int) ≠ 0
  · rw [if_pos hB] at hx
    rcases lt_or_le (p : Int) 2147483648 with hpfit | hpfit
    · obtain ⟨ha1, hap, _⟩ := inverse_origin hp B hpfit hB
      rcases List.mem_append.mp hx with h | h
      · exact markWrites_ge S p (by omega) hfit _ _ ha1 x h
      · rw [plus_start_eq hp.two_le hpfit ha1 hap] at h
        exact markWrites_ge S p (by omega) hfit _ _ (by omega) x h
    · have hS0 : S.toNat = 0 := by omega
      rw [hS0] at hx
      simp [markWrites] at hx
  · rw [if_neg hB] at hx
    simp at hx

theorem contiguousReads_ge (sieve : Int → Bool) (MINCHAIN i : Int) (hi1 : 1 ≤ i) :
    ∀ (fuel : Nat) (k : Int), ∀ x ∈ contiguousReads sieve i MINCHAIN fuel k, 1 ≤ x := by
  intro fuel
  induction fuel with
  | zero => intro k x hx; simp [contiguousReads] at hx
  | succ fuel ih =>
    intro k x hx
    unfold contiguousReads at hx
    by_cases h : k < MINCHAIN
    · rw [if_pos h] at hx
      rcases List.mem_cons.mp hx with rfl | hx
      · have : (1 : Int) ≤ 2 ^ k.toNat := by
          have : (0 : Int) < 2 ^ k.toNat := by positivity
          omega
        nlinarith
      · by_cases hs : sieve (i * 2 ^ k.toNat) = true
        · rw [if_pos hs] at hx; simp at hx
        · rw [if_neg hs] at hx
          exact ih (k + 1) x hx
    · rw [if_neg h] at hx
      simp at hx

theorem beyondReads_ge (O : Int → Frac → Bool × Frac) (sieve : Int → Bool) (S i : Int)
    (hi1 : 1 ≤ i) :
    ∀ (fuel : Nat) (k : Int) (f : Frac), ∀ x ∈ beyondReads O sieve S i fuel k f, 1 ≤ x := by
  intro fuel
  induction fuel with
  | zero => intro k f x hx; simp [beyondReads] at hx
  | succ fuel ih =>
    intro k f x hx
    unfold beyondReads at hx
    by_cases h : i * 2 ^ k.toNat < S
    · rw [if_pos h] at hx
      rcases List.mem_cons.mp hx with rfl | hx
      · have : (1 : Int) ≤ 2 ^ k.toNat := by
          have : (0 : Int) < 2 ^ k.toNat := by positivity
          omega
        nlinarith
      · by_cases hs : sieve (i * 2 ^ k.toNat) = true
        · rw [if_pos hs] at hx; simp at hx
        · rw [if_neg hs] at hx
          exact ih _ _ x hx
    · rw [if_neg h] at hx
      dsimp only at hx
      by_cases hr : (O (i * 2 ^ k.toNat) f).1 = true
      · rw [if_pos hr] at hx
        exact ih _ _ x hx
      · rw [if_neg hr] at hx
        simp at hx

/-- C25. Index `0` of both sieves is unused. For every origin `B` the marking
loops of the build write only at indices `≥ 1` (each starts at an index in
`[1, p-1]`), so `sieveminus[0]` and `sieveplus[0]` stay `0`; and for every
candidate `i ≥ 1` the gating test, the contiguity check and the extension loop
read only indices `≥ 1` (for `i = 1` the gating test reads nothing). -/
theorem C25_index_zero_unused (M : Nat) (P S B MINCHAIN i : Int)
    (O : Int → Frac → Bool × Frac) (sieve : Int → Bool) (fuel : Nat) (f : Frac)
    (h3 : 2 < M) (hM : M ≤ 2 ^ 30) (hS : 0 ≤ S) (hfit : S + M ≤ 2 ^ 31)
    (hq : ∃ q ∈ genprimes M, P < q) (hi1 : 1 ≤ i) :
    (∀ x ∈ buildWrites S (genprimes M) P B, 1 ≤ x) ∧
    (∃ sv, buildSieves S (genprimes M) P B = some sv ∧
      sv.sieveminus 0 = false ∧ sv.sieveplus 0 = false) ∧
    (∀ p : Nat, (p : Int) ∈ genprimes M → B % (p : Int) ≠ 0 →
      1 ≤ inverse (B % p) p ∧ inverse (B % p) p ≤ p - 1 ∧
      1 ≤ Int.tmod (inverse (B % p) p * wrap32 ((p : Int) - 1)) p ∧
      Int.tmod (inverse (B % p) p * wrap32 ((p : Int) - 1)) p ≤ p - 1) ∧
    (∀ x ∈ gateReads i ++ contiguousReads sieve i MINCHAIN MINCHAIN.toNat 0 ++
      beyondReads O sieve S i fuel MINCHAIN f, 1 ≤ x) ∧
    gateReads 1 = [] := by
  have hfit' : S + (M : Int) ≤ 2147483648 := by norm_num at hfit; exact hfit
  refine ⟨?_, ?_, ?_, ?_, by decide⟩
  · intro x hx
    unfold buildWrites at hx
    cases hs : skipSmall (genprimes M) P ((genprimes M).length + 1) 0 with
    | none => rw [hs] at hx; simp at hx
    | some i0 =>
      rw [hs] at hx
      dsimp only at hx
      obtain ⟨w, hw, hxw⟩ := mem_foldr_append hx
      obtain ⟨q, hq', rfl⟩ := List.mem_map.mp hw
      obtain ⟨n, hn, hlt, rfl⟩ := (mem_genprimes h3 hM q).mp (List.mem_of_mem_drop hq')
      have : (n : Int) < M := by exact_mod_cast hlt
      exact sieveStepWrites_ge hn S B (by omega) x hxw
  · obtain ⟨sv, hsv, hspec⟩ := buildSieves_spec M P S B h3 hM hS hfit hq
    refine ⟨sv, hsv, ?_, ?_⟩
    · cases h : sv.sieveminus 0 with
      | false => rfl
      | true => have := ((hspec 0).1.mp h).1; omega
    · cases h : sv.sieveplus 0 with
      | false => rfl
      | true => have := ((hspec 0).2.mp h).1; omega
  · intro p hp hB
    obtain ⟨n, hn, hlt, hpn⟩ := (mem_genprimes h3 hM p).mp hp
    have hpn' : p = n := by exact_mod_cast hpn
    subst hpn'
    have hlt' : (p : Int) < M := by exact_mod_cast hlt
    have hM' : (M : Int) ≤ 2 ^ 30 := by exact_mod_cast hM
    norm_num at hM'
    have hpfit : (p : Int) < 2147483648 := by omega
    obtain ⟨ha1, hap, _⟩ := inverse_origin hn B hpfit hB
    rw [plus_start_eq hn.two_le hpfit ha1 hap]
    exact ⟨ha1, by omega, by omega, by omega⟩
  · intro x hx
    rcases List.mem_append.mp hx with hx | hx
    · rcases List.mem_append.mp hx with hx | hx
      · unfold gateReads at hx
        by_cases h : i % 2 ≠ 0
        · rw [if_pos h] at hx; simp at hx
        · rw [if_neg h] at hx
          have hx : x = i / 2 := by simpa using hx
          omega
      · exact contiguousReads_ge sieve MINCHAIN i hi1 _ _ x hx
    · exact beyondReads_ge O sieve S i hi1 _ _ _ x hx

/-- C23 with a sieve in which only index `8` is marked, `MINCHAIN = 6`: the
candidate `i = 1` fails the contiguity check at `k = 3`, so no search runs; with
`MINCHAIN = 3` the check passes and the search runs. -/
theorem C23_scan_gating_witness :
    scanSideC (fun mul g => isbigprime 90 mul (-1) g) (fun j => decide (j = 8)) 128 6 5 1 0
        32 = some ⟨⟨0, ⟨0, 1⟩, 0⟩, false, []⟩ ∧
    (scanSideC (fun mul g => isbigprime 90 mul (-1) g) (fun j => decide (j = 8)) 128 3 5 1 0
        32).map ScanRun.searched = some true :=
  ⟨(C23_scan_gating (fun mul g => isbigprime 90 mul (-1) g) (fun j => decide (j = 8)) 128 6 5
      1 0 32).1 (fun h => by have := h.2 3 (by decide); simp at this),
    by decide⟩

/-- C25 at the source's tunables, origin `B = 200560490130`, candidate `i = 1`:
no table prime above `31` divides `B`, index `0` of both sieves stays `0`, and
the reads of the candidate start at index `1`. -/
theorem C25_index_zero_unused_witness :
    (∃ sv, buildSieves 1000000 (genprimes 50000) 31 200560490130 = some sv ∧
      sv.sieveminus 0 = false ∧ sv.sieveplus 0 = false) ∧
    contiguousReads (fun _ => false) 1 6 6 0 = [1, 2, 4, 8, 16, 32] ∧
    gateReads 1 = [] :=
  have h := C25_index_zero_unused 50000 31 1000000 200560490130 6 1
    (fun mul g => isbigprime 200560490130 mul (-1) g) (fun _ => false) 32 ⟨-1, 1⟩
    (by decide) (by decide) (by decide) (by decide)
    ⟨37, (mem_genprimes (by decide) (by decide) _).mpr ⟨37, by norm_num, by decide, rfl⟩,
      by decide⟩ (by decide)
  ⟨h.2.1, by decide, h.2.2.2.2⟩


/-! ### Call sites of `inverse` -/

theorem skipSmall_some (prim : List Int) (P : Int) :
    ∀ (fuel i k : Nat), skipSmall prim P fuel i = some k →
      k < prim.length ∧ P < primAt prim k := by
  intro fuel
  induction fuel with
  | zero => intro i k h; simp [skipSmall] at h
  | succ fuel ih =>
    intro i k h
    unfold skipSmall at h
    by_cases hi : i < prim.length
    · rw [if_pos hi] at h
      by_cases hp : primAt prim i ≤ P
      · rw [if_pos hp] at h
        exact ih _ _ h
      · rw [if_neg hp] at h
        have : i = k := Option.some.inj h
        subst this
        exact ⟨hi, by omega⟩
    · rw [if_neg hi] at h
      simp at h

/-- C26. Every call `inverse(j, p)` made by the sieve build satisfies the
precondition of `inverse`: `p` is a prime of the table above `PRIMORIAL` (below
`2^31`), `j` is `B mod p` with `0 < j < p`, hence `gcd(j, p) = 1`; and a table
prime with `B mod p = 0` never reaches `inverse`. -/
theorem C26_inverse_precondition (M : Nat) (P B : Int) (h3 : 2 < M) (hM : M ≤ 2 ^ 30) :
    (∀ c ∈ inverseCalls (genprimes M) P B,
      ∃ n : Nat, n.Prime ∧ c.2 = n ∧ c.2 ∈ genprimes M ∧ P < c.2 ∧ c.2 < 2147483648 ∧
        c.1 = B % c.2 ∧ 0 < c.1 ∧ c.1 < c.2 ∧ Int.gcd c.1 c.2 = 1) ∧
    (∀ p ∈ genprimes M, B % p = 0 → ∀ c ∈ inverseCalls (genprimes M) P B, c.2 ≠ p) := by
  have hmem : ∀ c ∈ inverseCalls (genprimes M) P B,
      c.2 ∈ genprimes M ∧ P < c.2 ∧ c.1 = B % c.2 ∧ B % c.2 ≠ 0 := by
    intro c hc
    unfold inverseCalls at hc
    cases hs : skipSmall (genprimes M) P ((genprimes M).length + 1) 0 with
    | none => rw [hs] at hc; simp at hc
    | some i0 =>
      obtain ⟨hlt, hP⟩ := skipSmall_some _ _ _ _ _ hs
      have hq : ∃ q ∈ genprimes M, P < q := by
        refine ⟨primAt (genprimes M) i0, ?_, hP⟩
        unfold primAt
        rw [List.getD_eq_getElem _ _ hlt]
        exact List.getElem_mem hlt
      obtain ⟨k, hk1, hk2⟩ := skipSmall_spec (genprimes M) P (genprimes M) 0
        ((genprimes M).length + 1) rfl (by omega) hq
      rw [hk1] at hc
      dsimp only at hc
      obtain ⟨q, hq1, hq2⟩ := List.mem_filterMap.mp hc
      rw [hk2, mem_dropWhile_sorted P _ (genprimes_sorted h3 hM)] at hq1
      by_cases hB : B % q ≠ 0
      · rw [if_pos hB] at hq2
        have := Option.some.inj hq2
        subst this
        exact ⟨hq1.1, hq1.2, rfl, hB⟩
      · rw [if_neg hB] at hq2
        simp at hq2
  constructor
  · intro c hc
    obtain ⟨h1, h2, h4, h5⟩ := hmem c hc
    obtain ⟨n, hn, hlt, hcn⟩ := (mem_genprimes h3 hM c.2).mp h1
    have hn2 : (2 : Int) ≤ n := by exact_mod_cast hn.two_le
    have hlt' : (n : Int) < M := by exact_mod_cast hlt
    have hM' : (M : Int) ≤ 2 ^ 30 := by exact_mod_cast hM
    norm_num at hM'
    have hr0 : 0 ≤ B % c.2 := Int.emod_nonneg _ (by omega)
    have hrp : B % c.2 < c.2 := Int.emod_lt_of_pos _ (by omega)
    refine ⟨n, hn, hcn, h1, h2, by omega, h4, by omega, by omega, ?_⟩
    rw [h4, hcn]
    have hnd : ¬ n ∣ (B % (n : Int)).natAbs := by
      intro hd
      have hpos : 0 < (B % (n : Int)).natAbs := by
        rw [hcn] at h5
        exact Int.natAbs_pos.mpr h5
      have := Nat.le_of_dvd hpos hd
      rw [hcn] at hr0 hrp
      omega
    have hcop : Nat.Coprime n (B % (n : Int)).natAbs := (Nat.Prime.coprime_iff_not_dvd hn).mpr hnd
    unfold Int.gcd
    rw [Int.natAbs_ofNat]
    exact hcop.symm
  · intro p _ hB c hc hcp
    have := (hmem c hc).2.2.2
    rw [hcp] at this
    exact this hB

/-- C26 at the source's tunables and the origin `B = 37 * 200560490130`: the
prime `37` divides `B` and never reaches `inverse`. -/
theorem C26_inverse_precondition_witness :
    (inverseCalls (genprimes 50000) 31 (37 * 200560490130)).all (fun c => decide (c.2 ≠ 37)) =
      true :=
  List.all_eq_true.mpr (fun c hc => decide_eq_true
    ((C26_inverse_precondition 50000 31 (37 * 200560490130) (by decide) (by decide)).2 37
      ((mem_genprimes (by decide) (by decide) _).mpr ⟨37, by norm_num, by decide, rfl⟩)
      (by decide) c hc))

/-! ### The aggregation mutex -/

/-- C27 fails in every iteration of the worker loop: whatever `localtried` is,
the operations of the iteration on `mutex_hash` end with an unlock the worker
performs while not holding the mutex. An iteration that does not merge
(`localtried = 1`) only unlocks; a merging one (`localtried = 100`) locks once
and unlocks twice. -/
theorem C27_unlock_without_holding :
    (∀ localtried : Int, runLockOps false (hashLockOps localtried) = none) ∧
    hashLockOps 1 = [LockOp.unlock] ∧
    hashLockOps 100 = [LockOp.lock, LockOp.unlock, LockOp.unlock] ∧
    runLockOps false [LockOp.lock, LockOp.unlock] = some false := by
  refine ⟨?_, by decide, by decide, by decide⟩
  intro lt
  unfold hashLockOps
  by_cases h : Int.tmod lt 100 = 0
  · rw [if_pos h]; rfl
  · rw [if_neg h]; rfl

/-! ### Rows of the statistics table in the naive version -/

theorem stupid01Loop_len (rel : Int) :
    ∀ (fuel : Nat) (p len : Int), 0 ≤ len → len ≤ 48 →
      0 ≤ (stupid01Loop rel fuel p len).1 ∧ (stupid01Loop rel fuel p len).1 ≤ 48 := by
  intro fuel
  induction fuel with
  | zero => intro p len h0 h1; exact ⟨h0, h1⟩
  | succ fuel ih =>
    intro p len h0 h1
    unfold stupid01Loop
    by_cases hc : (fermattest p && decide (len < 48)) = true
    · rw [if_pos hc]
      have hlt : len < 48 := by
        simp only [Bool.and_eq_true, decide_eq_true_eq] at hc
        exact hc.2
      simp only [eulerlagrangelifchitz, Bool.not_true, Bool.false_eq_true, if_false]
      exact ih _ _ (by omega) (by omega)
    · rw [if_neg hc]
      exact ⟨h0, h1⟩

/-- In the naive version the lengths returned by `findchain1stupid` and
`findchain2stupid` lie in `[0, 48]`, so `l1` and `l2` are valid rows of
`num[50][3]`; the bi-twin length is `l3 = 2*min(l1,l2)`, which lies in `[0, 96]`
and is a valid row exactly when `min(l1,l2) ≤ 24`. Whether some origin makes
both routines return `25` or more is not settled here. -/
theorem naive_stat_rows (inn1 inn2 : Int) :
    0 ≤ (findchain1stupid inn1).1 ∧ (findchain1stupid inn1).1 ≤ 48 ∧
    0 ≤ (findchain2stupid inn2).1 ∧ (findchain2stupid inn2).1 ≤ 48 ∧
    l3 (findchain1stupid inn1).1 (findchain2stupid inn2).1 =
      2 * min (findchain1stupid inn1).1 (findchain2stupid inn2).1 ∧
    0 ≤ l3 (findchain1stupid inn1).1 (findchain2stupid inn2).1 ∧
    l3 (findchain1stupid inn1).1 (findchain2stupid inn2).1 ≤ 96 ∧
    (l3 (findchain1stupid inn1).1 (findchain2stupid inn2).1 < 50 ↔
      min (findchain1stupid inn1).1 (findchain2stupid inn2).1 ≤ 24) := by
  have h1 : 0 ≤ (findchain1stupid inn1).1 ∧ (findchain1stupid inn1).1 ≤ 48 := by
    unfold findchain1stupid
    split
    · exact ⟨le_refl _, by norm_num⟩
    · exact stupid01Loop_len 1 49 inn1 0 (le_refl _) (by norm_num)
  have h2 : 0 ≤ (findchain2stupid inn2).1 ∧ (findchain2stupid inn2).1 ≤ 48 := by
    unfold findchain2stupid
    split
    · exact ⟨le_refl _, by norm_num⟩
    · exact stupid01Loop_len (-1) 49 inn2 0 (le_refl _) (by norm_num)
  have h3 := l3_eq_two_mul_min (findchain1stupid inn1).1 (findchain2stupid inn2).1
  refine ⟨h1.1, h1.2, h2.1, h2.2, h3, ?_, ?_, ?_⟩
  · rw [h3]; have := le_min h1.1 h2.1; omega
  · rw [h3]; have := min_le_left (findchain1stupid inn1).1 (findchain2stupid inn2).1; omega
  · rw [h3]; constructor <;> intro h <;> omega


/-! ### The lower bound handed to the sanity check -/


set_option maxRecDepth 100000 in
/-- C29 fails at the tunables of `04.c` for the origin
`B = 112224538813681394100 = 559554570 * 200560490130`, a multiple of every prime
up to `PRIMORIAL = 31` (the primorial step of `work` leaves it unchanged), and
the candidate `i = 1`. Minus side: the elements `0..6` are unmarked, element `7`
is marked (`53` divides it), the elements `0` and `6` fail and `findchain`
accepts `[1, 5]`: `l1 = 5`, `glo = 1`. Plus side: the elements `0..5` are
unmarked, element `6` is marked (`251` divides it), element `5` fails and
`findchain` accepts `[0, 4]`: `l2 = 5`, and `glo` is overwritten with `0`. The
first-kind sanity check is then started at `i<<glo = 1`, not at `i*2^1 = 2`;
from there the brute-force routine stops at once on `B - 1` with length `0`. -/
theorem C29_sanity_start_overwritten :
    primorialAdjust (genprimes 50000) 31 112224538813681394100 =
      some 112224538813681394100 ∧
    ∃ sv, buildSieves 1000000 (genprimes 50000) 31 112224538813681394100 = some sv ∧
      scanSide (fun mul g => isbigprimeD 112224538813681394100 mul (-1) g) sv.sieveminus
        1000000 6 5 1 0 32 = some ⟨5, ⟨8565896276914392, 36028797018963968⟩, 1⟩ ∧
      candidate04 sv 1000000 6 5 112224538813681394100 1 0 32 =
        some ⟨5, ⟨8565896276914392, 36028797018963968⟩,
          5, ⟨7327686623115988, 36028797018963968⟩, 0,
          some (1 * 2 ^ 0), some (1 * 2 ^ 0)⟩ ∧
      ((1 : Int) * 2 ^ 0 ≠ 1 * 2 ^ 1) ∧
      findchainstupidD 32 (112224538813681394100 * (1 * 2 ^ 0)) (-1) 1 ⟨0, 1⟩ =
        some (0, ⟨8237995327732076, 9007199254740992⟩) ∧
      findchainstupidD 32 (112224538813681394100 * (1 * 2 ^ 1)) (-1) 1 ⟨0, 1⟩ =
        some (5, ⟨8565896276914392, 36028797018963968⟩) := by
  obtain ⟨sv, hsv, hspec⟩ := buildSieves_spec 50000 31 1000000 112224538813681394100 (by decide)
    (by decide) (by decide) (by decide)
    ⟨37, (mem_genprimes (by decide) (by decide) _).mpr ⟨37, by norm_num, by decide, rfl⟩,
      by decide⟩
  have hunm : ∀ j : Nat, j < 7 → sv.sieveminus (1 * 2 ^ j) = false := by
    intro j hj
    have hn : ¬ ∃ p : Nat, p.Prime ∧ (31 : Int) < p ∧ p < 50000 ∧
        (p : Int) ∣ 1 * 2 ^ j * 112224538813681394100 - 1 := by
      interval_cases j
      · exact no_sieving_prime _ (by decide)
      · exact no_sieving_prime _ (by decide)
      · exact no_sieving_prime _ (by decide)
      · exact no_sieving_prime _ (by decide)
      · exact no_sieving_prime _ (by decide)
      · exact no_sieving_prime _ (by decide)
      · exact no_sieving_prime _ (by decide)
    cases h : sv.sieveminus (1 * 2 ^ j) with
    | false => rfl
    | true => exact absurd ((hspec _).1.mp h).2.2 hn
  have hmarkm : sv.sieveminus (1 * 2 ^ 7) = true :=
    (hspec _).1.mpr ⟨by norm_num, by norm_num, 53, by norm_num, by norm_num, by norm_num,
      by decide⟩
  have hunp : ∀ j : Nat, j < 6 → sv.sieveplus (1 * 2 ^ j) = false := by
    intro j hj
    have hn : ¬ ∃ p : Nat, p.Prime ∧ (31 : Int) < p ∧ p < 50000 ∧
        (p : Int) ∣ 1 * 2 ^ j * 112224538813681394100 + 1 := by
      interval_cases j
      · exact no_sieving_prime _ (by decide)
      · exact no_sieving_prime _ (by decide)
      · exact no_sieving_prime _ (by decide)
      · exact no_sieving_prime _ (by decide)
      · exact no_sieving_prime _ (by decide)
      · exact no_sieving_prime _ (by decide)
    cases h : sv.sieveplus (1 * 2 ^ j) with
    | false => rfl
    | true => exact absurd ((hspec _).2.mp h).2.2 hn
  have hmarkp : sv.sieveplus (1 * 2 ^ 6) = true :=
    (hspec _).2.mpr ⟨by norm_num, by norm_num, 251, by norm_num, by norm_num, by norm_num,
      by decide⟩
  have h1 : scanSide (fun mul g => isbigprimeD 112224538813681394100 mul (-1) g) sv.sieveminus
      1000000 6 5 1 0 32 = some ⟨5, ⟨8565896276914392, 36028797018963968⟩, 1⟩ := by
    rw [scanSide_inside _ _ _ _ _ _ _ 32 7 (by decide) (Or.inl (by decide)) (by decide)
      (by decide) (by decide) (by norm_num) hmarkm hunm]
    decide
  have h2 : scanSide (fun mul g => isbigprimeD 112224538813681394100 mul 1 g) sv.sieveplus
      1000000 6 5 1 1 32 = some ⟨5, ⟨7327686623115988, 36028797018963968⟩, 0⟩ := by
    rw [scanSide_inside _ _ _ _ _ _ _ 32 6 (by decide) (Or.inl (by decide)) (by decide)
      (by decide) (by decide) (by norm_num) hmarkp hunp]
    decide
  refine ⟨?_, sv, hsv, h1, ?_, by decide, by decide, by decide⟩
  · apply primorialAdjust_fixed
    intro p hp hle
    interval_cases p
    all_goals first | (norm_num; done) | (exfalso; norm_num at hp)
  unfold candidate04
  rw [h1]
  dsimp only
  rw [h2]
  rfl


/-! ### Primes pass the oracle -/

/-- Fermat's little theorem for the base `2`: a prime `p ≥ 3` has
`2^p mod p = 2`. -/
theorem two_pow_prime_mod {p : Nat} (hp : p.Prime) (h3 : 3 ≤ p) : 2 ^ p % p = 2 := by
  haveI : Fact p.Prime := ⟨hp⟩
  have h : ((2 ^ p : Nat) : ZMod p) = ((2 : Nat) : ZMod p) := by
    push_cast
    exact ZMod.pow_card 2
  have h' := (ZMod.natCast_eq_natCast_iff' _ _ _).mp h
  rw [h', Nat.mod_eq_of_lt (by omega)]

theorem fermattest_prime {p : Nat} (hp : p.Prime) (h3 : 3 ≤ p) :
    fermattest (p : Int) = true := by
  rw [fermattest_iff _ (by exact_mod_cast hp.pos), Int.toNat_natCast]
  have := two_pow_prime_mod hp h3
  exact_mod_cast this

/-- C31. No odd prime is rejected by the oracle: whenever `n = mul*B + offs ≥ 3`
is prime, `isbigprime` returns `1` and leaves `*f` untouched; so a composite
verdict on an `n ≥ 3` (then `2^n mod n ≠ 2`) means that `n` has a divisor
strictly between `1` and `n`. -/
theorem C31_prime_never_rejected (B mul offs : Int) (f : Frac)
    (hn : 3 ≤ mul * B + offs) :
    ((mul * B + offs).toNat.Prime → isbigprime B mul offs f = (true, f)) ∧
    ((isbigprime B mul offs f).1 = false →
      (2 : Int) ^ (mul * B + offs).toNat % (mul * B + offs) ≠ 2 ∧
      ¬ (mul * B + offs).toNat.Prime ∧ IsComposite (mul * B + offs)) := by
  have hcomm : B * mul + offs = mul * B + offs := by ring
  have heq := isbigprime_eq B mul offs f
  rw [hcomm] at heq
  have hcast : (((mul * B + offs).toNat : Nat) : Int) = mul * B + offs :=
    Int.toNat_of_nonneg (by omega)
  have hprime : (mul * B + offs).toNat.Prime → fermattest (mul * B + offs) = true := by
    intro hp
    have := fermattest_prime hp (by omega)
    rw [hcast] at this
    exact this
  constructor
  · intro hp
    rw [heq, if_pos (hprime hp)]
  · intro hfail
    have hf : fermattest (mul * B + offs) = false := by
      cases h : fermattest (mul * B + offs) with
      | false => rfl
      | true =>
        rw [heq, if_pos h] at hfail
        exact absurd hfail (by simp)
    have hnp : ¬ (mul * B + offs).toNat.Prime := by
      intro hp
      rw [hprime hp] at hf
      exact absurd hf (by simp)
    refine ⟨?_, hnp, ?_⟩
    · intro h2
      rw [(fermattest_iff _ (by omega)).mpr h2] at hf
      exact absurd hf (by simp)
    · obtain ⟨d, hd1, hd2, hd3⟩ :=
        Nat.exists_dvd_of_not_prime2 (by omega : 2 ≤ (mul * B + offs).toNat) hnp
      refine ⟨(d : Int), by omega, by omega, ?_⟩
      rw [← hcast]
      exact Int.natCast_dvd_natCast.mpr hd1

/-- C31 at `B = 90`, `mul = 1`, `offs = -1`: the prime `89` passes and `*f` is
left untouched. -/
theorem C31_prime_never_rejected_witness :
    ((1 : Int) * 90 + -1).toNat.Prime ∧ isbigprime 90 1 (-1) ⟨-1, 1⟩ = (true, ⟨-1, 1⟩) :=
  have hp : ((1 : Int) * 90 + -1).toNat.Prime := by
    have : ((1 : Int) * 90 + -1).toNat = 89 := by decide
    rw [this]; norm_num
  ⟨hp, (C31_prime_never_rejected 90 1 (-1) ⟨-1, 1⟩ (by decide)).1 hp⟩


/-! ### Fraction of a side without a chain -/

/-- C13 (amended). For a candidate `i ≥ 1` and either side of the scan (origin
`B ≥ 2`), if the length obtained is `0` then: the fraction is `0` when the gating
or the contiguity check fails (`findchain` is not called); when both pass,
`findchain` is called with `f = -1` and the fraction it leaves is `-1` or the
`double` residue of an element `n = (i*2^j)*B + side` that failed the oracle,
which lies in `[0, 1]` (for `n < 2^1024`, where the conversion to `double` is
finite). -/
theorem C13_zero_length_fraction (sieve : Int → Bool)
    (S MINCHAIN MINACCEPT i glo B side : Int) (fuel : Nat) (r : ChainOut)
    (hside : side = -1 ∨ side = 1) (hMA : 1 ≤ MINACCEPT) (hMC : 0 ≤ MINCHAIN) (hi : 1 ≤ i)
    (hB : 2 ≤ B)
    (hr : scanSide (fun mul g => isbigprimeD B mul side g) sieve S MINCHAIN MINACCEPT i glo
      fuel = some r)
    (hL : r.len = 0) :
    (¬ ((i % 2 ≠ 0 ∨ sieve (i / 2) = true) ∧
        contiguous sieve i MINCHAIN MINCHAIN.toNat 0 = true) → r.f = ⟨0, 1⟩) ∧
    (((i % 2 ≠ 0 ∨ sieve (i / 2) = true) ∧
        contiguous sieve i MINCHAIN MINCHAIN.toNat 0 = true) →
      r.f = ⟨-1, 1⟩ ∨ ∃ j : Nat, fermattest (B * (i * 2 ^ j) + side) = false ∧
        r.f = fractionD (B * (i * 2 ^ j) + side) ∧
        (B * (i * 2 ^ j) + side < 2 ^ 1024 → 0 ≤ r.f.val ∧ r.f.val ≤ 1)) := by
  have hpos : ∀ j : Nat, 0 < B * (i * 2 ^ j) + side := by
    intro j
    have h1 : (1 : Int) ≤ 2 ^ j := by
      have : (0 : Int) < 2 ^ j := by positivity
      omega
    have h2 : 1 ≤ i * 2 ^ j := by nlinarith
    have h3 : 2 ≤ B * (i * 2 ^ j) := by nlinarith
    rcases hside with h | h <;> omega
  have hres : ∀ (j : Nat) (g : Frac), fermattest (B * (i * 2 ^ j) + side) = false →
      g = fractionD (B * (i * 2 ^ j) + side) →
      g = ⟨-1, 1⟩ ∨ ∃ j : Nat, fermattest (B * (i * 2 ^ j) + side) = false ∧
        g = fractionD (B * (i * 2 ^ j) + side) ∧
        (B * (i * 2 ^ j) + side < 2 ^ 1024 → 0 ≤ g.val ∧ g.val ≤ 1) := by
    intro j g hfail hg
    refine Or.inr ⟨j, hfail, hg, fun _ => ?_⟩
    rw [hg]
    exact fractionD_range (hpos j)
  unfold scanSide at hr
  by_cases hg : i % 2 ≠ 0 ∨ sieve (i / 2) = true
  · rw [if_pos hg] at hr
    by_cases hc : contiguous sieve i MINCHAIN MINCHAIN.toNat 0 = true
    · rw [if_pos hc] at hr
      refine ⟨fun h => absurd ⟨hg, hc⟩ h, fun _ => ?_⟩
      cases hb : beyondLoop (fun mul g => isbigprimeD B mul side g) sieve S i fuel MINCHAIN 0
          ⟨-1, 1⟩ with
      | none => rw [hb] at hr; simp at hr
      | some res =>
        obtain ⟨k, mask, f⟩ := res
        rw [hb] at hr
        dsimp only at hr
        have hO := oracleIs_isbigprimeD B i side
        have hm0 : MaskOK (fun j => fermattest (B * (i * 2 ^ j.toNat) + side)) 0 := by
          intro j _ h; simp at h
        obtain ⟨_, _, hf⟩ := beyondLoop_spec hO sieve S fuel MINCHAIN 0 ⟨-1, 1⟩ k mask f hMC
          hm0 hb
        obtain ⟨R, hR, hsh, _, hcase⟩ := findchainLoopC_spec
          (fun mul g => isbigprimeD B mul side g) MINACCEPT i glo hMA
          (k - 1 - 0 + 1).toNat ⟨0, k - 1, mask, f, ⟨0, 1⟩⟩ (le_refl _)
          (Int.self_le_toNat _)
        have hout := findchainC_out (fun mul g => isbigprimeD B mul side g) MINACCEPT i 0
          (k - 1) mask f glo
        unfold findchainC at hout
        rw [hR, hr] at hout
        have hrR : R.out = r := Option.some.inj hout
        rcases hcase with ⟨ho, _, _⟩ | ⟨ho, hlen, _⟩
        · have hrf : r.f = R.fin.f := by rw [← hrR, ho]
          rcases hsh.front with ⟨_, hfe⟩ | ⟨_, k', g, hfail, hval⟩
          · dsimp only at hfe
            rw [hrf, hfe]
            rcases hf with hf | ⟨hf, hpk⟩
            · exact Or.inl hf
            · exact hres k.toNat _ hpk hf
          · dsimp only at hfail hval
            rw [isbigprimeD_eq] at hfail hval
            by_cases hp : fermattest (B * (i * 2 ^ k') + side) = true
            · rw [if_pos hp] at hfail
              simp at hfail
            · rw [if_neg hp] at hval
              dsimp only at hval
              rw [hrf]
              exact hres k' _ (by simpa using hp) hval
        · have : r.len = R.fin.hi - R.fin.lo + 1 := by rw [← hrR, ho]
          omega
    · rw [if_neg hc] at hr
      have hrr := Option.some.inj hr
      refine ⟨fun _ => by rw [← hrr], fun h => absurd h.2 hc⟩
  · rw [if_neg hg] at hr
    have hrr := Option.some.inj hr
    exact ⟨fun _ => by rw [← hrr], fun h => absurd h.1 hg⟩

set_option maxRecDepth 100000 in
/-- At the source's tunables and the origin `200560490130` (the primorial of
`31`, the adjusted origin of the hash value `1`), candidate `i = 1309`, minus
side: the elements `0..5` are unmarked, element `6` is marked (`41` divides
it), elements `1` and `2` fail the oracle, and `findchain` gives up on `[3, 5]`
with `*f` still `-1`. -/
theorem scan_1309_minus :
    ∃ sv, buildSieves 1000000 (genprimes 50000) 31 200560490130 = some sv ∧
      contiguous sv.sieveminus 1309 6 (6 : Int).toNat 0 = true ∧
      scanSide (fun mul g => isbigprimeD 200560490130 mul (-1) g) sv.sieveminus
        1000000 6 5 1309 0 32 = some ⟨0, ⟨-1, 1⟩, 0⟩ := by
  obtain ⟨sv, hsv, hspec⟩ := buildSieves_spec 50000 31 1000000 200560490130 (by decide)
    (by decide) (by decide) (by decide)
    ⟨37, (mem_genprimes (by decide) (by decide) _).mpr ⟨37, by norm_num, by decide, rfl⟩,
      by decide⟩
  refine ⟨sv, hsv, ?_⟩
  have hun : ∀ j : Nat, j < 6 → sv.sieveminus (1309 * 2 ^ j) = false := by
    intro j hj
    have hn : ¬ ∃ p : Nat, p.Prime ∧ (31 : Int) < p ∧ p < 50000 ∧
        (p : Int) ∣ 1309 * 2 ^ j * 200560490130 - 1 := by
      interval_cases j
      · exact no_sieving_prime _ (by decide)
      · exact no_sieving_prime _ (by decide)
      · exact no_sieving_prime _ (by decide)
      · exact no_sieving_prime _ (by decide)
      · exact no_sieving_prime _ (by decide)
      · exact no_sieving_prime _ (by decide)
    cases h : sv.sieveminus (1309 * 2 ^ j) with
    | false => rfl
    | true => exact absurd ((hspec _).1.mp h).2.2 hn
  have hmark : sv.sieveminus (1309 * 2 ^ 6) = true :=
    (hspec _).1.mpr ⟨by norm_num, by norm_num, 41, by norm_num, by norm_num, by norm_num,
      by decide⟩
  refine ⟨contiguous_of_unmarked _ _ _ (fun j hj => hun j (by omega)) _ 0 (le_refl _), ?_⟩
  rw [scanSide_inside _ _ _ _ _ _ _ 32 6 (by decide) (Or.inl (by decide)) (by decide)
    (by decide) (by decide) (by norm_num) hmark hun]
  decide

/-- C13 as stated fails at the source's tunables: for the origin `200560490130`
and the candidate `i = 1309`, the minus side passes the gating and the
contiguity check, `findchain` returns length `0`, and the fraction held for the
side is `-1`, not `0`. -/
theorem C13_counterexample :
    ∃ sv, buildSieves 1000000 (genprimes 50000) 31 200560490130 = some sv ∧
      scanSide (fun mul g => isbigprimeD 200560490130 mul (-1) g) sv.sieveminus
        1000000 6 5 1309 0 32 = some ⟨0, ⟨-1, 1⟩, 0⟩ ∧
      (⟨-1, 1⟩ : Frac).val = -1 ∧ (⟨-1, 1⟩ : Frac).val ≠ 0 := by
  obtain ⟨sv, h1, _, h2⟩ := scan_1309_minus
  exact ⟨sv, h1, h2, by simp [Frac.val], by simp [Frac.val]⟩

/-- C13 (amended) at the candidate `i = 1309` of the origin `200560490130`: the
minus side has length `0`, both checks pass, and the fraction is `-1` or the
`double` residue of an element that failed. -/
theorem C13_zero_length_fraction_witness :
    ∃ sv, buildSieves 1000000 (genprimes 50000) 31 200560490130 = some sv ∧
      scanSide (fun mul g => isbigprimeD 200560490130 mul (-1) g) sv.sieveminus
        1000000 6 5 1309 0 32 = some ⟨0, ⟨-1, 1⟩, 0⟩ ∧
      ((⟨-1, 1⟩ : Frac) = ⟨-1, 1⟩ ∨
        ∃ j : Nat, fermattest (200560490130 * (1309 * 2 ^ j) + -1) = false ∧
          (⟨-1, 1⟩ : Frac) = fractionD (200560490130 * (1309 * 2 ^ j) + -1) ∧
          (200560490130 * (1309 * 2 ^ j) + -1 < 2 ^ 1024 →
            0 ≤ (⟨-1, 1⟩ : Frac).val ∧ (⟨-1, 1⟩ : Frac).val ≤ 1)) := by
  obtain ⟨sv, h1, hc, h2⟩ := scan_1309_minus
  exact ⟨sv, h1, h2,
    (C13_zero_length_fraction sv.sieveminus 1000000 6 5 1309 0 200560490130 (-1) 32
      ⟨0, ⟨-1, 1⟩, 0⟩ (Or.inl rfl) (by decide) (by decide) (by decide) (by decide)
      h2 rfl).2 ⟨Or.inl (by decide), hc⟩⟩

end Cunningham
